import Mathlib

/-!
# Clone-stream handler of `backend/server.js`

A shallow embedding of the `GET /api/clone-stream` handler.  The handler is one long
`async` function that drives a browser page and pushes server-sent events.  It is
embedded as a state-passing program over

* a `World`: the environment's answers (which awaited call rejects, what `isVisible`,
  `textContent`, `page.url()`, `page.evaluate` see, how long each call takes), indexed by
  the number of calls made so far and by the call itself, so that every pattern of
  success and failure of the browser is a `World`;
* a `St`: the clock, the events written to the response, the calls performed, and the
  handler's mutable locals (`browser`, `lastProgress`, `previewReady`,
  `previewScreenshot`, `publishedUrl`).

The handler is cut into named parts (`composePrompt`, `submitFirst`, `loginBranch`,
`pollBody`, `monitor`, ...), each with the lines of `server.js` it embeds.

Conventions.
* Every awaited call may reject; `page.url()`, `Date.now()` and `sendProgress` do not
  throw.  Time only moves forward, by what the world says each call takes.
* The monitoring loop runs on fuel: a run whose fuel is spent is cut (`Out.pending`)
  and keeps the events and the trace it has so far.
* `req.query.url` and `req.query.prompt` are absent or a text.
* The texts of the request and of the page are Lean strings: well-formed Unicode.
  The text of a progress snapshot, `lastProgress` and the message of a `progress` event
  are JavaScript strings (`JsString`): sequences of UTF-16 code units, because
  `substring(0, 100)` counts code units and may cut a surrogate pair in two.
* The percentage of a snapshot is a JavaScript Number (`JsNumber`): `parseInt` rounds
  the value of a digit run to the nearest double (`toDouble`), and a template literal
  renders a Number by `Number::toString` (`numberToString`).
* Screenshot paths are kept as the file name passed to `path.join`.
* The trace also holds marks of three program points (`Step.poll`,
  `Step.publishAttempt`, `Step.extracted`); they change nothing else.
* The state keeps the events and the trace as two lists, and also their interleaving
  (`St.history`), so that "this event is sent before that call" can be said.
-/

namespace CloneFlow

/-! ## Texts -/

/-- White space and line terminators removed by `String.prototype.trim`. -/
def isJsSpace (c : Char) : Bool :=
  c.val = 0x09 || c.val = 0x0A || c.val = 0x0B || c.val = 0x0C || c.val = 0x0D ||
  c.val = 0x20 || c.val = 0xA0 || c.val = 0x1680 ||
  (0x2000 ≤ c.val && c.val ≤ 0x200A) ||
  c.val = 0x2028 || c.val = 0x2029 || c.val = 0x202F || c.val = 0x205F ||
  c.val = 0x3000 || c.val = 0xFEFF

/-- `cs.trim()` on the characters of a text. -/
def trimChars (cs : List Char) : List Char :=
  ((cs.dropWhile isJsSpace).reverse.dropWhile isJsSpace).reverse

/-- `s.trim()`. -/
def jsTrim (s : String) : String := ⟨trimChars s.data⟩

/-- `hay.includes(needle)` on the characters of two texts. -/
def includesChars (needle : List Char) : List Char → Bool
  | [] => needle.isEmpty
  | c :: cs => needle.isPrefixOf (c :: cs) || includesChars needle cs

/-- `s.includes(t)`. -/
def includes (s t : String) : Bool := includesChars t.data s.data

/-- A JavaScript string value: the sequence of its UTF-16 code units. -/
abbrev JsString := List Nat

/-- The UTF-16 code units of a character: itself when it is in the Basic Multilingual
Plane, a high and a low surrogate otherwise. -/
def unitsOf (c : Char) : List Nat :=
  if c.toNat < 0x10000 then [c.toNat]
  else [0xD800 + (c.toNat - 0x10000) / 0x400, 0xDC00 + (c.toNat - 0x10000) % 0x400]

/-- The JavaScript string value of a well-formed text. -/
def utf16 (s : String) : JsString := (s.data.map unitsOf).flatten

/-- `s.substring(0, n)`: the first `n` code units. -/
def substring0 (s : JsString) (n : Nat) : JsString := s.take n

/-- A template literal's rendering of a non-negative integer below 2^53, such as a value
of `Date.now()`. -/
def num (n : Nat) : String := Nat.repr n

/-! ## Numbers -/

/-- A JavaScript Number that is a non-negative integer or `Infinity`: what `parseInt`
returns on a run of decimal digits. -/
inductive JsNumber where
  | finite (n : Nat)
  | infinity
  deriving DecidableEq, Repr

/-- The least `e` from `e0` on with `n / 2 ^ e < 2 ^ 53`, searched for `fuel` steps: the
number of binary digits of `n` beyond 53. -/
def excessBits (n : Nat) : Nat → Nat → Nat
  | 0, e0 => e0
  | fuel + 1, e0 => if n / 2 ^ e0 < 2 ^ 53 then e0 else excessBits n fuel (e0 + 1)

/-- The Number value of a natural number: the nearest double, ties to the even
significand, and `Infinity` from 2^1024 on after rounding.  Below 2^53 it is exact. -/
def toDouble (n : Nat) : JsNumber :=
  if n < 2 ^ 53 then .finite n
  else
    let e := excessBits n n 0
    let q := n / 2 ^ e
    let r := n % 2 ^ e
    let m := if 2 * r < 2 ^ e then q else if 2 ^ e < 2 * r then q + 1 else q + q % 2
    if m * 2 ^ e < 2 ^ 1024 then .finite (m * 2 ^ e) else .infinity

/-- The `k`-digit significand `s` for which `s * 10 ^ (nd - k)` has the Number value `x`,
if there is one: the one nearest to `x`, the even one of two at the same distance. -/
def significand (x nd k : Nat) : Option Nat :=
  let p := 10 ^ (nd - k)
  let lo := x / p
  let hi := lo + 1
  let okLo : Bool := toDouble (lo * p) = .finite x
  let okHi : Bool := hi < 10 ^ k && toDouble (hi * p) = .finite x
  match okLo, okHi with
  | true, true =>
    if x - lo * p < hi * p - x then some lo
    else if hi * p - x < x - lo * p then some hi
    else if lo % 2 = 0 then some lo else some hi
  | true, false => some lo
  | false, true => some hi
  | false, false => none

/-- The `n`, `k` and `s` of `Number::toString` for a positive integer `x`, as
`(s, k, n)`: `s` has `k` digits, `s * 10 ^ (n - k)` has the Number value `x`, and `k` is
as small as possible. -/
def shortest (x : Nat) : Nat × Nat × Nat :=
  let nd := (Nat.toDigits 10 x).length
  if toDouble (10 ^ nd) = .finite x then (1, 1, nd + 1)
  else
    match (List.range nd).findSome? fun i => (significand x nd (i + 1)).map fun s => (s, i + 1) with
    | some (s, k) => (s, k, nd)
    | none => (x, nd, nd)

/-- `Number::toString(x)` in radix 10, as a template literal applies it: the digits of
`s` and `n - k` zeros up to 21 digits, the exponent form above. -/
def numberToString : JsNumber → String
  | .infinity => "Infinity"
  | .finite 0 => "0"
  | .finite x =>
    match shortest x with
    | (s, k, n) =>
      if n ≤ 21 then num s ++ String.mk (List.replicate (n - k) '0')
      else if k = 1 then num s ++ "e+" ++ num (n - 1)
      else String.mk ((num s).data.take 1) ++ "." ++ String.mk ((num s).data.drop 1) ++
        "e+" ++ num (n - 1)

/-- JavaScript truthiness of a value that is `null` or a string. -/
def truthy : Option String → Bool
  | none => false
  | some s => s != ""

/-! ## Calls on the browser -/

/-- The locators the handler builds. -/
inductive Loc where
  /-- `getByRole('paragraph').nth(1)` -/
  | paragraphNth1
  /-- `getByRole('paragraph').first()` -/
  | paragraphFirst
  /-- `getByRole('textbox')` -/
  | textbox
  /-- `getByRole('textbox', name: 'Paste your link here')` -/
  | linkField
  /-- `getByText('Clone Website')` -/
  | cloneWebsite
  /-- `getByTestId('import-submit-button')` -/
  | submitButton
  /-- `getByRole('button', name: 'Log in')` -/
  | loginButton
  /-- `getByRole('textbox', name: 'name@email.com')` -/
  | emailField
  /-- `getByRole('textbox', name: 'Type your password here')` -/
  | passwordField
  /-- `getByRole('button', name: 'Sign In')` -/
  | signInButton
  /-- `getByText('Making edits...')` -/
  | makingEdits
  /-- `getByText('Loading...')` -/
  | loading
  /-- `locator('iframe').first()` -/
  | iframe
  /-- `locator('button:has-text("Publish")').first()` -/
  | publishTrigger
  /-- `locator('button.w-full:has-text("Publish")').first()` -/
  | publishButton
  /-- `locator('span.text-blue-500').first()` -/
  | domainSpan
  deriving DecidableEq, Repr

/-- The calls the handler makes on the browser, the page and the clock. -/
inductive Action where
  | launch
  | newContext
  | newPage
  | goto (url : String)
  | waitForTimeout (ms : Nat)
  | click (l : Loc)
  | fill (l : Loc) (value : String)
  | type (l : Loc) (value : String)
  | isVisible (l : Loc)
  | waitForHidden (l : Loc) (timeout : Nat)
  | waitForSelector (selector : String) (timeout : Nat)
  | boundingBox (l : Loc)
  | textContent (l : Loc)
  | screenshot (file : String) (clip : Bool)
  /-- `page.evaluate` of the progress extractor (lines 274-298) -/
  | evaluateProgress
  /-- `page.evaluate` of the full-document address scan (lines 492-501) -/
  | evaluateAllText
  /-- `page.url()` -/
  | url
  /-- `Date.now()` -/
  | now
  /-- `browser.close()` -/
  | close
  deriving DecidableEq, Repr

/-- A thrown `Error`. -/
structure JsError where
  message : String
  stack : String
  deriving DecidableEq, Repr

/-- An entry of the trace: a call, or a mark of a program point. -/
inductive Step where
  | act (a : Action)
  /-- the body of the monitoring loop is entered (line 262) -/
  | poll
  /-- the body of the publish loop is entered with this `attempt` (line 426) -/
  | publishAttempt (attempt : Nat)
  /-- `publishedUrl` is assigned from the text `t` read from the page (lines 480, 503) -/
  | extracted (t : String)
  deriving DecidableEq, Repr

/-- The records passed to `sendProgress`, which writes them with `JSON.stringify`
(a `progress` that is `Infinity` is written as `null`). -/
inductive Event where
  | status (message : String) (step : Nat) (progress : Option Nat)
  | progress (message : JsString) (progress : JsNumber) (step : Nat)
  | preview_ready (previewScreenshot : String) (message : String)
  | complete (success : Bool) (screenshot : String) (previewScreenshot : Option String)
      (editUrl : String) (publishedUrl : Option String) (message : String)
  | error (error : String) (details : String)
  deriving DecidableEq, Repr

/-- An entry of the history of a run: an event written to the response, or an entry of
the trace. -/
inductive Entry where
  | sent (e : Event)
  | did (x : Step)
  deriving DecidableEq, Repr

/-- The environment: what the browser, the page and the clock answer.  Every field
takes the number of calls made before the one it answers. -/
structure World where
  /-- whether `new URL(s)` returns -/
  urlParses : String → Bool
  /-- `new URL('')` throws -/
  parse_empty : urlParses "" = false
  /-- the clock when the handler starts -/
  t0 : Nat
  /-- milliseconds that pass during a call -/
  elapsed : Nat → Action → Nat
  /-- the error an awaited call rejects with, if it rejects -/
  fails : Nat → Action → Option JsError
  /-- the answer of `isVisible()` -/
  visible : Nat → Loc → Bool
  /-- the answer of `boundingBox()`: `null`, or the width and height of the box -/
  box : Nat → Option (Int × Int)
  /-- the answer of `textContent()` -/
  content : Nat → Option String
  /-- the answer of `page.url()` -/
  location : Nat → String
  /-- the `textContent` of the elements a `querySelectorAll` of `page.evaluate` yields,
  in document order -/
  texts : Nat → List String
  /-- `ANIMA_EMAIL` -/
  email : String
  /-- `ANIMA_PASSWORD` -/
  password : String

/-- The state of one run of the handler. -/
structure St where
  /-- number of calls made so far -/
  tick : Nat
  clock : Nat
  /-- what `sendProgress` has written, oldest first -/
  events : List Event
  /-- the calls made and marks passed, oldest first -/
  trace : List Step
  /-- the events and the entries of the trace together, in the order in which they
  happened -/
  history : List Entry
  /-- `browser` is assigned -/
  browser : Bool
  lastProgress : JsString
  previewReady : Bool
  previewScreenshot : Option String
  publishedUrl : Option String
  /-- `res.end()` has been called -/
  ended : Bool
  deriving DecidableEq, Repr

/-- How a piece of the handler ends: it returns, it throws, or it is still running
when the monitoring loop's fuel is spent. -/
inductive Out (α : Type) where
  | ret (a : α)
  | thrown (e : JsError)
  | pending
  deriving Repr

/-- Programs over the state. -/
def M (α : Type) : Type := St → Out α × St

/-- Return a value. -/
def M.pure {α : Type} (a : α) : M α := fun s => (.ret a, s)

/-- Sequencing: a throw or a pending run skips the rest. -/
def M.bind {α β : Type} (m : M α) (f : α → M β) : M β := fun s =>
  match m s with
  | (.ret a, s1) => f a s1
  | (.thrown e, s1) => (.thrown e, s1)
  | (.pending, s1) => (.pending, s1)

instance : Monad M where
  pure := M.pure
  bind := M.bind

/-- The statement `try m catch (e) h`. -/
def tryCatchM {α : Type} (m : M α) (h : JsError → M α) : M α := fun s =>
  match m s with
  | (.ret a, s1) => (.ret a, s1)
  | (.thrown e, s1) => h e s1
  | (.pending, s1) => (.pending, s1)

/-- Read the state. -/
def getSt : M St := fun s => (.ret s, s)

/-- Update the handler's locals. -/
def setSt (f : St → St) : M Unit := fun s => (.ret (), f s)

/-- The run is cut here: the fuel of the monitoring loop is spent. -/
def outOfFuel {α : Type} : M α := fun s => (.pending, s)

/-- `sendProgress(data)`. -/
def sendProgress (e : Event) : M Unit :=
  fun s => (.ret (), { s with events := s.events ++ [e], history := s.history ++ [.sent e] })

/-- Pass a marked program point. -/
def mark (x : Step) : M Unit :=
  fun s => (.ret (), { s with trace := s.trace ++ [x], history := s.history ++ [.did x] })

/-- The state after a call: one more tick, time has passed, the call is in the trace. -/
def St.after (w : World) (a : Action) (s : St) : St :=
  { s with tick := s.tick + 1, clock := s.clock + w.elapsed s.tick a,
           trace := s.trace ++ [.act a], history := s.history ++ [.did (.act a)] }

/-- An awaited call: it may reject.  Returns the tick at which it was made. -/
def await (w : World) (a : Action) : M Nat := fun s =>
  match w.fails s.tick a with
  | some e => (.thrown e, s.after w a)
  | none => (.ret s.tick, s.after w a)

/-- An awaited call whose value is not used. -/
def perform (w : World) (a : Action) : M Unit := fun s =>
  match w.fails s.tick a with
  | some e => (.thrown e, s.after w a)
  | none => (.ret (), s.after w a)

/-- A synchronous call that does not throw.  Returns the tick at which it was made. -/
def call (w : World) (a : Action) : M Nat := fun s => (.ret s.tick, s.after w a)

/-- `Date.now()`. -/
def dateNow (w : World) : M Nat := fun s =>
  (.ret (s.clock + w.elapsed s.tick .now), s.after w .now)

/-- `page.url()`. -/
def pageUrl (w : World) : M String := do
  let t ← call w .url
  pure (w.location t)

/-- `await locator.isVisible()`. -/
def isVisible (w : World) (l : Loc) : M Bool := do
  let t ← await w (.isVisible l)
  pure (w.visible t l)

/-! ## The two in-page functions -/

/-- An attempt of `/(\d+)%/` at the head of a text: the digits captured. -/
def digitsThenPercent (cs : List Char) : Option (List Char) :=
  match cs.takeWhile Char.isDigit, cs.dropWhile Char.isDigit with
  | d :: ds, '%' :: _ => some (d :: ds)
  | _, _ => none

/-- The capture of `text.match(/(\d+)%/)`: the leftmost position where the pattern
matches. -/
def matchPercent : List Char → Option (List Char)
  | [] => none
  | c :: cs =>
    match digitsThenPercent (c :: cs) with
    | some ds => some ds
    | none => matchPercent cs

/-- The integer a run of decimal digits denotes: the `mathInt` of `parseInt`. -/
def mathInt (ds : List Char) : Nat :=
  ds.foldl (fun n c => 10 * n + (c.toNat - 48)) 0

/-- `parseInt` of a run of decimal digits: the Number value of the integer it denotes
(correctly rounded, as V8 does for radix 10). -/
def parseInt (ds : List Char) : JsNumber := toDouble (mathInt ds)

/-- The phrases of `statusTexts`. -/
def statusTexts : List String :=
  ["Creating visual direction", "Scanning page elements", "Project structure", "Let's build"]

/-- What the progress extractor returns. -/
structure ProgressText where
  percent : Option JsNumber
  text : JsString
  deriving DecidableEq, Repr

/-- The function evaluated in the page at lines 274-298, on the texts of the elements
matching `h1, h2, h3, div`. -/
def progressText (els : List String) : Option ProgressText :=
  match els.findSome? (fun text =>
      (matchPercent text.data).map fun ds =>
        ProgressText.mk (some (parseInt ds)) (utf16 (jsTrim text))) with
  | some r => some r
  | none =>
    els.findSome? fun text =>
      if statusTexts.any (fun status => includes text status) then
        some (ProgressText.mk none (substring0 (utf16 (jsTrim text)) 100))
      else none

/-- The function evaluated in the page at lines 492-501, on the texts of the elements
matching `span, a, div`. -/
def allText (els : List String) : Option String :=
  (els.find? fun text => includes text ".dev.animaapp.io" && !includes text " ").map jsTrim

/-! ## The handler -/

/-- `maxWaitTime`: 35 minutes. -/
def maxWaitTime : Nat := 35 * 60 * 1000

/-- `maxPublishAttempts`. -/
def maxPublishAttempts : Nat := 2

/-- The address of the platform. -/
def platform : String := "https://dev.animaapp.com/"

/-- The test `prompt && prompt.trim()`. -/
def hasPrompt (prompt : String) : Bool := prompt != "" && jsTrim prompt != ""

/-- The body of the `try` at lines 130-143 and, again, at lines 219-232. -/
def composePrompt (w : World) (url prompt : String) : M Unit := do
  perform w (.click .paragraphNth1)
  perform w (.waitForTimeout 300)
  perform w (.click .paragraphFirst)
  perform w (.waitForTimeout 300)
  perform w (.fill .textbox (jsTrim prompt ++ "\n\n\n"))
  perform w (.type .textbox "/")
  perform w (.waitForTimeout 1000)
  perform w (.click .cloneWebsite)
  perform w (.click .linkField)
  perform w (.fill .linkField url)
  perform w (.waitForTimeout 3000)

/-- Lines 121-153: the optional instructions, then the click on submit. -/
def submitFirst (w : World) (url prompt : String) : M Unit := do
  if hasPrompt prompt then
    sendProgress (.status "Adding custom instructions..." 7 none)
    tryCatchM (composePrompt w url prompt) (fun _ => pure ())
  perform w (.click .submitButton)
  perform w (.waitForTimeout 2000)

/-- Lines 155-243: the login branch. -/
def loginBranch (w : World) (url prompt : String) : M Unit := do
  let loginButton ← tryCatchM (isVisible w .loginButton) (fun _ => pure false)
  if loginButton then
    perform w (.click .loginButton)
    perform w (.waitForTimeout 2000)
    perform w (.click .emailField)
    perform w (.fill .emailField w.email)
    perform w (.click .passwordField)
    perform w (.fill .passwordField w.password)
    perform w (.click .signInButton)
    perform w (.waitForTimeout 5000)
    perform w (.goto platform)
    perform w (.waitForTimeout 3000)
    if hasPrompt prompt then
      tryCatchM (composePrompt w url prompt) (fun _ => pure ())
    sendProgress (.status "Submitting..." (if prompt != "" then 18 else 16) none)
    perform w (.click .submitButton)
    perform w (.waitForTimeout 2000)

/-- The text `progressMessage` of lines 301-303. -/
def progressMessage (p : ProgressText) : JsString :=
  match p.percent with
  | some n => p.text ++ utf16 (" (" ++ numberToString n ++ "%)")
  | none => p.text

/-- Lines 300-315: emit a `progress` event unless its message is the last one sent. -/
def reportProgress (p : ProgressText) : M Unit := do
  let s ← getSt
  if progressMessage p != s.lastProgress then
    setSt fun s => { s with lastProgress := progressMessage p }
    sendProgress (.progress (progressMessage p) (p.percent.getD (.finite 0)) 16)

/-- The `try` body of one poll, lines 263-324.  Returns `true` when it leaves the loop
by `break`. -/
def pollBody (w : World) (startTime : Nat) : M Bool := do
  let currentUrl ← pageUrl w
  if includes currentUrl "/chat/" then
    setSt fun s => { s with previewReady := true }
    sendProgress (.status "Preview is ready!" 21 (some 100))
    pure true
  else
    let found ← tryCatchM
      (do let t ← await w .evaluateProgress; pure (progressText (w.texts t)))
      (fun _ => pure none)
    match found with
    | some p => reportProgress p
    | none => pure ()
    let t1 ← dateNow w
    let elapsed := (t1 - startTime) / 1000
    if elapsed % 30 = 0 then
      let t2 ← dateNow w
      tryCatchM (perform w (.screenshot ("progress-" ++ num t2 ++ ".png") false))
        (fun _ => pure ())
    pure false

/-- The monitoring loop, lines 261-332.  `fuel` bounds the number of times its
condition is evaluated. -/
def monitor (w : World) (startTime : Nat) : Nat → M Unit
  | 0 => outOfFuel
  | fuel + 1 => do
    let t ← dateNow w
    if t - startTime < maxWaitTime then
      mark .poll
      let left ← tryCatchM (pollBody w startTime) (fun _ => pure false)
      if left then pure ()
      else
        perform w (.waitForTimeout 3000)
        monitor w startTime fuel
    else pure ()

/-- Lines 334-348: the last look at the address, then the final screenshot.  Returns
`finalScreenshotFilename`. -/
def finalScreenshot (w : World) : M String := do
  let s ← getSt
  if !s.previewReady then
    let currentUrl ← pageUrl w
    if includes currentUrl "/chat/" then
      setSt fun s => { s with previewReady := true }
  let t ← dateNow w
  let finalScreenshotFilename := "clone-final-" ++ num t ++ ".png"
  perform w (.screenshot finalScreenshotFilename false)
  pure finalScreenshotFilename

/-- Lines 356-400: the waits before the preview is captured. -/
def settle (w : World) : M Unit := do
  perform w (.waitForTimeout 3000)
  sendProgress (.status "Waiting before checking edits..." 20 none)
  perform w (.waitForTimeout 10000)
  sendProgress (.status "Checking if edits are complete..." 20 none)
  let makingEditsVisible ← tryCatchM (isVisible w .makingEdits) (fun _ => pure false)
  if makingEditsVisible then
    sendProgress
      (.status "Waiting for \"Making edits...\" to complete before publishing..." 20 none)
    tryCatchM
      (do perform w (.waitForHidden .makingEdits 600000)
          sendProgress (.status "Edits complete. Proceeding to publish..." 21 none)
          perform w (.waitForTimeout 2000))
      (fun _ => pure ())
  sendProgress (.status "Waiting for preview to load..." 21 none)
  let loadingVisible ← tryCatchM (isVisible w .loading) (fun _ => pure false)
  if loadingVisible then
    sendProgress (.status "Waiting for \"Loading...\" to complete..." 21 none)
    tryCatchM (perform w (.waitForHidden .loading 120000)) (fun _ => pure ())
  sendProgress (.status "Preview settling..." 21 none)
  perform w (.waitForTimeout 5000)

/-- Lines 402-421: the preview screenshot and the `preview_ready` event. -/
def capturePreview (w : World) : M Unit := do
  let t ← dateNow w
  let previewFilename := "preview-" ++ num t ++ ".png"
  tryCatchM
    (do let tb ← await w (.boundingBox .iframe)
        match w.box tb with
        | some (width, height) =>
          if width > 0 && height > 0 then perform w (.screenshot previewFilename true)
          else perform w (.screenshot previewFilename false)
        | none => perform w (.screenshot previewFilename false))
    (fun _ => perform w (.screenshot previewFilename false))
  setSt fun s => { s with previewScreenshot := some ("/screenshots/" ++ previewFilename) }
  sendProgress
    (.preview_ready ("/screenshots/" ++ previewFilename) "Preview ready. Publishing your site...")

/-- Lines 474-488: read the address from the styled span.  Returns `true` on `break`. -/
def extractFromSpan (w : World) : M Bool :=
  tryCatchM
    (do let shown ← isVisible w .domainSpan
        if shown then
          let tc ← await w (.textContent .domainSpan)
          match w.content tc with
          | some domainText =>
            if domainText != "" && includes domainText ".dev.animaapp.io" then
              setSt fun s => { s with publishedUrl := some ("https://" ++ jsTrim domainText) }
              mark (.extracted domainText)
              sendProgress
                (.status ("Website published at: " ++ ("https://" ++ jsTrim domainText)) 27 none)
              pure true
            else pure false
          | none => pure false
        else pure false)
    (fun _ => pure false)

/-- Lines 490-510: the full-document scan.  Returns `true` on `break`. -/
def extractFromDocument (w : World) : M Bool := do
  let s ← getSt
  if !truthy s.publishedUrl then
    tryCatchM
      (do let te ← await w .evaluateAllText
          match allText (w.texts te) with
          | some found =>
            if found != "" then
              setSt fun s => { s with publishedUrl := some ("https://" ++ found) }
              mark (.extracted found)
              pure true
            else pure false
          | none => pure false)
      (fun _ => pure false)
  else pure false

/-- Lines 427-472 of a publish attempt: the two clicks on publish, the wait for the
badge, the opening of the sheet and its screenshot. -/
def openSheet (w : World) (attempt : Nat) : M Unit := do
  if attempt > 1 then
    sendProgress (.status ("Retrying publish (attempt " ++ num attempt ++ "/" ++
      num maxPublishAttempts ++ ")...") 22 none)
    perform w (.waitForTimeout 3000)
  perform w (.click .publishTrigger)
  perform w (.waitForTimeout 2000)
  sendProgress (.status "Publishing website..." 23 none)
  perform w (.click .publishButton)
  sendProgress (.status "Waiting for publish to complete..." 24 none)
  tryCatchM (perform w (.waitForSelector "text=LIVE!" 60000)) (fun _ => pure ())
  perform w (.waitForTimeout 3000)
  sendProgress (.status "Opening published details..." 25 none)
  tryCatchM
    (do let sheetOpen ← isVisible w .domainSpan
        if !sheetOpen then
          perform w (.click .publishTrigger)
          perform w (.waitForTimeout 2000))
    (fun _ => pure ())
  let t ← dateNow w
  perform w (.screenshot ("publish-sheet-" ++ num t ++ ".png") false)

/-- The `try` body of one publish attempt, lines 427-512.  Returns `true` when it
leaves the loop by `break`. -/
def publishAttempt (w : World) (attempt : Nat) : M Bool := do
  openSheet w attempt
  let fromSpan ← extractFromSpan w
  if fromSpan then pure true
  else
    let fromDocument ← extractFromDocument w
    if fromDocument then pure true
    else
      let s ← getSt
      pure (truthy s.publishedUrl)

/-- The publish loop, lines 425-516, with `remaining` iterations to go: the iteration
run first has `attempt = maxPublishAttempts + 1 - remaining`. -/
def publishLoop (w : World) : Nat → M Unit
  | 0 => pure ()
  | remaining + 1 => do
    mark (.publishAttempt (maxPublishAttempts - remaining))
    let left ← tryCatchM (publishAttempt w (maxPublishAttempts - remaining))
      (fun _ => pure false)
    if left then pure ()
    else publishLoop w remaining

/-- Lines 355-529: the publish phase, entered when `previewReady` holds. -/
def publishPhase (w : World) : M Unit :=
  tryCatchM
    (do settle w
        capturePreview w
        publishLoop w maxPublishAttempts
        let s ← getSt
        if !truthy s.publishedUrl then
          sendProgress (.status "Publish could not be completed. Showing preview." 27 none)
        let t ← dateNow w
        tryCatchM (perform w (.screenshot ("published-" ++ num t ++ ".png") false))
          (fun _ => pure ()))
    (fun _ =>
      sendProgress (.status "Publish process encountered an issue. Showing preview." 19 none))

/-- The `message` of the `complete` event. -/
def completeMessage (publishedUrl : Option String) (previewReady : Bool) : String :=
  if truthy publishedUrl then "Landing page generated and published successfully!"
  else if previewReady then
    "Landing page generated! Publish could not be completed — preview shown below."
  else "Generation process completed (check platform for results)"

/-- Lines 549-556: the idle two minutes, the close of the browser, the end of the
response. -/
def linger (w : World) : M Unit := do
  perform w (.waitForTimeout 120000)
  perform w .close
  setSt fun s => { s with ended := true }

/-- Lines 532-556: the `complete` event, then `linger`. -/
def finish (w : World) (finalScreenshotFilename : String) : M Unit := do
  let editUrl ← pageUrl w
  let s ← getSt
  sendProgress (.complete true ("/screenshots/" ++ finalScreenshotFilename) s.previewScreenshot
    editUrl s.publishedUrl (completeMessage s.publishedUrl s.previewReady))
  linger w

/-- Lines 74-332: from the launch of the browser to the end of monitoring. -/
def generate (w : World) (fuel : Nat) (url prompt : String) : M Unit := do
  perform w .launch
  setSt fun s => { s with browser := true }
  perform w .newContext
  perform w .newPage
  perform w (.goto platform)
  perform w (.waitForTimeout 3000)
  submitFirst w url prompt
  loginBranch w url prompt
  sendProgress (.status "Generation process started! Monitoring progress..."
    (if prompt != "" then 19 else 17) none)
  perform w (.waitForTimeout 5000)
  let _ ← pageUrl w
  let startTime ← dateNow w
  monitor w startTime fuel

/-- The `try` block of the handler, lines 74-556. -/
def tryBlock (w : World) (fuel : Nat) (url prompt : String) : M Unit := do
  generate w fuel url prompt
  let finalScreenshotFilename ← finalScreenshot w
  let s ← getSt
  if s.previewReady then
    publishPhase w
  finish w finalScreenshotFilename

/-- The `catch` block of the handler, lines 558-576. -/
def catchBlock (w : World) (error : JsError) : M Unit := do
  sendProgress (.error ("Failed to clone website: " ++ error.message) error.stack)
  let s ← getSt
  if s.browser then
    tryCatchM (perform w .close) (fun _ => pure ())
  setSt fun s => { s with ended := true }

/-- The query of a request: `req.query.url` and `req.query.prompt`, each absent or a
text. -/
structure Request where
  url : Option String
  prompt : Option String
  deriving DecidableEq, Repr

/-- How the handler answers: with a JSON body and a status, or with an event stream. -/
inductive Reply where
  | json (status : Nat) (error : String)
  | eventStream
  deriving DecidableEq, Repr

/-- What a run of the handler leaves. -/
structure Run where
  reply : Reply
  /-- the handler has returned (`false`: the fuel was spent while monitoring) -/
  returned : Bool
  st : St
  deriving DecidableEq, Repr

/-- The state in which the handler starts. -/
def St.init (w : World) : St :=
  { tick := 0, clock := w.t0, events := [], trace := [], history := [], browser := false,
    lastProgress := [], previewReady := false, previewScreenshot := none,
    publishedUrl := none, ended := false }

/-- The `try` statement of the handler, lines 74-576. -/
def tryStatement (w : World) (fuel : Nat) (url prompt : String) : M Unit :=
  tryCatchM (tryBlock w fuel url prompt) (catchBlock w)

/-- The part of the handler after validation, lines 59-576. -/
def stream (w : World) (fuel : Nat) (url prompt : String) : M Unit := do
  sendProgress (.status "Starting clone process..." 1 none)
  tryStatement w fuel url prompt

/-- The handler of `GET /api/clone-stream`. -/
def cloneStream (w : World) (fuel : Nat) (req : Request) : Run :=
  match req.url with
  | none => { reply := .json 400 "URL is required", returned := true, st := St.init w }
  | some url =>
    if url = "" then
      { reply := .json 400 "URL is required", returned := true, st := St.init w }
    else if !w.urlParses url then
      { reply := .json 400 "Invalid URL format", returned := true, st := St.init w }
    else
      match stream w fuel url (req.prompt.getD "") (St.init w) with
      | (.ret _, s) => { reply := .eventStream, returned := true, st := s }
      | (.thrown _, s) => { reply := .eventStream, returned := true, st := s }
      | (.pending, s) => { reply := .eventStream, returned := false, st := s }

/-- The events of a run. -/
def Run.events (r : Run) : List Event := r.st.events

/-- The trace of a run. -/
def Run.trace (r : Run) : List Step := r.st.trace

/-- The history of a run: its events and its trace, interleaved as they happened. -/
def Run.history (r : Run) : List Entry := r.st.history


/-! ## Effects -/

/-- The primitive effects of the handler on its state. -/
inductive Label where
  | act (a : Action)
  | emit (e : Event)
  | mark (x : Step)
  | browser
  | previewReady
  /-- the whole of `reportProgress`: the test of `lastProgress`, its update and the
  `progress` event -/
  | report (p : ProgressText)
  | previewScreenshot (v : String)
  | publishedUrl (v : String)
  | ended
  deriving DecidableEq, Repr

/-- The state after a primitive effect. -/
def St.apply (w : World) (s : St) : Label → St
  | .act a => s.after w a
  | .emit e => { s with events := s.events ++ [e], history := s.history ++ [.sent e] }
  | .mark x => { s with trace := s.trace ++ [x], history := s.history ++ [.did x] }
  | .browser => { s with browser := true }
  | .previewReady => { s with previewReady := true }
  | .report p =>
    if progressMessage p != s.lastProgress then
      { s with lastProgress := progressMessage p,
               events := s.events ++ [.progress (progressMessage p) (p.percent.getD (.finite 0)) 16],
               history := s.history ++
                 [.sent (.progress (progressMessage p) (p.percent.getD (.finite 0)) 16)] }
    else s
  | .previewScreenshot v => { s with previewScreenshot := some v }
  | .publishedUrl v => { s with publishedUrl := some v }
  | .ended => { s with ended := true }

/-- The outcome is a throw. -/
def Out.isThrown {α : Type} : Out α → Bool
  | .thrown _ => true
  | _ => false

/-- The outcome is a cut for lack of fuel. -/
def Out.isPending {α : Type} : Out α → Bool
  | .pending => true
  | _ => false

/-- Every effect of `m` is one of `L`; `m` throws only if `t`, and is cut only if `p`. -/
structure Logs {α : Type} (w : World) (L : Label → Prop) (t p : Bool) (m : M α) : Prop where
  run : ∀ s, (∃ ls : List Label, (∀ l ∈ ls, L l) ∧ (m s).2 = ls.foldl (St.apply w) s) ∧
    ((m s).1.isThrown = true → t = true) ∧ ((m s).1.isPending = true → p = true)

/-- The trace entries an effect adds. -/
def Label.steps : Label → List Step
  | .act a => [.act a]
  | .mark x => [x]
  | _ => []

/-- The events an effect may add. -/
def Label.emits : Label → Event → Prop
  | .emit e, x => x = e
  | .report p, x => x = .progress (progressMessage p) (p.percent.getD (.finite 0)) 16
  | _, _ => False

/-! ## What each part of the handler may do -/

/-- A screenshot file name `<kind><epoch-millis>.png`. -/
def IsShot (kind file : String) : Prop := ∃ n : Nat, file = kind ++ num n ++ ".png"

/-- Effects of `composePrompt`. -/
def composeLog (url prompt : String) : Label → Prop
  | .act (.click l) =>
    l = .paragraphNth1 ∨ l = .paragraphFirst ∨ l = .cloneWebsite ∨ l = .linkField
  | .act (.waitForTimeout ms) => ms = 300 ∨ ms = 1000 ∨ ms = 3000
  | .act (.fill l v) =>
    (l = .textbox ∧ v = jsTrim prompt ++ "\n\n\n") ∨ (l = .linkField ∧ v = url)
  | .act (.type l v) => l = .textbox ∧ v = "/"
  | _ => False

/-- Effects of `submitFirst`. -/
def submitLog (url prompt : String) (l : Label) : Prop :=
  (hasPrompt prompt = true ∧
    (composeLog url prompt l ∨ l = .emit (.status "Adding custom instructions..." 7 none))) ∨
  l = .act (.click .submitButton) ∨ l = .act (.waitForTimeout 2000)

/-- Effects of `loginBranch`, apart from those of `composePrompt`. -/
def loginOwnLog (w : World) (prompt : String) : Label → Prop
  | .act (.isVisible l) => l = .loginButton
  | .act (.click l) =>
    l = .loginButton ∨ l = .emailField ∨ l = .passwordField ∨ l = .signInButton ∨
      l = .submitButton
  | .act (.fill l v) => (l = .emailField ∧ v = w.email) ∨ (l = .passwordField ∧ v = w.password)
  | .act (.waitForTimeout ms) => ms = 2000 ∨ ms = 5000 ∨ ms = 3000
  | .act (.goto u) => u = platform
  | .emit (.status m step pr) =>
    m = "Submitting..." ∧ step = (if prompt != "" then 18 else 16) ∧ pr = none
  | _ => False

/-- Effects of `loginBranch`. -/
def loginLog (w : World) (url prompt : String) (l : Label) : Prop :=
  (hasPrompt prompt = true ∧ composeLog url prompt l) ∨ loginOwnLog w prompt l

/-- Effects of `reportProgress`. -/
def reportLog (p : ProgressText) : Label → Prop
  | .report q => q = p
  | _ => False

/-- Effects of `pollBody`. -/
def pollLog (w : World) : Label → Prop
  | .act .url => True
  | .previewReady => True
  | .emit (.status m step pr) => m = "Preview is ready!" ∧ step = 21 ∧ pr = some 100
  | .act .evaluateProgress => True
  | .act .now => True
  | .act (.screenshot f c) => c = false ∧ IsShot "progress-" f
  | .report p => ∃ t, progressText (w.texts t) = some p
  | _ => False

/-- Effects of `monitor`. -/
def monitorLog (w : World) (l : Label) : Prop :=
  pollLog w l ∨ l = .mark .poll ∨ l = .act (.waitForTimeout 3000)

/-- Effects of `finalScreenshot`. -/
def finalShotLog : Label → Prop
  | .act .url => True
  | .previewReady => True
  | .act .now => True
  | .act (.screenshot f c) => c = false ∧ IsShot "clone-final-" f
  | _ => False

/-- Effects of `settle`. -/
def settleLog : Label → Prop
  | .act (.waitForTimeout ms) => ms = 3000 ∨ ms = 10000 ∨ ms = 2000 ∨ ms = 5000
  | .act (.isVisible l) => l = .makingEdits ∨ l = .loading
  | .act (.waitForHidden l timeout) =>
    (l = .makingEdits ∧ timeout = 600000) ∨ (l = .loading ∧ timeout = 120000)
  | .emit (.status m step pr) =>
    pr = none ∧
    ((step = 20 ∧ (m = "Waiting before checking edits..." ∨
        m = "Checking if edits are complete..." ∨
        m = "Waiting for \"Making edits...\" to complete before publishing...")) ∨
      (step = 21 ∧ (m = "Edits complete. Proceeding to publish..." ∨
        m = "Waiting for preview to load..." ∨
        m = "Waiting for \"Loading...\" to complete..." ∨ m = "Preview settling...")))
  | _ => False

/-- The path `/screenshots/<kind><epoch-millis>.png` of a screenshot. -/
def IsPath (kind path : String) : Prop :=
  ∃ n : Nat, path = "/screenshots/" ++ (kind ++ num n ++ ".png")

/-- The message of the status sent when the address is read from the span. -/
def IsPublishedAt (m : String) : Prop := ∃ u : String, m = "Website published at: " ++ u

/-- The message of the status sent before a second publish attempt. -/
def IsRetry (m : String) : Prop :=
  ∃ k : Nat, m = "Retrying publish (attempt " ++ num k ++ "/" ++ num maxPublishAttempts ++ ")..."

/-- Effects of `capturePreview`. -/
def captureLog : Label → Prop
  | .act .now => True
  | .act (.boundingBox l) => l = .iframe
  | .act (.screenshot f _) => IsShot "preview-" f
  | .previewScreenshot v => IsPath "preview-" v
  | .emit (.preview_ready v m) =>
    IsPath "preview-" v ∧ m = "Preview ready. Publishing your site..."
  | _ => False

/-- An address the handler takes as published: `https://` before the trimmed text `d`,
where `d` holds the suffix `.dev.animaapp.io` and was read from the page, as the
`textContent` of the styled span or as the text of an element of the document. -/
def IsAddress (w : World) (v : String) : Prop :=
  ∃ d : String, v = "https://" ++ jsTrim d ∧ includes d ".dev.animaapp.io" = true ∧
    ((∃ t, w.content t = some d) ∨ ∃ t, d ∈ w.texts t)

/-- Effects of `extractFromSpan` and `extractFromDocument`. -/
def extractLog (w : World) : Label → Prop
  | .act (.isVisible l) => l = .domainSpan
  | .act (.textContent l) => l = .domainSpan
  | .act .evaluateAllText => True
  | .publishedUrl v => IsAddress w v
  | .mark (.extracted _) => True
  | .emit (.status m step pr) => IsPublishedAt m ∧ step = 27 ∧ pr = none
  | _ => False

/-- Effects of `openSheet`. -/
def attemptLog : Label → Prop
  | .emit (.status m step pr) =>
    pr = none ∧ ((step = 22 ∧ IsRetry m) ∨
      (step = 23 ∧ m = "Publishing website...") ∨
      (step = 24 ∧ m = "Waiting for publish to complete...") ∨
      (step = 25 ∧ m = "Opening published details..."))
  | .act (.waitForTimeout ms) => ms = 3000 ∨ ms = 2000
  | .act (.click l) => l = .publishTrigger ∨ l = .publishButton
  | .act (.waitForSelector sel timeout) => sel = "text=LIVE!" ∧ timeout = 60000
  | .act (.isVisible l) => l = .domainSpan
  | .act .now => True
  | .act (.screenshot f c) => c = false ∧ IsShot "publish-sheet-" f
  | _ => False

/-- Effects of `publishLoop`. -/
def loopLog (w : World) (l : Label) : Prop :=
  (∃ k, l = .mark (.publishAttempt k) ∧ 1 ≤ k ∧ k ≤ maxPublishAttempts) ∨
    attemptLog l ∨ extractLog w l

/-- Effects of `publishPhase` outside `settle`, `capturePreview` and `publishLoop`. -/
def publishTailLog : Label → Prop
  | .emit (.status m step pr) =>
    pr = none ∧ ((step = 27 ∧ m = "Publish could not be completed. Showing preview.") ∨
      (step = 19 ∧ m = "Publish process encountered an issue. Showing preview."))
  | .act .now => True
  | .act (.screenshot f c) => c = false ∧ IsShot "published-" f
  | _ => False

/-- Effects of `publishPhase`. -/
def publishLog (w : World) (l : Label) : Prop :=
  settleLog l ∨ captureLog l ∨ loopLog w l ∨ publishTailLog l

/-- Effects of `linger`. -/
def lingerLog : Label → Prop
  | .act (.waitForTimeout ms) => ms = 120000
  | .act .close => True
  | .ended => True
  | _ => False

/-- Effects of `finish`. -/
def finishLog (file : String) : Label → Prop
  | .act .url => True
  | .emit (.complete success screenshot _ _ _ _) =>
    success = true ∧ screenshot = "/screenshots/" ++ file
  | l => lingerLog l

/-- Effects of `generate` outside `submitFirst`, `loginBranch` and `monitor`. -/
def generateOwnLog (prompt : String) : Label → Prop
  | .act .launch => True
  | .browser => True
  | .act .newContext => True
  | .act .newPage => True
  | .act (.goto u) => u = platform
  | .act (.waitForTimeout ms) => ms = 3000 ∨ ms = 5000
  | .emit (.status m step pr) =>
    m = "Generation process started! Monitoring progress..." ∧
      step = (if prompt != "" then 19 else 17) ∧ pr = none
  | .act .url => True
  | .act .now => True
  | _ => False

/-- Effects of `generate`. -/
def generateLog (w : World) (url prompt : String) (l : Label) : Prop :=
  generateOwnLog prompt l ∨ submitLog url prompt l ∨ loginLog w url prompt l ∨ monitorLog w l

/-- Effects of `tryBlock`. -/
def tryLog (w : World) (url prompt : String) (l : Label) : Prop :=
  generateLog w url prompt l ∨ finalShotLog l ∨ publishLog w l ∨
  ∃ file, IsShot "clone-final-" file ∧ finishLog file l

/-- Effects of `catchBlock`. -/
def catchLog : Label → Prop
  | .emit (.error error details) =>
    ∃ e : JsError, error = "Failed to clone website: " ++ e.message ∧ details = e.stack
  | .act .close => True
  | .ended => True
  | _ => False

/-- Effects of `tryStatement`. -/
def handledLog (w : World) (url prompt : String) (l : Label) : Prop :=
  tryLog w url prompt l ∨ catchLog l

/-- Effects of `stream`. -/
def streamLog (w : World) (url prompt : String) (l : Label) : Prop :=
  l = .emit (.status "Starting clone process..." 1 none) ∨ handledLog w url prompt l

/-- Every value `m` returns satisfies `R`. -/
structure Returns {α : Type} (m : M α) (R : α → Prop) : Prop where
  run : ∀ s a s1, m s = (.ret a, s1) → R a

/-- A call. -/
def actLog (l : Label) : Prop := ∃ a, l = .act a

/-! ## Pre- and postconditions -/

/-- The condition an outcome must meet: `Q` on a returned value, `X` on a throw or a cut. -/
def Out.post {α : Type} (o : Out α) (Q : α → St → Prop) (X : St → Prop) (s : St) : Prop :=
  match o with
  | .ret a => Q a s
  | .thrown _ => X s
  | .pending => X s

/-- From a state in `P`, the program `m` returns in `Q`, or throws or is cut in `X`. -/
structure Spec {α : Type} (P : St → Prop) (m : M α) (Q : α → St → Prop) (X : St → Prop) :
    Prop where
  run : ∀ s, P s → (m s).1.post Q X (m s).2

/-! ## Vocabulary of the claims -/

/-- The `(message, progress)` pairs of the `progress` events, in order. -/
def progressPairs : List Event → List (JsString × JsNumber)
  | [] => []
  | .progress m p _ :: es => (m, p) :: progressPairs es
  | _ :: es => progressPairs es

/-- A `complete` or `error` event. -/
def Event.isTerminal : Event → Bool
  | .complete .. => true
  | .error .. => true
  | _ => false

/-- A `complete` event. -/
def Event.isComplete : Event → Bool
  | .complete .. => true
  | _ => false

/-- A call of the compose-instructions sub-sequence (lines 132-142) other than a wait:
the two paragraph clicks, the fill of the free-text box, the typed `/`, the click on
`Clone Website`, the click on the link field and its fill. -/
def Step.isCompose : Step → Bool
  | .act (.click .paragraphNth1) => true
  | .act (.click .paragraphFirst) => true
  | .act (.click .cloneWebsite) => true
  | .act (.click .linkField) => true
  | .act (.fill .textbox _) => true
  | .act (.fill .linkField _) => true
  | .act (.type _ _) => true
  | _ => false

/-- A fill of the link field. -/
def Step.isLinkFill : Step → Bool
  | .act (.fill .linkField _) => true
  | _ => false

/-- An effect that is no call of the compose sub-sequence and no status
`Adding custom instructions...`. -/
def Label.noCompose : Label → Prop
  | .act a => Step.isCompose (.act a) = false
  | .mark x => x.isCompose = false
  | .emit (.status m _ _) => m ≠ "Adding custom instructions..."
  | _ => True

/-- What a `complete` event carries in `success` and `screenshot`. -/
def Event.goodComplete : Event → Prop
  | .complete success screenshot _ _ _ _ =>
    success = true ∧ ∃ n : Nat, screenshot = "/screenshots/clone-final-" ++ num n ++ ".png"
  | _ => True

/-- The invariant of de-duplication: no two neighbours among the `progress` pairs sent so
far are equal, and the message of the last one is `lastProgress`. -/
def Deduped (s : St) : Prop :=
  List.Chain' (fun a b => a ≠ b) (progressPairs s.events) ∧
    ∀ q ∈ (progressPairs s.events).getLast?, q.1 = s.lastProgress


/-- The mark of an entry into the body of the publish loop. -/
def Step.isAttemptMark : Step → Bool
  | .publishAttempt _ => true
  | _ => false

/-- The mark of an extraction of the published address. -/
def Step.isExtracted : Step → Bool
  | .extracted _ => true
  | _ => false

/-- A click on one of the two publish buttons. -/
def Step.isPublishClick : Step → Bool
  | .act (.click .publishTrigger) => true
  | .act (.click .publishButton) => true
  | _ => false

/-- The property of C4 on a trace: the body of the publish loop is entered at most
`maxPublishAttempts` times, and after an extraction it is not entered again and no
publish button is clicked. -/
def LoopBounded (xs : List Step) : Prop :=
  xs.countP Step.isAttemptMark ≤ maxPublishAttempts ∧
    ∀ pre t post, xs = pre ++ .extracted t :: post →
      ∀ x ∈ post, x.isAttemptMark = false ∧ x.isPublishClick = false

/-- No extraction has happened. -/
def NoExtraction (xs : List Step) : Prop := ∀ x ∈ xs, x.isExtracted = false

/-- No `complete` event has been sent. -/
def NoComplete (es : List Event) : Prop := ∀ e ∈ es, e.isComplete = false

/-- Steps after which the publish loop is over. -/
def Quiet (xs : List Step) : Prop :=
  ∀ x ∈ xs, x.isAttemptMark = false ∧ x.isPublishClick = false ∧ x.isExtracted = false

/-- Nothing is published yet and the loop body was entered at most `k` times. -/
def Before (k : Nat) (s : St) : Prop :=
  s.publishedUrl = none ∧ NoExtraction s.trace ∧
    s.trace.countP Step.isAttemptMark ≤ k ∧ NoComplete s.events

/-- As `Before`, with the preview captured. -/
def Ready (k : Nat) (s : St) : Prop := Before k s ∧ s.previewScreenshot.isSome = true

/-- The address text `t` has been extracted, once, and the loop is over. -/
def Extracted (t : String) (s : St) : Prop :=
  (∃ pre post, s.trace = pre ++ .extracted t :: post ∧ NoExtraction pre ∧
      pre.countP Step.isAttemptMark ≤ maxPublishAttempts ∧ Quiet post) ∧
    s.publishedUrl = some ("https://" ++ jsTrim t) ∧ s.previewScreenshot.isSome = true ∧
    NoComplete s.events

/-- The state between the publish phase and the `complete` event. -/
def After (s : St) : Prop := Before maxPublishAttempts s ∨ ∃ t, Extracted t s

/-- The `complete` event that follows the extraction of `t` is there, and it is the only
`complete` event. -/
def Completed (t : String) (s : St) : Prop :=
  ∃ screenshot preview editUrl,
    Event.complete true screenshot (some preview) editUrl (some ("https://" ++ jsTrim t))
        "Landing page generated and published successfully!" ∈ s.events ∧
      ∀ e ∈ s.events, e.isComplete = true →
        e = .complete true screenshot (some preview) editUrl (some ("https://" ++ jsTrim t))
          "Landing page generated and published successfully!"

/-- What holds of a run in the end. -/
def Finished (s : St) : Prop :=
  LoopBounded s.trace ∧ ∀ t, Step.extracted t ∈ s.trace → Completed t s

/-- Effects that keep `Before` and `Ready`. -/
def Label.pre (l : Label) : Prop :=
  (∀ x ∈ l.steps, x.isAttemptMark = false ∧ x.isExtracted = false) ∧
    (∀ e, l.emits e → e.isComplete = false) ∧ ∀ v, l ≠ .publishedUrl v

/-- Effects that keep `After` and `Finished`. -/
def Label.post (l : Label) : Prop :=
  l.pre ∧ ∀ x ∈ l.steps, x.isPublishClick = false

/-! ## Sample worlds -/

/-- A request for `https://example.com` without instructions. -/
def plainRequest : Request := { url := some "https://example.com", prompt := none }

/-- A world in which every call succeeds and takes a millisecond, no login is asked,
the page is on its result address at the first poll, and the styled span shows the
published address. -/
def happyWorld : World :=
  { urlParses := fun s => s != "", parse_empty := rfl, t0 := 1000,
    elapsed := fun _ _ => 1, fails := fun _ _ => none,
    visible := fun _ l => l = .domainSpan, box := fun _ => none,
    content := fun _ => some " site.dev.animaapp.io ",
    location := fun _ => "https://dev.animaapp.com/chat/1", texts := fun _ => [],
    email := "user@example.com", password := "secret" }

/-- As `happyWorld`, but `browser.close()` rejects. -/
def closeFailsWorld : World :=
  { happyWorld with
    fails := fun _ a => if a = .close then some ⟨"Target closed", "at close"⟩ else none }

/-- As `happyWorld`, but the screenshot `clone-final-*.png` rejects. -/
def finalShotFailsWorld : World :=
  { happyWorld with
    fails := fun _ a =>
      match a with
      | .screenshot file _ =>
        if includes file "clone-final-" then some ⟨"screenshot failed", "at screenshot"⟩
        else none
      | _ => none }

/-- As `happyWorld`, but no address is ever found on the page, and `browser.close()`
rejects. -/
def noAddressWorld : World :=
  { happyWorld with
    content := fun _ => none
    fails := fun _ a => if a = .close then some ⟨"Target closed", "at close"⟩ else none }
/-! ## Vocabulary of the two in-page functions -/

/-- Some digit of the text is immediately followed by `%`, that is, the text contains a
run of digits immediately followed by `%`. -/
def hasDigitPercent : List Char → Bool
  | c :: d :: cs => (c.isDigit && d == '%') || hasDigitPercent (d :: cs)
  | _ => false

/-- The decimal value of a run of digits. -/
def decimalValue (ds : List Char) : Nat :=
  Nat.ofDigits 10 (ds.reverse.map fun c => c.toNat - '0'.toNat)

/-- The text holds a white-space character or a line terminator. -/
def hasWhitespace (s : String) : Bool := s.data.any isJsSpace

/-! ## More sample worlds -/

/-- As `happyWorld`, but the page is still on the platform's address at the first poll
and shows the text "Generating 250%". -/
def overshootWorld : World :=
  { happyWorld with
    location := fun t => if t < 16 then platform else "https://dev.animaapp.com/chat/1"
    texts := fun _ => ["Generating 250%"] }

/-- As `happyWorld`, but every screenshot `preview-*.png` rejects. -/
def previewShotFailsWorld : World :=
  { happyWorld with
    fails := fun _ a =>
      match a with
      | .screenshot file _ =>
        if includes file "preview-" then some ⟨"screenshot failed", "at screenshot"⟩
        else none
      | _ => none }

/-! ## Vocabulary of the claims on whole runs -/

/-- The effects of the handler other than the `complete` event. -/
def coreLog (w : World) (url prompt : String) (l : Label) : Prop :=
  l = .emit (.status "Starting clone process..." 1 none) ∨ generateLog w url prompt l ∨
    finalShotLog l ∨ publishLog w l ∨ lingerLog l ∨ catchLog l

/-- The state after the `complete` event of lines 537-547 is sent. -/
def St.completed (s : St) (file editUrl : String) : St :=
  (sendProgress (.complete true ("/screenshots/" ++ file) s.previewScreenshot editUrl
    s.publishedUrl (completeMessage s.publishedUrl s.previewReady)) s).2

/-- The `publishedUrl` of a `complete` event, when it is not null, is an address read
from the page. -/
def Event.hasAddress (w : World) : Event → Prop
  | .complete _ _ _ _ (some u) _ => IsAddress w u
  | _ => True

/-- The local `publishedUrl` and the `complete` events hold addresses read from the
page only. -/
def Addressed (w : World) (s : St) : Prop :=
  (∀ u, s.publishedUrl = some u → IsAddress w u) ∧ ∀ e ∈ s.events, e.hasAddress w

/-- A `progress` event carries what the progress extractor returned on the texts of the
page at some call. -/
def Event.readProgress (w : World) : Event → Prop
  | .progress m n k =>
    ∃ t p, progressText (w.texts t) = some p ∧ m = progressMessage p ∧
      n = p.percent.getD (.finite 0) ∧ k = 16
  | _ => True

/-! ## The handler in three stretches -/

/-- Lines 74-243: from the launch of the browser to the end of the login branch. -/
def arrive (w : World) (url prompt : String) : M Unit := do
  perform w .launch
  setSt fun s => { s with browser := true }
  perform w .newContext
  perform w .newPage
  perform w (.goto platform)
  perform w (.waitForTimeout 3000)
  submitFirst w url prompt
  loginBranch w url prompt

/-- Lines 245-332: the announcement of monitoring, then the monitoring loop. -/
def watch (w : World) (fuel : Nat) (prompt : String) : M Unit := do
  sendProgress (.status "Generation process started! Monitoring progress..."
    (if prompt != "" then 19 else 17) none)
  perform w (.waitForTimeout 5000)
  let _ ← pageUrl w
  let startTime ← dateNow w
  monitor w startTime fuel

/-- Lines 334-556: the final screenshot, the publish phase, the `complete` event and the
close of the browser. -/
def conclude (w : World) : M Unit := do
  let finalScreenshotFilename ← finalScreenshot w
  let s ← getSt
  if s.previewReady then
    publishPhase w
  finish w finalScreenshotFilename

/-- Effects of `watch`. -/
def watchLog (w : World) (prompt : String) (l : Label) : Prop :=
  l = .emit (.status "Generation process started! Monitoring progress..."
    (if prompt != "" then 19 else 17) none) ∨
  l = .act (.waitForTimeout 5000) ∨ l = .act .url ∨ l = .act .now ∨ monitorLog w l

/-- Effects of `conclude`. -/
def concludeLog (w : World) (l : Label) : Prop :=
  finalShotLog l ∨ publishLog w l ∨ ∃ file, IsShot "clone-final-" file ∧ finishLog file l

/-- Effects of the handler after `arrive`. -/
def restLog (w : World) (prompt : String) (l : Label) : Prop :=
  watchLog w prompt l ∨ concludeLog w l ∨ catchLog l

/-! ## Vocabulary of the login branch -/

/-- The number of calls made before the check of the `Log in` button when every call
succeeds: five up to the first wait, the eleven of the compose sub-sequence when there
are instructions, the click on submit and the wait after it. -/
def loginCheckTick (prompt : String) : Nat := if hasPrompt prompt then 18 else 7

/-- The calls of the compose sub-sequence other than its waits, in order. -/
def composeCalls (url prompt : String) : List Step :=
  [.act (.click .paragraphNth1), .act (.click .paragraphFirst),
   .act (.fill .textbox (jsTrim prompt ++ "\n\n\n")), .act (.type .textbox "/"),
   .act (.click .cloneWebsite), .act (.click .linkField), .act (.fill .linkField url)]

/-- A navigation, a click on the submit button, a fill of a credential, or a call of
the compose sub-sequence other than a wait. -/
def Step.isMilestone : Step → Bool
  | .act (.goto _) => true
  | .act (.click .submitButton) => true
  | .act (.fill .emailField _) => true
  | .act (.fill .passwordField _) => true
  | x => x.isCompose

/-- The milestones of a session in which every call succeeds: one navigation, the
compose calls when there are instructions, the click on submit; and, when the login is
asked, the two credentials, a second navigation, the compose calls again when there are
instructions, and a second click on submit. -/
def milestones (w : World) (url prompt : String) (login : Bool) : List Step :=
  [.act (.goto platform)] ++ (if hasPrompt prompt then composeCalls url prompt else []) ++
    [.act (.click .submitButton)] ++
    (if login then
      [.act (.fill .emailField w.email), .act (.fill .passwordField w.password),
        .act (.goto platform)] ++
      (if hasPrompt prompt then composeCalls url prompt else []) ++
      [.act (.click .submitButton)]
    else [])

/-- A request for `https://example.com` with the instructions "Make it blue". -/
def promptRequest : Request :=
  { url := some "https://example.com", prompt := some "Make it blue" }

/-- As `happyWorld`, but the `Log in` button is visible. -/
def loginWorld : World :=
  { happyWorld with visible := fun _ l => l = .loginButton ∨ l = .domainSpan }

/-- As `happyWorld`, but the navigation to the platform times out. -/
def gotoFailsWorld : World :=
  { happyWorld with
    fails := fun _ a =>
      match a with
      | .goto _ => some ⟨"page.goto: Timeout 60000ms exceeded.", "at goto"⟩
      | _ => none }

/-! ## Vocabulary of the containment of compose failures -/

/-- A call that only the compose sub-sequence makes: its calls other than waits, and its
waits of 300 ms and of one second. -/
def Action.isComposeOnly : Action → Bool
  | .waitForTimeout ms => ms == 300 || ms == 1000
  | a => Step.isCompose (.act a)

/-- The program `m` does not throw in a world where only the calls in `F` reject. -/
structure Calm (w : World) (F : Action → Bool) {α : Type} (m : M α) : Prop where
  run : (∀ t a, w.fails t a ≠ none → F a = true) → ∀ s, (m s).1.isThrown = false

/-- Every compose call of the trace has a click on the submit button after it. -/
def SubmitFollows (xs : List Step) : Prop :=
  ∀ pre x post, xs = pre ++ x :: post → x.isCompose = true →
    Step.act (.click .submitButton) ∈ post

/-- An `error` event. -/
def Event.isError : Event → Bool
  | .error .. => true
  | _ => false

/-- As `loginWorld`, but the click on `Clone Website` of the compose sub-sequence
rejects. -/
def composeFailsWorld : World :=
  { loginWorld with
    fails := fun _ a =>
      if a = .click .cloneWebsite then some ⟨"locator.click: Timeout", "at click"⟩ else none }

/-- The submit button has been clicked, and every compose call of the trace has a click
on it after it. -/
def Settled (s : St) : Prop :=
  Step.act (.click .submitButton) ∈ s.trace ∧ SubmitFollows s.trace

/-! ## Vocabulary of the order of the preview and of publishing -/

/-- A `preview_ready` event. -/
def Event.isPreviewReady : Event → Bool
  | .preview_ready .. => true
  | _ => false

/-- The entry of a `preview_ready` event. -/
def Entry.isPreviewReady : Entry → Bool
  | .sent e => e.isPreviewReady
  | .did _ => false

/-- An entry of publishing: a click on one of the two publish buttons, or the status
`Publishing website...`. -/
def Entry.isPublishing : Entry → Bool
  | .did x => x.isPublishClick
  | .sent (.status m _ _) => m == "Publishing website..."
  | .sent _ => false

/-- The event of an entry of the history. -/
def Entry.event? : Entry → Option Event
  | .sent e => some e
  | .did _ => none

/-- The trace entry of an entry of the history. -/
def Entry.step? : Entry → Option Step
  | .sent _ => none
  | .did x => some x

/-- Every entry of publishing has a `preview_ready` event before it. -/
def PreviewFirst (h : List Entry) : Prop :=
  ∀ pre x post, h = pre ++ x :: post → x.isPublishing = true →
    ∃ y ∈ pre, y.isPreviewReady = true

/-- What an effect may write to the history. -/
def Label.writes : Label → Entry → Prop
  | .act a, x => x = .did (.act a)
  | .mark y, x => x = .did y
  | .emit e, x => x = .sent e
  | .report p, x => x = .sent (.progress (progressMessage p) (p.percent.getD (.finite 0)) 16)
  | _, _ => False

/-- An effect that sends no `preview_ready` and no `complete` event and does not assign
`previewScreenshot`. -/
def Label.plain (l : Label) : Prop :=
  (∀ e, l.emits e → e.isPreviewReady = false ∧ e.isComplete = false) ∧
    ∀ v, l ≠ .previewScreenshot v

/-- A plain effect that writes no entry of publishing. -/
def Label.quiet (l : Label) : Prop :=
  l.plain ∧ ∀ x, l.writes x → x.isPublishing = false

/-- Nothing of the preview or of publishing has happened, and no `complete` event. -/
def Unpreviewed (s : St) : Prop :=
  (∀ e ∈ s.events, e.isPreviewReady = false ∧ e.isComplete = false) ∧
    s.previewScreenshot = none ∧ ∀ x ∈ s.history, x.isPublishing = false

/-- The preview has been captured at the path `v` and announced, once, before anything of
publishing, and there is no `complete` event yet. -/
def Previewed (v : String) (s : St) : Prop :=
  s.events.countP Event.isPreviewReady = 1 ∧
    (∀ v1 m, Event.preview_ready v1 m ∈ s.events → v1 = v) ∧
    s.previewScreenshot = some v ∧ NoComplete s.events ∧ PreviewFirst s.history ∧
    ∃ y ∈ s.history, y.isPreviewReady = true

/-- The property of C16 on a state: at most one `preview_ready` event, before every
entry of publishing, and with the `previewScreenshot` of every `complete` event. -/
def PreviewOnce (s : St) : Prop :=
  s.events.countP Event.isPreviewReady ≤ 1 ∧ PreviewFirst s.history ∧
    ∀ v m success screenshot pv editUrl pu msg, Event.preview_ready v m ∈ s.events →
      Event.complete success screenshot pv editUrl pu msg ∈ s.events → pv = some v

/-! ## Vocabulary of a session that ends at the ceiling -/

/-- Effects of `arrive`. -/
def arriveLog (w : World) (url prompt : String) (l : Label) : Prop :=
  generateOwnLog prompt l ∨ submitLog url prompt l ∨ loginLog w url prompt l

/-- Effects of `pollBody` when the page is not on its result address. -/
def awayLog (w : World) : Label → Prop
  | .previewReady => False
  | .emit _ => False
  | l => pollLog w l

/-- Effects of `watch` when the page is never on its result address. -/
def watchAwayLog (w : World) (prompt : String) (l : Label) : Prop :=
  l = .emit (.status "Generation process started! Monitoring progress..."
    (if prompt != "" then 19 else 17) none) ∨
  l = .act (.waitForTimeout 5000) ∨ l = .act .url ∨ l = .act .now ∨ awayLog w l ∨
  l = .mark .poll ∨ l = .act (.waitForTimeout 3000)

/-- The call that takes the final screenshot. -/
def Step.isFinalShot : Step → Prop
  | .act (.screenshot file false) => IsShot "clone-final-" file
  | _ => False

/-- A publish action: a click on one of the two publish buttons, or the entry into the
body of the publish loop. -/
def Step.isPublish (x : Step) : Bool := x.isPublishClick || x.isAttemptMark

/-- The idle two minutes and the close of the browser never reject. -/
def LingerOk (w : World) : Prop :=
  ∀ t, w.fails t (.waitForTimeout 120000) = none ∧ w.fails t .close = none

/-- An effect that keeps `Idle`. -/
def Label.idle (l : Label) : Prop :=
  (∀ e, l.emits e → e.isTerminal = false) ∧
    (∀ x ∈ l.steps, x.isPublish = false ∧ ¬x.isFinalShot) ∧
    l ≠ .previewReady ∧ (∀ v, l ≠ .previewScreenshot v) ∧ ∀ v, l ≠ .publishedUrl v

/-- The page has not been seen on its result address, nothing is captured or published,
no terminal event is sent, and the final screenshot is not taken. -/
def Idle (s : St) : Prop :=
  s.previewReady = false ∧ s.previewScreenshot = none ∧ s.publishedUrl = none ∧
    (∀ e ∈ s.events, e.isTerminal = false) ∧
    ∀ x ∈ s.trace, x.isPublish = false ∧ ¬x.isFinalShot

/-- As `Idle`, after the final screenshot. -/
def Shot (s : St) : Prop :=
  s.previewReady = false ∧ s.previewScreenshot = none ∧ s.publishedUrl = none ∧
    (∀ e ∈ s.events, e.isTerminal = false) ∧ ∀ x ∈ s.trace, x.isPublish = false

/-- The `complete` event of a session that ends at the ceiling. -/
def Event.isCeiling : Event → Prop
  | .complete success _ preview _ published message =>
    success = true ∧ preview = none ∧ published = none ∧
      message = "Generation process completed (check platform for results)"
  | _ => False

/-- The `complete` event of the ceiling has just been sent, as the first terminal event,
and there is no publish action. -/
def Sent (s : St) : Prop :=
  (∀ x ∈ s.trace, x.isPublish = false) ∧
    ∃ pre e, s.events = pre ++ [e] ∧ e.isCeiling ∧ ∀ x ∈ pre, x.isTerminal = false

/-- No publish action; and if the final screenshot is taken, the `complete` event of the
ceiling is sent as the first terminal event, what follows it is no `complete` event, and
the idle wait or the close has rejected. -/
def Failed (w : World) (s : St) : Prop :=
  (∀ x ∈ s.trace, x.isPublish = false) ∧
    ((∃ x ∈ s.trace, x.isFinalShot) → ¬LingerOk w ∧
      ∃ pre e post, s.events = pre ++ e :: post ∧ e.isCeiling ∧
        (∀ x ∈ pre, x.isTerminal = false) ∧ ∀ x ∈ post, x.isComplete = false)

/-- The property of C12 on a state: no publish action; and if the final screenshot is
taken, the `complete` event of the ceiling is sent as the first terminal event, what
follows it is no `complete` event, and nothing follows it when the idle wait and the
close do not reject. -/
def Ceiling (w : World) (s : St) : Prop :=
  (∀ x ∈ s.trace, x.isPublish = false) ∧
    ((∃ x ∈ s.trace, x.isFinalShot) →
      ∃ pre e post, s.events = pre ++ e :: post ∧ e.isCeiling ∧
        (∀ x ∈ pre, x.isTerminal = false) ∧ (∀ x ∈ post, x.isComplete = false) ∧
        (LingerOk w → post = []))

/-- A world whose page never reaches its result address: every call succeeds, and each
takes twenty minutes. -/
def stuckWorld : World :=
  { happyWorld with
    elapsed := fun _ _ => 1200000
    location := fun _ => platform }

/-- As `stuckWorld`, but the page is on its result address from the twentieth call on:
at the last look after the monitoring loop, not before. -/
def lateWorld : World :=
  { stuckWorld with
    location := fun t => if t < 19 then platform else "https://dev.animaapp.com/chat/1" }


/-! ## The last snapshot reported -/

/-- The event is a `progress` event. -/
def Event.isProgress : Event → Bool
  | .progress _ _ _ => true
  | _ => false

/-- The last `progress` event written, if any. -/
def lastReported (es : List Event) : Option Event :=
  (es.filter Event.isProgress).getLast?

/-- The local `lastProgress` is the message of the last `progress` event written, which
carries a result of the progress extractor; it is empty as long as none was written. -/
def Remembered (w : World) (s : St) : Prop :=
  (s.lastProgress = [] ∧ lastReported s.events = none) ∨
    ∃ q t, progressText (w.texts t) = some q ∧ s.lastProgress = progressMessage q ∧
      lastReported s.events = some (.progress (progressMessage q) (q.percent.getD (.finite 0)) 16)

/-! ## Vocabulary of the bound on monitoring -/

/-- The number of times the body of the monitoring loop was entered. -/
def St.polls (s : St) : Nat := s.trace.count .poll

/-- Every end-of-poll wait that returns takes at least its 3000 ms on the clock. -/
def WaitAdvances (w : World) : Prop := ∀ t, 3000 ≤ w.elapsed t (.waitForTimeout 3000)

/-- The program is never cut for lack of fuel. -/
def Ends {α : Type} (m : M α) : Prop := ∀ s, (m s).1.isPending = false

/-- The program enters the body of the monitoring loop at most `c` times. -/
def PollsWithin {α : Type} (c : Nat) (m : M α) : Prop := ∀ s, (m s).2.polls ≤ s.polls + c

/-! ## Vocabulary of the intermediate screenshots -/

/-- The call that takes an intermediate screenshot `progress-*.png` (lines 320-323). -/
def Step.isCapture : Step → Bool
  | .act (.screenshot file _) => includes file "progress-"
  | _ => false

/-- A world whose page never reaches its result address and shows no progress: every
call succeeds, a wait takes the time it is asked to wait, the evaluation of the progress
extractor takes one second, and the other calls take no time. -/
def driftWorld : World :=
  { happyWorld with
    elapsed := fun _ a =>
      match a with
      | .waitForTimeout ms => ms
      | .evaluateProgress => 1000
      | _ => 0
    location := fun _ => platform }

/-- A world whose page never reaches its result address: a wait takes the time it is asked
to wait and the other calls take no time; the evaluation of the progress extractor and
the intermediate screenshots reject, the other calls succeed. -/
def rejectingWorld : World :=
  { happyWorld with
    elapsed := fun _ a =>
      match a with
      | .waitForTimeout ms => ms
      | _ => 0
    fails := fun _ a =>
      match a with
      | .evaluateProgress => some ⟨"Execution context was destroyed", "at evaluate"⟩
      | .screenshot file _ =>
        if includes file "progress-" then some ⟨"screenshot failed", "at screenshot"⟩
        else none
      | _ => none
    location := fun _ => platform }

/-! ## Vocabulary of the message of a snapshot -/

/-- The code units of a list of characters. -/
def unitsList (cs : List Char) : JsString := (cs.map unitsOf).flatten

/-- The string holds the code unit of a decimal digit followed by that of `%`. -/
def DigitPercent (us : JsString) : Prop := ∃ d, 48 ≤ d ∧ d ≤ 57 ∧ [d, 37] <:+: us

/-! ## Vocabulary of a failure at one step -/

/-- No call rejects from tick `T` on. -/
def QuietFrom (w : World) (T : Nat) : Prop := ∀ t a, T ≤ t → w.fails t a = none

/-- Only the call at tick `t0` may reject. -/
def FailsOnlyAt (w : World) (t0 : Nat) : Prop := ∀ t a, w.fails t a ≠ none → t = t0

/-- From a state at tick `T` or later, in a world where no call rejects from tick `T`
on, the program `m` does not throw, and it does not turn the tick back. -/
structure Past (w : World) {α : Type} (m : M α) : Prop where
  run : ∀ T s, QuietFrom w T → T ≤ s.tick → (m s).1.isThrown = false ∧ T ≤ (m s).2.tick

/-- As `loginWorld`, but the call at tick 15 rejects: with instructions, the last wait of
the compose sub-sequence before the login. -/
def lastWaitFailsWorld : World :=
  { loginWorld with
    fails := fun t _ => if t = 15 then some ⟨"Target closed", "at waitForTimeout"⟩ else none }

/-- As `loginWorld`, but the call at tick 39 rejects: with instructions, the last wait of
the compose sub-sequence after the login. -/
def secondWaitFailsWorld : World :=
  { loginWorld with
    fails := fun t _ => if t = 39 then some ⟨"Target closed", "at waitForTimeout"⟩ else none }
/-! ## The progress extractor -/

theorem digitsThenPercent_some {cs ds : List Char} (h : digitsThenPercent cs = some ds) :
    ds ≠ [] ∧ (∀ c ∈ ds, c.isDigit = true) ∧ ∃ post, cs = ds ++ '%' :: post := by
  unfold digitsThenPercent at h
  split at h
  · next d ds1 rest htake hdrop =>
    cases h
    refine ⟨by simp, ?_, rest, ?_⟩
    · intro c hc
      rw [← htake] at hc
      exact (List.mem_takeWhile_imp hc)
    · rw [← htake, ← hdrop, List.takeWhile_append_dropWhile]
  · cases h

theorem digitsThenPercent_run (c : Char) (ds post : List Char) (hc : c.isDigit = true)
    (hds : ∀ d ∈ ds, d.isDigit = true) :
    digitsThenPercent (c :: (ds ++ '%' :: post)) ≠ none := by
  have hall : ∀ x ∈ c :: ds, x.isDigit = true := by
    intro x hx
    rcases List.mem_cons.1 hx with rfl | hx
    · exact hc
    · exact hds x hx
  have hform : c :: (ds ++ '%' :: post) = (c :: ds) ++ '%' :: post := rfl
  have h1 : (c :: (ds ++ '%' :: post)).takeWhile Char.isDigit = c :: ds := by
    rw [hform, List.takeWhile_append_of_pos hall]
    simp [List.takeWhile]
  have h2 : (c :: (ds ++ '%' :: post)).dropWhile Char.isDigit = '%' :: post := by
    rw [hform, List.dropWhile_append_of_pos hall]
    simp [List.dropWhile]
  simp [digitsThenPercent, h1, h2]

/-- What `matchPercent` captures is a maximal run of digits followed by `%`, and the
leftmost one. -/
theorem matchPercent_some : ∀ {cs ds : List Char}, matchPercent cs = some ds →
    ∃ pre post, cs = pre ++ ds ++ '%' :: post ∧ ds ≠ [] ∧ (∀ c ∈ ds, c.isDigit = true) ∧
      (∀ c, pre.getLast? = some c → c.isDigit = false) ∧ hasDigitPercent pre = false
  | [], ds, h => by simp [matchPercent] at h
  | c :: cs, ds, h => by
    unfold matchPercent at h
    split at h
    · next r hr =>
      cases h
      obtain ⟨hne, hdig, post, hpost⟩ := digitsThenPercent_some hr
      exact ⟨[], post, by simpa using hpost, hne, hdig, by simp, rfl⟩
    · next hr =>
      obtain ⟨pre, post, hcs, hne, hdig, hlast, hleft⟩ := matchPercent_some h
      refine ⟨c :: pre, post, by simp [hcs], hne, hdig, ?_, ?_⟩
      · intro x hx
        cases pre with
        | nil =>
          have hxc : c = x := by simpa using hx
          subst hxc
          by_contra hd
          simp at hd
          have := digitsThenPercent_run c ds post hd hdig
          apply this
          simpa [hcs] using hr
        | cons p pre1 =>
          apply hlast
          simpa [List.getLast?_cons_cons] using hx
      · cases pre with
        | nil => rfl
        | cons p pre1 =>
          simp only [hasDigitPercent, hleft, Bool.or_false, Bool.and_eq_false_imp]
          intro hd
          by_contra hp
          simp at hp
          subst hp
          have := digitsThenPercent_run c [] (pre1 ++ ds ++ '%' :: post) hd (by simp)
          apply this
          simpa [hcs] using hr

theorem matchPercent_of_has : ∀ {cs : List Char}, hasDigitPercent cs = true →
    ∃ ds, matchPercent cs = some ds
  | [], h => by simp [hasDigitPercent] at h
  | [_], h => by simp [hasDigitPercent] at h
  | c :: d :: cs, h => by
    unfold matchPercent
    split
    · next r hr => exact ⟨r, rfl⟩
    · next hr =>
      simp only [hasDigitPercent, Bool.or_eq_true, Bool.and_eq_true, beq_iff_eq] at h
      rcases h with ⟨hc, rfl⟩ | h
      · exact absurd hr (digitsThenPercent_run c [] cs hc (by simp))
      · exact matchPercent_of_has h

theorem mathInt_eq_decimalValue (ds : List Char) : mathInt ds = decimalValue ds := by
  induction ds using List.reverseRecOn with
  | nil => simp [mathInt, decimalValue]
  | append_singleton ds c ih =>
    have h1 : mathInt (ds ++ [c]) = 10 * mathInt ds + (c.toNat - 48) := by
      simp [mathInt, List.foldl_append]
    rw [h1, ih]
    simp [decimalValue, Nat.ofDigits_cons]
    omega

theorem parseInt_eq_toDouble (ds : List Char) : parseInt ds = toDouble (decimalValue ds) := by
  rw [parseInt, mathInt_eq_decimalValue]

/-- Below 2^53 the Number value of a natural number is the number itself. -/
theorem toDouble_exact {n : Nat} (h : n < 2 ^ 53) : toDouble n = .finite n := by
  unfold toDouble
  rw [if_pos h]

/-- The first element with a percentage decides what the first scan of the extractor
finds. -/
theorem findSome_percent : ∀ els : List String,
    (∃ t ∈ els, hasDigitPercent t.data = true) →
    ∃ before text after ds, els = before ++ text :: after ∧
      (∀ t ∈ before, hasDigitPercent t.data = false) ∧
      matchPercent text.data = some ds ∧
      els.findSome? (fun text => (matchPercent text.data).map fun ds =>
        ProgressText.mk (some (parseInt ds)) (utf16 (jsTrim text))) =
        some ⟨some (parseInt ds), utf16 (jsTrim text)⟩
  | [], h => by simp at h
  | t :: els, h => by
    cases hm : matchPercent t.data with
    | some ds =>
      exact ⟨[], t, els, ds, rfl, by simp, hm, by simp [List.findSome?, hm]⟩
    | none =>
      have ht : hasDigitPercent t.data = false := by
        cases hh : hasDigitPercent t.data with
        | false => rfl
        | true =>
          obtain ⟨ds, hds⟩ := matchPercent_of_has hh
          rw [hm] at hds
          cases hds
      have h1 : ∃ t1 ∈ els, hasDigitPercent t1.data = true := by
        obtain ⟨t1, hmem, h1⟩ := h
        rcases List.mem_cons.1 hmem with rfl | hmem
        · rw [ht] at h1
          cases h1
        · exact ⟨t1, hmem, h1⟩
      obtain ⟨before, text, after, ds, hels, hbefore, hds, hres⟩ := findSome_percent els h1
      refine ⟨t :: before, text, after, ds, by simp [hels], ?_, hds, ?_⟩
      · intro x hx
        rcases List.mem_cons.1 hx with rfl | hx
        · exact ht
        · exact hbefore x hx
      · simpa [List.findSome?, hm] using hres

/-- The first element with a percentage decides what the extractor returns. -/
theorem progressText_percent (els : List String)
    (h : ∃ t ∈ els, hasDigitPercent t.data = true) :
    ∃ before text after ds, els = before ++ text :: after ∧
      (∀ t ∈ before, hasDigitPercent t.data = false) ∧
      matchPercent text.data = some ds ∧
      progressText els = some ⟨some (parseInt ds), utf16 (jsTrim text)⟩ := by
  obtain ⟨before, text, after, ds, hels, hbefore, hds, hres⟩ := findSome_percent els h
  exact ⟨before, text, after, ds, hels, hbefore, hds, by simp only [progressText, hres]⟩

theorem includesChars_single (c : Char) : ∀ cs : List Char,
    includesChars [c] cs = true ↔ c ∈ cs
  | [] => by simp [includesChars]
  | x :: xs => by
    simp [includesChars, List.isPrefixOf, includesChars_single c xs]

/-- What the fallback scan returns is the trimmed text of an element that holds the
suffix and no space. -/
theorem allText_some {els : List String} {r : String} (h : allText els = some r) :
    ∃ text ∈ els, r = jsTrim text ∧ includes text ".dev.animaapp.io" = true ∧
      includes text " " = false := by
  unfold allText at h
  rw [Option.map_eq_some'] at h
  obtain ⟨text, hfind, rfl⟩ := h
  have hp := List.find?_some hfind
  simp only [Bool.and_eq_true, Bool.not_eq_true'] at hp
  exact ⟨text, List.mem_of_find?_eq_some hfind, rfl, hp.1, hp.2⟩

theorem isAddress_of_span {w : World} {tc : Nat} {d : String} (h1 : w.content tc = some d)
    (h2 : (d != "" && includes d ".dev.animaapp.io") = true) :
    IsAddress w ("https://" ++ jsTrim d) :=
  ⟨d, rfl, by simp_all, Or.inl ⟨tc, h1⟩⟩

theorem isAddress_of_allText {w : World} {te : Nat} {found : String}
    (h : allText (w.texts te) = some found) : IsAddress w ("https://" ++ found) := by
  obtain ⟨text, hmem, rfl, hs, _⟩ := allText_some h
  exact ⟨text, rfl, hs, Or.inr ⟨te, hmem⟩⟩
/-! ## Texts that contain the suffix -/

theorem includesChars_iff (needle : List Char) : ∀ hay : List Char,
    includesChars needle hay = true ↔ needle <:+: hay
  | [] => by simp [includesChars, List.isEmpty_iff]
  | c :: cs => by
    rw [includesChars, Bool.or_eq_true, List.isPrefixOf_iff_prefix, includesChars_iff needle cs,
      List.infix_cons_iff]

theorem dropWhile_keeps {p : Char → Bool} {x : Char} (hx : p x = false) (r : List Char) :
    ∀ a : List Char, ∃ a1, (a ++ x :: r).dropWhile p = a1 ++ x :: r
  | [] => ⟨[], by simp [List.dropWhile, hx]⟩
  | y :: a => by
    cases hy : p y with
    | true =>
      obtain ⟨a1, h⟩ := dropWhile_keeps hx r a
      exact ⟨a1, by simp [List.dropWhile, hy, h]⟩
    | false => exact ⟨y :: a, by simp [List.dropWhile, hy]⟩

/-- Trimming keeps an occurrence of a text that neither starts nor ends with white
space. -/
theorem trimChars_keeps (x y : Char) (mid hay : List Char) (hx : isJsSpace x = false)
    (hy : isJsSpace y = false) (h : x :: (mid ++ [y]) <:+: hay) :
    x :: (mid ++ [y]) <:+: trimChars hay := by
  obtain ⟨a, b, rfl⟩ := h
  obtain ⟨a1, h1⟩ := dropWhile_keeps hx (mid ++ [y] ++ b) a
  have e1 : (a ++ x :: (mid ++ [y]) ++ b).dropWhile isJsSpace =
      a1 ++ x :: (mid ++ [y] ++ b) := by
    rw [← h1]
    simp
  have e2 : (a1 ++ x :: (mid ++ [y] ++ b)).reverse =
      b.reverse ++ y :: (mid.reverse ++ x :: a1.reverse) := by
    simp
  obtain ⟨b1, h2⟩ := dropWhile_keeps hy (mid.reverse ++ x :: a1.reverse) b.reverse
  refine ⟨a1, b1.reverse, ?_⟩
  rw [trimChars, e1, e2, h2]
  simp

theorem includes_trim (d : String) (h : includes d ".dev.animaapp.io" = true) :
    includes (jsTrim d) ".dev.animaapp.io" = true := by
  unfold includes at h ⊢
  rw [includesChars_iff] at h ⊢
  exact trimChars_keeps '.' 'o' "dev.animaapp.i".data d.data (by decide) (by decide) h

/-- A percentage the extractor returns is the Number value of the digits it matched in
one of the texts, and comes with that text, trimmed. -/
theorem progressText_source {els : List String} {p : ProgressText} {v : JsNumber}
    (h : progressText els = some p) (hv : p.percent = some v) :
    ∃ text ∈ els, ∃ ds, matchPercent text.data = some ds ∧ v = toDouble (decimalValue ds) ∧
      p.text = utf16 (jsTrim text) := by
  unfold progressText at h
  split at h
  · next r hr =>
    cases h
    obtain ⟨text, hmem, ht⟩ := List.exists_of_findSome?_eq_some hr
    rw [Option.map_eq_some'] at ht
    obtain ⟨ds, hds, rfl⟩ := ht
    simp only [Option.some.injEq] at hv
    exact ⟨text, hmem, ds, hds, by rw [← hv, parseInt_eq_toDouble], rfl⟩
  · next hr =>
    obtain ⟨text, hmem, ht⟩ := List.exists_of_findSome?_eq_some h
    split at ht
    · cases ht
      cases hv
    · cases ht

/-! ## Rules for the effects of a program -/

theorem bind_run {α β : Type} (m : M α) (f : α → M β) (s : St) :
    (m >>= f) s = match m s with
      | (.ret a, s1) => f a s1
      | (.thrown e, s1) => (.thrown e, s1)
      | (.pending, s1) => (.pending, s1) := rfl

theorem pure_run {α : Type} (a : α) (s : St) : (pure a : M α) s = (.ret a, s) := rfl

theorem tryCatchM_run {α : Type} (m : M α) (h : JsError → M α) (s : St) :
    tryCatchM m h s = match m s with
      | (.ret a, s1) => (.ret a, s1)
      | (.thrown e, s1) => h e s1
      | (.pending, s1) => (.pending, s1) := rfl

theorem Logs.pure {α : Type} {w : World} {L : Label → Prop} {t p : Bool} (a : α) :
    Logs w L t p (pure a : M α) :=
  ⟨fun s => ⟨⟨[], by simp, rfl⟩, fun h => Bool.noConfusion h, fun h => Bool.noConfusion h⟩⟩

theorem Logs.bind {α β : Type} {w : World} {L : Label → Prop} {t p : Bool} {m : M α}
    {f : α → M β} (hm : Logs w L t p m) (hf : ∀ a, Logs w L t p (f a)) :
    Logs w L t p (m >>= f) := by
  constructor
  intro s
  obtain ⟨⟨l1, h1, e1⟩, ht, hp⟩ := hm.run s
  rw [bind_run]
  rcases hms : m s with ⟨o, s1⟩
  rw [hms] at e1 ht hp
  cases o with
  | ret a =>
    obtain ⟨⟨l2, h2, e2⟩, ht2, hp2⟩ := (hf a).run s1
    refine ⟨⟨l1 ++ l2, ?_, ?_⟩, ht2, hp2⟩
    · intro l hl
      rcases List.mem_append.mp hl with h | h
      · exact h1 l h
      · exact h2 l h
    · simp only [List.foldl_append]
      simp only at e1
      rw [← e1]
      exact e2
  | thrown e => exact ⟨⟨l1, h1, e1⟩, ht, hp⟩
  | pending => exact ⟨⟨l1, h1, e1⟩, ht, hp⟩

theorem Logs.tryCatchM {α : Type} {w : World} {L : Label → Prop} {t p : Bool} {m : M α}
    {h : JsError → M α} (hm : Logs w L true p m) (hh : ∀ e, Logs w L t p (h e)) :
    Logs w L t p (tryCatchM m h) := by
  constructor
  intro s
  obtain ⟨⟨l1, h1, e1⟩, _, hp⟩ := hm.run s
  rw [tryCatchM_run]
  rcases hms : m s with ⟨o, s1⟩
  rw [hms] at e1 hp
  cases o with
  | ret a => exact ⟨⟨l1, h1, e1⟩, fun h => Bool.noConfusion h, fun h => Bool.noConfusion h⟩
  | thrown e =>
    obtain ⟨⟨l2, h2, e2⟩, ht2, hp2⟩ := (hh e).run s1
    refine ⟨⟨l1 ++ l2, ?_, ?_⟩, ht2, hp2⟩
    · intro l hl
      rcases List.mem_append.mp hl with h | h
      · exact h1 l h
      · exact h2 l h
    · simp only [List.foldl_append]
      simp only at e1
      rw [← e1]
      exact e2
  | pending => exact ⟨⟨l1, h1, e1⟩, fun h => Bool.noConfusion h, hp⟩

theorem Logs.ite {α : Type} {w : World} {L : Label → Prop} {t p : Bool} {c : Prop}
    [Decidable c] {a b : M α} (ha : c → Logs w L t p a) (hb : ¬c → Logs w L t p b) :
    Logs w L t p (if c then a else b) := by
  split
  · exact ha ‹_›
  · exact hb ‹_›

theorem Logs.mono {α : Type} {w : World} {L L2 : Label → Prop} {t p t2 p2 : Bool}
    {m : M α} (h : Logs w L t p m) (hL : ∀ l, L l → L2 l) (ht : t = true → t2 = true)
    (hp : p = true → p2 = true) : Logs w L2 t2 p2 m := ⟨fun s =>
  let ⟨⟨ls, h1, h2⟩, h3, h4⟩ := h.run s
  ⟨⟨ls, fun l hl => hL l (h1 l hl), h2⟩, fun x => ht (h3 x), fun x => hp (h4 x)⟩⟩

theorem Logs.one {α : Type} {w : World} {L : Label → Prop} {p : Bool} {m : M α}
    (l : Label) (hl : L l) (h : ∀ s, (m s).2 = s.apply w l)
    (hp : ∀ s, (m s).1.isPending = false) : Logs w L true p m :=
  ⟨fun s => ⟨⟨[l], by simpa using hl, by simp [h s]⟩, fun _ => rfl,
    fun x => by rw [hp s] at x; exact Bool.noConfusion x⟩⟩

theorem Logs.safe {α : Type} {w : World} {L : Label → Prop} {t p : Bool} {m : M α}
    (ls : List Label) (hl : ∀ l ∈ ls, L l) (h : ∀ s, (m s).2 = ls.foldl (St.apply w) s)
    (hr : ∀ s, ∃ a, (m s).1 = .ret a) : Logs w L t p m :=
  ⟨fun s => by
    obtain ⟨a, ha⟩ := hr s
    refine ⟨⟨ls, hl, h s⟩, ?_, ?_⟩ <;> rw [ha] <;> intro x <;> cases x⟩

theorem Logs.perform {w : World} {L : Label → Prop} {p : Bool} {a : Action}
    (hl : L (.act a)) : Logs w L true p (perform w a) :=
  Logs.one (.act a) hl
    (fun s => by unfold CloneFlow.perform; cases w.fails s.tick a <;> rfl)
    (fun s => by unfold CloneFlow.perform; cases w.fails s.tick a <;> rfl)

theorem Logs.await {w : World} {L : Label → Prop} {p : Bool} {a : Action}
    (hl : L (.act a)) : Logs w L true p (await w a) :=
  Logs.one (.act a) hl
    (fun s => by unfold CloneFlow.await; cases w.fails s.tick a <;> rfl)
    (fun s => by unfold CloneFlow.await; cases w.fails s.tick a <;> rfl)

theorem Logs.isVisible {w : World} {L : Label → Prop} {p : Bool} {l : Loc}
    (hl : L (.act (.isVisible l))) : Logs w L true p (isVisible w l) :=
  Logs.bind (Logs.await hl) fun _ => Logs.pure _

theorem Logs.call {w : World} {L : Label → Prop} {t p : Bool} {a : Action}
    (hl : L (.act a)) : Logs w L t p (call w a) :=
  Logs.safe [.act a] (by simpa using hl) (fun _ => rfl) (fun s => ⟨s.tick, rfl⟩)

theorem Logs.dateNow {w : World} {L : Label → Prop} {t p : Bool}
    (hl : L (.act .now)) : Logs w L t p (dateNow w) :=
  Logs.safe [.act .now] (by simpa using hl) (fun _ => rfl) (fun _ => ⟨_, rfl⟩)

theorem Logs.pageUrl {w : World} {L : Label → Prop} {t p : Bool}
    (hl : L (.act .url)) : Logs w L t p (pageUrl w) :=
  Logs.bind (Logs.call hl) fun _ => Logs.pure _

theorem Logs.sendProgress {w : World} {L : Label → Prop} {t p : Bool} {e : Event}
    (hl : L (.emit e)) : Logs w L t p (sendProgress e) :=
  Logs.safe [.emit e] (by simpa using hl) (fun _ => rfl) (fun _ => ⟨(), rfl⟩)

theorem Logs.mark {w : World} {L : Label → Prop} {t p : Bool} {x : Step}
    (hl : L (.mark x)) : Logs w L t p (mark x) :=
  Logs.safe [.mark x] (by simpa using hl) (fun _ => rfl) (fun _ => ⟨(), rfl⟩)

theorem Logs.setSt {w : World} {L : Label → Prop} {t p : Bool} {f : St → St}
    (l : Label) (hl : L l) (h : ∀ s, f s = s.apply w l) : Logs w L t p (setSt f) :=
  Logs.safe [l] (by simpa using hl) (fun s => by simp [CloneFlow.setSt, h s])
    (fun _ => ⟨(), rfl⟩)

theorem Logs.getSt {w : World} {L : Label → Prop} {t p : Bool} : Logs w L t p getSt :=
  Logs.safe [] (by simp) (fun _ => rfl) (fun s => ⟨s, rfl⟩)

theorem Logs.outOfFuel {α : Type} {w : World} {L : Label → Prop} {t : Bool} :
    Logs w L t true (outOfFuel : M α) :=
  ⟨fun s => ⟨⟨[], by simp, rfl⟩, fun h => Bool.noConfusion h, fun _ => rfl⟩⟩


theorem Logs.bind_ret {α β : Type} {w : World} {L : Label → Prop} {t p : Bool} {m : M α}
    {f : α → M β} {R : α → Prop} (hm : Logs w L t p m) (hr : Returns m R)
    (hf : ∀ a, R a → Logs w L t p (f a)) : Logs w L t p (m >>= f) := by
  constructor
  intro s
  obtain ⟨⟨l1, h1, e1⟩, ht, hp⟩ := hm.run s
  rw [bind_run]
  rcases hms : m s with ⟨o, s1⟩
  rw [hms] at e1 ht hp
  cases o with
  | ret a =>
    obtain ⟨⟨l2, h2, e2⟩, ht2, hp2⟩ := (hf a (hr.run s a s1 hms)).run s1
    refine ⟨⟨l1 ++ l2, ?_, ?_⟩, ht2, hp2⟩
    · intro l hl
      rcases List.mem_append.mp hl with h | h
      · exact h1 l h
      · exact h2 l h
    · simp only [List.foldl_append]
      simp only at e1
      rw [← e1]
      exact e2
  | thrown e => exact ⟨⟨l1, h1, e1⟩, ht, hp⟩
  | pending => exact ⟨⟨l1, h1, e1⟩, ht, hp⟩

theorem Returns.ret_pure {α : Type} {R : α → Prop} {a : α} (h : R a) :
    Returns (pure a : M α) R :=
  ⟨fun s b s1 e => by cases e; exact h⟩

theorem Returns.ret_bind {α β : Type} {R : β → Prop} {m : M α} {f : α → M β}
    (h : ∀ a, Returns (f a) R) : Returns (m >>= f) R := by
  constructor
  intro s b s2 e
  rw [bind_run] at e
  rcases hms : m s with ⟨o, s1⟩
  rw [hms] at e
  cases o with
  | ret a => exact (h a).run s1 b s2 e
  | thrown x => cases e
  | pending => cases e

theorem Returns.ret_try {α : Type} {R : α → Prop} {m : M α} {h : JsError → M α}
    (hm : Returns m R) (hh : ∀ e, Returns (h e) R) : Returns (tryCatchM m h) R := by
  constructor
  intro s b s2 e
  rw [tryCatchM_run] at e
  rcases hms : m s with ⟨o, s1⟩
  rw [hms] at e
  cases o with
  | ret a =>
    cases e
    exact hm.run s b s2 hms
  | thrown x => exact (hh x).run s1 b s2 e
  | pending => cases e


/-! ## The effects of each part -/

theorem isShot_mk (kind : String) (n : Nat) : IsShot kind (kind ++ num n ++ ".png") :=
  ⟨n, rfl⟩

theorem isPath_mk (kind : String) (n : Nat) :
    IsPath kind ("/screenshots/" ++ (kind ++ num n ++ ".png")) :=
  ⟨n, rfl⟩

theorem isPublishedAt_mk (u : String) : IsPublishedAt ("Website published at: " ++ u) :=
  ⟨u, rfl⟩

theorem isRetry_mk (k : Nat) :
    IsRetry ("Retrying publish (attempt " ++ num k ++ "/" ++ num maxPublishAttempts ++ ")...") :=
  ⟨k, rfl⟩

theorem composePrompt_logs (w : World) (url prompt : String) :
    Logs w (composeLog url prompt) true false (composePrompt w url prompt) := by
  unfold composePrompt
  repeat (first
    | with_reducible (first
        | apply Logs.perform
        | apply Logs.pure
        | apply Logs.bind)
    | intro _
    | simp [composeLog])

theorem submitFirst_logs (w : World) (url prompt : String) :
    Logs w (submitLog url prompt) true false (submitFirst w url prompt) := by
  unfold submitFirst
  repeat (first
    | exact (composePrompt_logs w url prompt).mono (fun l hl => by simp_all [submitLog]) id id
    | with_reducible (first
        | apply Logs.tryCatchM
        | apply Logs.ite
        | apply Logs.perform
        | apply Logs.sendProgress
        | apply Logs.pure
        | apply Logs.bind)
    | intro _
    | dsimp only
    | simp_all [submitLog])

theorem loginBranch_logs (w : World) (url prompt : String) :
    Logs w (loginLog w url prompt) true false (loginBranch w url prompt) := by
  unfold loginBranch
  repeat (first
    | exact (composePrompt_logs w url prompt).mono (fun l hl => by simp_all [loginLog, loginOwnLog]) id id
    | with_reducible (first
        | apply Logs.tryCatchM
        | apply Logs.ite
        | apply Logs.perform
        | apply Logs.isVisible
        | apply Logs.sendProgress
        | apply Logs.pure
        | apply Logs.bind)
    | intro _
    | dsimp only
    | simp_all [loginLog, loginOwnLog])

theorem reportProgress_logs (w : World) (p : ProgressText) :
    Logs w (reportLog p) false false (reportProgress p) :=
  Logs.safe [.report p] (by simp [reportLog])
    (fun s => by
      simp only [reportProgress, getSt, setSt, sendProgress, bind_run, List.foldl_cons,
        List.foldl_nil, St.apply]
      split <;> rfl)
    (fun s => by
      simp only [reportProgress, getSt, setSt, sendProgress, bind_run]
      split <;> exact ⟨(), rfl⟩)

/-- What a poll finds is what the progress extractor returns on the texts of the page. -/
theorem found_returns (w : World) :
    Returns
      (tryCatchM (do let t ← await w .evaluateProgress; pure (progressText (w.texts t)))
        (fun _ => pure none))
      (fun found => ∀ p, found = some p → ∃ t, progressText (w.texts t) = some p) := by
  exact Returns.ret_try
    (Returns.ret_bind fun t => Returns.ret_pure fun p hp => ⟨t, hp⟩)
    (fun _ => Returns.ret_pure fun p hp => by cases hp)

theorem pollBody_logs (w : World) (startTime : Nat) :
    Logs w (pollLog w) false false (pollBody w startTime) := by
  unfold pollBody
  repeat (first
    | (with_reducible refine Logs.mono (reportProgress_logs w _) ?_ id id
       intro l hl
       cases l <;> simp_all [pollLog, reportLog])
    | with_reducible refine Logs.bind_ret ?_ (found_returns w) ?_
    | with_reducible (first
        | apply Logs.tryCatchM
        | apply Logs.ite
        | apply Logs.perform
        | apply Logs.await
        | apply Logs.pageUrl
        | apply Logs.dateNow
        | apply Logs.sendProgress)
    | exact Logs.setSt .previewReady (by simp [pollLog]) (fun _ => rfl)
    | with_reducible (first
        | apply Logs.pure
        | apply Logs.bind)
    | intro _
    | split
    | dsimp only
    | simp [pollLog, isShot_mk])

theorem monitor_logs (w : World) (startTime fuel : Nat) :
    Logs w (monitorLog w) true true (monitor w startTime fuel) := by
  induction fuel with
  | zero => exact Logs.outOfFuel
  | succ n ih =>
    unfold monitor
    repeat (first
      | exact ih
      | exact (pollBody_logs w startTime).mono (fun l hl => Or.inl hl) (fun h => rfl)
          (fun h => rfl)
      | with_reducible (first
          | apply Logs.tryCatchM
          | apply Logs.ite
          | apply Logs.perform
          | apply Logs.dateNow
          | apply Logs.mark
          | apply Logs.pure
          | apply Logs.bind)
      | intro _
      | dsimp only
      | simp [monitorLog, pollLog])

theorem finalScreenshot_logs (w : World) :
    Logs w finalShotLog true false (finalScreenshot w) := by
  unfold finalScreenshot
  repeat (first
    | with_reducible (first
        | apply Logs.ite
        | apply Logs.perform
        | apply Logs.pageUrl
        | apply Logs.dateNow
        | apply Logs.getSt)
    | exact Logs.setSt .previewReady (by simp [finalShotLog]) (fun _ => rfl)
    | with_reducible (first
        | apply Logs.pure
        | apply Logs.bind)
    | intro _
    | dsimp only
    | simp [finalShotLog, isShot_mk])

set_option maxRecDepth 4000 in
theorem settle_logs (w : World) : Logs w settleLog true false (settle w) := by
  unfold settle
  repeat (first
    | with_reducible (first
        | apply Logs.tryCatchM
        | apply Logs.ite
        | apply Logs.perform
        | apply Logs.isVisible
        | apply Logs.sendProgress
        | apply Logs.pure
        | apply Logs.bind)
    | intro _
    | dsimp only
    | simp [settleLog])

theorem capturePreview_logs (w : World) :
    Logs w captureLog true false (capturePreview w) := by
  unfold capturePreview
  repeat (first
    | with_reducible (first
        | apply Logs.tryCatchM
        | apply Logs.ite
        | apply Logs.perform
        | apply Logs.await
        | apply Logs.dateNow
        | apply Logs.sendProgress)
    | exact Logs.setSt (.previewScreenshot _) (by simp [captureLog, isPath_mk]) (fun _ => rfl)
    | with_reducible (first
        | apply Logs.pure
        | apply Logs.bind)
    | intro _
    | split
    | dsimp only
    | simp [captureLog, isShot_mk, isPath_mk])

theorem extractFromSpan_logs (w : World) :
    Logs w (extractLog w) false false (extractFromSpan w) := by
  unfold extractFromSpan
  repeat (first
    | with_reducible (first
        | apply Logs.tryCatchM
        | apply Logs.ite
        | apply Logs.await
        | apply Logs.isVisible
        | apply Logs.sendProgress
        | apply Logs.mark)
    | exact Logs.setSt (.publishedUrl _)
        (isAddress_of_span (by assumption) (by assumption)) (fun _ => rfl)
    | with_reducible (first
        | apply Logs.pure
        | apply Logs.bind)
    | intro _
    | split
    | dsimp only
    | exact ⟨isPublishedAt_mk _, rfl, rfl⟩
    | simp [extractLog])

theorem extractFromDocument_logs (w : World) :
    Logs w (extractLog w) false false (extractFromDocument w) := by
  unfold extractFromDocument
  repeat (first
    | with_reducible (first
        | apply Logs.tryCatchM
        | apply Logs.ite
        | apply Logs.await
        | apply Logs.getSt
        | apply Logs.mark)
    | exact Logs.setSt (.publishedUrl _) (isAddress_of_allText (by assumption))
        (fun _ => rfl)
    | with_reducible (first
        | apply Logs.pure
        | apply Logs.bind)
    | intro _
    | split
    | dsimp only
    | simp [extractLog])

set_option maxRecDepth 4000 in
theorem openSheet_logs (w : World) (attempt : Nat) :
    Logs w attemptLog true false (openSheet w attempt) := by
  unfold openSheet
  repeat (first
    | with_reducible (first
        | apply Logs.tryCatchM
        | apply Logs.ite
        | apply Logs.perform
        | apply Logs.isVisible
        | apply Logs.dateNow
        | apply Logs.sendProgress
        | apply Logs.pure
        | apply Logs.bind)
    | intro _
    | dsimp only
    | simp [attemptLog, isShot_mk, isRetry_mk])

theorem publishAttempt_logs (w : World) (attempt : Nat) :
    Logs w (fun l => attemptLog l ∨ extractLog w l) true false
      (publishAttempt w attempt) := by
  unfold publishAttempt
  repeat (first
    | exact (openSheet_logs w attempt).mono (fun l hl => Or.inl hl) id id
    | exact (extractFromSpan_logs w).mono (fun l hl => Or.inr hl) (fun h => rfl) id
    | exact (extractFromDocument_logs w).mono (fun l hl => Or.inr hl) (fun h => rfl) id
    | with_reducible (first
        | apply Logs.ite
        | apply Logs.getSt
        | apply Logs.pure
        | apply Logs.bind)
    | intro _
    | dsimp only)

theorem publishLoop_logs (w : World) (remaining : Nat) (h : remaining ≤ maxPublishAttempts) :
    Logs w (loopLog w) false false (publishLoop w remaining) := by
  induction remaining with
  | zero => exact Logs.pure _
  | succ n ih =>
    unfold publishLoop
    repeat (first
      | exact ih (by omega)
      | exact (publishAttempt_logs w _).mono (fun l hl => Or.inr hl) id id
      | with_reducible (first
          | apply Logs.tryCatchM
          | apply Logs.ite
          | apply Logs.mark
          | apply Logs.pure
          | apply Logs.bind)
      | intro _
      | dsimp only
      | (simp [loopLog, maxPublishAttempts] at h ⊢; omega))

theorem publishPhase_logs (w : World) :
    Logs w (publishLog w) false false (publishPhase w) := by
  unfold publishPhase
  repeat (first
    | exact (settle_logs w).mono (fun l hl => by simp [publishLog, hl]) id id
    | exact (capturePreview_logs w).mono (fun l hl => by simp [publishLog, hl]) id id
    | exact (publishLoop_logs w _ (Nat.le_refl _)).mono
        (fun l hl => by simp [publishLog, hl]) (fun h => rfl) id
    | with_reducible (first
        | apply Logs.tryCatchM
        | apply Logs.ite
        | apply Logs.perform
        | apply Logs.dateNow
        | apply Logs.getSt
        | apply Logs.sendProgress
        | apply Logs.pure
        | apply Logs.bind)
    | intro _
    | dsimp only
    | simp [publishLog, publishTailLog, isShot_mk])

theorem linger_logs (w : World) : Logs w lingerLog true false (linger w) := by
  unfold linger
  repeat (first
    | with_reducible (first
        | apply Logs.perform
        | apply Logs.pure
        | apply Logs.bind)
    | exact Logs.setSt .ended (by simp [lingerLog]) (fun _ => rfl)
    | intro _
    | simp [lingerLog])

theorem finish_logs (w : World) (file : String) :
    Logs w (finishLog file) true false (finish w file) := by
  unfold finish
  repeat (first
    | exact (linger_logs w).mono
        (fun l hl => by
          cases l with
          | act a => cases a <;> simp_all [finishLog, lingerLog]
          | emit e => cases e <;> simp_all [finishLog, lingerLog]
          | _ => simp_all [finishLog, lingerLog]) id id
    | with_reducible (first
        | apply Logs.pageUrl
        | apply Logs.getSt
        | apply Logs.sendProgress
        | apply Logs.pure
        | apply Logs.bind)
    | intro _
    | dsimp only
    | simp [finishLog])

theorem generate_logs (w : World) (fuel : Nat) (url prompt : String) :
    Logs w (generateLog w url prompt) true true (generate w fuel url prompt) := by
  unfold generate
  repeat (first
    | exact (submitFirst_logs w url prompt).mono (fun l hl => by simp [generateLog, hl]) id
        (fun h => rfl)
    | exact (loginBranch_logs w url prompt).mono (fun l hl => by simp [generateLog, hl]) id
        (fun h => rfl)
    | exact (monitor_logs w _ fuel).mono (fun l hl => by simp [generateLog, hl]) id id
    | with_reducible (first
        | apply Logs.perform
        | apply Logs.pageUrl
        | apply Logs.dateNow
        | apply Logs.sendProgress)
    | exact Logs.setSt .browser (by simp [generateLog, generateOwnLog]) (fun _ => rfl)
    | with_reducible (first
        | apply Logs.pure
        | apply Logs.bind)
    | intro _
    | dsimp only
    | simp [generateLog, generateOwnLog])

theorem finalScreenshot_returns (w : World) :
    Returns (finalScreenshot w) (IsShot "clone-final-") := by
  unfold finalScreenshot
  repeat (first
    | with_reducible (first
        | apply Returns.ret_bind
        | apply Returns.ret_pure)
    | intro _
    | exact isShot_mk _ _
    | dsimp only
    | split)

theorem tryBlock_logs (w : World) (fuel : Nat) (url prompt : String) :
    Logs w (tryLog w url prompt) true true (tryBlock w fuel url prompt) := by
  unfold tryBlock
  refine Logs.bind ((generate_logs w fuel url prompt).mono (fun l hl => Or.inl hl) id id) ?_
  intro _
  refine Logs.bind_ret ((finalScreenshot_logs w).mono (fun l hl => Or.inr (Or.inl hl)) id
    (fun h => rfl)) (finalScreenshot_returns w) ?_
  intro file hfile
  repeat (first
    | exact (publishPhase_logs w).mono (fun l hl => Or.inr (Or.inr (Or.inl hl)))
        (fun h => rfl) (fun h => rfl)
    | exact (finish_logs w file).mono (fun l hl => Or.inr (Or.inr (Or.inr ⟨file, hfile, hl⟩)))
        id (fun h => rfl)
    | with_reducible (first
        | apply Logs.ite
        | apply Logs.getSt
        | apply Logs.pure
        | apply Logs.bind)
    | intro _
    | dsimp only)

theorem catchBlock_logs (w : World) (error : JsError) :
    Logs w catchLog false false (catchBlock w error) := by
  unfold catchBlock
  repeat (first
    | with_reducible (first
        | apply Logs.tryCatchM
        | apply Logs.ite
        | apply Logs.perform
        | apply Logs.getSt
        | apply Logs.sendProgress
        | apply Logs.pure
        | apply Logs.bind)
    | exact Logs.setSt .ended (by simp [catchLog]) (fun _ => rfl)
    | intro _
    | dsimp only
    | exact ⟨error, rfl, rfl⟩
    | simp [catchLog])

theorem tryStatement_logs (w : World) (fuel : Nat) (url prompt : String) :
    Logs w (handledLog w url prompt) false true (tryStatement w fuel url prompt) :=
  Logs.tryCatchM ((tryBlock_logs w fuel url prompt).mono (fun _ hl => Or.inl hl) id id)
    fun e => (catchBlock_logs w e).mono (fun _ hl => Or.inr hl) id
      (fun h => Bool.noConfusion h)

theorem stream_logs (w : World) (fuel : Nat) (url prompt : String) :
    Logs w (streamLog w url prompt) false true (stream w fuel url prompt) := by
  unfold stream
  refine Logs.bind (Logs.sendProgress (Or.inl rfl)) fun _ => ?_
  exact (tryStatement_logs w fuel url prompt).mono (fun l hl => Or.inr hl) id id

/-! ## From effects to invariants -/

theorem foldl_inv (w : World) (L : Label → Prop) (P : St → Prop)
    (hP : ∀ l s, L l → P s → P (s.apply w l)) (ls : List Label) (hl : ∀ l ∈ ls, L l)
    (s : St) (hs : P s) : P (ls.foldl (St.apply w) s) := by
  induction ls generalizing s with
  | nil => exact hs
  | cons l ls ih =>
    rw [List.foldl_cons]
    exact ih (fun x hx => hl x (List.mem_cons_of_mem _ hx)) _
      (hP l s (hl l (List.mem_cons_self _ _)) hs)

theorem Logs.inv {α : Type} {w : World} {L : Label → Prop} {t p : Bool} {m : M α}
    (h : Logs w L t p m) (P : St → Prop) (hP : ∀ l s, L l → P s → P (s.apply w l))
    (s : St) (hs : P s) : P (m s).2 := by
  obtain ⟨⟨ls, hl, e⟩, _, _⟩ := h.run s
  rw [e]
  exact foldl_inv w L P hP ls hl s hs


theorem apply_trace (w : World) (s : St) (l : Label) :
    (s.apply w l).trace = s.trace ++ l.steps := by
  cases l <;> simp [St.apply, St.after, Label.steps]
  split <;> rfl

theorem apply_events (w : World) (s : St) (l : Label) :
    ∃ es, (s.apply w l).events = s.events ++ es ∧ ∀ e ∈ es, l.emits e := by
  cases l with
  | emit e => exact ⟨[e], rfl, by simp [Label.emits]⟩
  | report p =>
    simp only [St.apply]
    split
    · exact ⟨[_], rfl, by simp [Label.emits]⟩
    · exact ⟨[], by simp, by simp⟩
  | _ => exact ⟨[], by simp [St.apply, St.after], by simp⟩

theorem Logs.all_trace {α : Type} {w : World} {L : Label → Prop} {t p : Bool} {m : M α}
    (h : Logs w L t p m) (T : Step → Prop) (hT : ∀ l, L l → ∀ x ∈ l.steps, T x)
    (s : St) (hs : ∀ x ∈ s.trace, T x) : ∀ x ∈ (m s).2.trace, T x := by
  refine h.inv (fun s => ∀ x ∈ s.trace, T x) ?_ s hs
  intro l s hl hs x hx
  rw [apply_trace] at hx
  rcases List.mem_append.mp hx with hx | hx
  · exact hs x hx
  · exact hT l hl x hx

theorem Logs.all_events {α : Type} {w : World} {L : Label → Prop} {t p : Bool} {m : M α}
    (h : Logs w L t p m) (E : Event → Prop) (hE : ∀ l e, L l → l.emits e → E e)
    (s : St) (hs : ∀ e ∈ s.events, E e) : ∀ e ∈ (m s).2.events, E e := by
  refine h.inv (fun s => ∀ e ∈ s.events, E e) ?_ s hs
  intro l s hl hs x hx
  obtain ⟨es, e1, e2⟩ := apply_events w s l
  rw [e1] at hx
  rcases List.mem_append.mp hx with hx | hx
  · exact hs x hx
  · exact hE l x hl (e2 x hx)

theorem Logs.events_grow {α : Type} {w : World} {L : Label → Prop} {t p : Bool} {m : M α}
    (h : Logs w L t p m) (s : St) : ∃ es, (m s).2.events = s.events ++ es := by
  refine h.inv (fun s1 => ∃ es, s1.events = s.events ++ es) ?_ s ⟨[], by simp⟩
  rintro l s1 - ⟨es, hes⟩
  obtain ⟨es2, e1, -⟩ := apply_events w s1 l
  exact ⟨es ++ es2, by rw [e1, hes, List.append_assoc]⟩

/-- The state a run of the handler leaves when the address parses. -/
theorem cloneStream_st (w : World) (fuel : Nat) (req : Request) (url : String)
    (hu : req.url = some url) (hp : w.urlParses url = true) :
    (cloneStream w fuel req).st = (stream w fuel url (req.prompt.getD "") (St.init w)).2 ∧
      (cloneStream w fuel req).reply = .eventStream := by
  have hne : url ≠ "" := fun h => by rw [h, w.parse_empty] at hp; cases hp
  unfold cloneStream
  rw [hu]
  simp only [hne, hp, if_false, Bool.not_true]
  rcases stream w fuel url (req.prompt.getD "") (St.init w) with ⟨o, s⟩
  cases o <;> exact ⟨rfl, rfl⟩

/-- The state a run of the handler leaves when the address is rejected. -/
theorem cloneStream_rejected (w : World) (fuel : Nat) (req : Request)
    (h : req.url = none ∨ ∃ u, req.url = some u ∧ w.urlParses u = false) :
    ∃ msg, cloneStream w fuel req =
      { reply := .json 400 msg, returned := true, st := St.init w } := by
  unfold cloneStream
  rcases h with h | ⟨u, h, hp⟩
  · rw [h]
    exact ⟨_, rfl⟩
  · rw [h]
    by_cases hu : u = ""
    · simp only [hu, if_true]
      exact ⟨_, rfl⟩
    · simp only [hu, hp, if_false, Bool.not_false, if_true]
      exact ⟨_, rfl⟩

/-- A run either rejects the address or streams. -/
theorem cloneStream_cases (w : World) (fuel : Nat) (req : Request) :
    (∃ msg, cloneStream w fuel req =
        { reply := .json 400 msg, returned := true, st := St.init w }) ∨
      ∃ url, req.url = some url ∧ w.urlParses url = true := by
  by_cases hv : req.url = none ∨ ∃ u, req.url = some u ∧ w.urlParses u = false
  · exact Or.inl (cloneStream_rejected w fuel req hv)
  · right
    cases hreq : req.url with
    | none => exact absurd (Or.inl hreq) hv
    | some u =>
      refine ⟨u, rfl, ?_⟩
      cases hp : w.urlParses u with
      | true => rfl
      | false => exact absurd (Or.inr ⟨u, hreq, hp⟩) hv

theorem isPublishedAt_head {m : String} (h : IsPublishedAt m) : m.data.head? = some 'W' := by
  obtain ⟨u, rfl⟩ := h
  simp [String.data_append]

theorem isRetry_head {m : String} (h : IsRetry m) : m.data.head? = some 'R' := by
  obtain ⟨k, rfl⟩ := h
  simp [String.data_append]

theorem stream_noCompose (w : World) (url prompt : String) (h : hasPrompt prompt = false)
    (l : Label) (hl : streamLog w url prompt l) : l.noCompose := by
  simp only [streamLog, handledLog, tryLog, generateLog, submitLog, loginLog, monitorLog, publishLog,
    loopLog, h] at hl
  cases l with
  | act a =>
    cases a <;>
      simp_all [Label.noCompose, Step.isCompose, generateOwnLog, loginOwnLog, pollLog,
        finalShotLog, settleLog, captureLog, attemptLog, extractLog, publishTailLog, finishLog,
        lingerLog, catchLog] <;>
      (casesm* _ ∨ _, _ ∧ _) <;> simp_all
  | emit e =>
    cases e <;>
      simp_all [Label.noCompose, Step.isCompose, generateOwnLog, loginOwnLog, pollLog,
        finalShotLog, settleLog, captureLog, attemptLog, extractLog, publishTailLog, finishLog,
        lingerLog, catchLog]
    (casesm* _ ∨ _, _ ∧ _) <;> intro hm <;> subst hm <;>
      first
      | (rename_i hh; have := isRetry_head hh; simp at this)
      | (rename_i hh; have := isPublishedAt_head hh; simp at this)
      | simp_all
  | mark x =>
    cases x <;>
      simp_all [Label.noCompose, Step.isCompose, generateOwnLog, loginOwnLog, pollLog,
        finalShotLog, settleLog, captureLog, attemptLog, extractLog, publishTailLog, finishLog,
        lingerLog, catchLog]
  | _ => trivial

theorem stream_goodComplete (w : World) (url prompt : String) (e : Event)
    (hl : streamLog w url prompt (.emit e)) : e.goodComplete := by
  simp only [streamLog, handledLog, tryLog, generateLog, submitLog, loginLog, monitorLog,
    publishLog, loopLog] at hl
  cases e <;> try trivial
  simp_all [Event.goodComplete, composeLog, generateOwnLog, loginOwnLog, pollLog, finalShotLog,
    settleLog, captureLog, attemptLog, extractLog, publishTailLog, finishLog, lingerLog,
    catchLog]
  obtain ⟨file, ⟨n, rfl⟩, h1, h2⟩ := hl
  exact ⟨h1, n, by rw [h2]; simp [String.append_assoc]; rfl⟩


theorem progressPairs_append (es fs : List Event) :
    progressPairs (es ++ fs) = progressPairs es ++ progressPairs fs := by
  induction es with
  | nil => rfl
  | cons e es ih => cases e <;> simp [progressPairs, ih]

theorem stream_noProgressEmit (w : World) (url prompt : String) (m : JsString) (n : JsNumber) (k : Nat)
    (hl : streamLog w url prompt (.emit (.progress m n k))) : False := by
  simp [streamLog, handledLog, tryLog, generateLog, submitLog, loginLog, monitorLog,
    publishLog, loopLog, composeLog, generateOwnLog, loginOwnLog, pollLog, finalShotLog,
    settleLog, captureLog, attemptLog, extractLog, publishTailLog, finishLog, lingerLog,
    catchLog] at hl

theorem deduped_apply (w : World) (url prompt : String) (l : Label) (s : St)
    (hl : streamLog w url prompt l) (hs : Deduped s) : Deduped (s.apply w l) := by
  cases l with
  | emit e =>
    cases e with
    | progress m n k => exact (stream_noProgressEmit w url prompt m n k hl).elim
    | _ => simpa [Deduped, St.apply, progressPairs_append, progressPairs] using hs
  | report p =>
    simp only [St.apply]
    split
    · rename_i hne
      have hne2 : progressMessage p ≠ s.lastProgress := by simpa using hne
      refine ⟨?_, ?_⟩
      · simp only [progressPairs_append, progressPairs]
        rw [List.chain'_append]
        refine ⟨hs.1, List.chain'_singleton _, ?_⟩
        intro x hx y hy
        simp only [List.head?_cons, Option.mem_def, Option.some.injEq] at hy
        subst hy
        intro hxy
        exact hne2 (by rw [← hs.2 x hx, hxy])
      · intro q hq
        simp only [progressPairs_append, progressPairs, List.getLast?_append, List.getLast?_singleton,
          Option.mem_def] at hq
        simp at hq
        rw [← hq]
    · exact hs
  | _ => simpa [Deduped, St.apply, St.after] using hs

/-! ## Rules for pre- and postconditions -/

theorem Spec.seq {α β : Type} {P : St → Prop} {m : M α} {f : α → M β} {R : α → St → Prop}
    {Q : β → St → Prop} {X : St → Prop} (hm : Spec P m R X)
    (hf : ∀ a, Spec (R a) (f a) Q X) : Spec P (m >>= f) Q X := by
  constructor
  intro s hs
  have h1 := hm.run s hs
  rw [bind_run]
  rcases hms : m s with ⟨o, s1⟩
  rw [hms] at h1
  cases o with
  | ret a => exact (hf a).run s1 h1
  | thrown e => exact h1
  | pending => exact h1

theorem Spec.handle {α : Type} {P : St → Prop} {m : M α} {h : JsError → M α}
    {Q : α → St → Prop} {X Y : St → Prop} (hm : Spec P m Q Y)
    (hh : ∀ e, Spec Y (h e) Q X) (hY : ∀ s, Y s → X s) : Spec P (tryCatchM m h) Q X := by
  constructor
  intro s hs
  have h1 := hm.run s hs
  rw [tryCatchM_run]
  rcases hms : m s with ⟨o, s1⟩
  rw [hms] at h1
  cases o with
  | ret a => exact h1
  | thrown e => exact (hh e).run s1 h1
  | pending => exact hY s1 h1

theorem Spec.conseq {α : Type} {P P2 : St → Prop} {m : M α} {Q Q2 : α → St → Prop}
    {X X2 : St → Prop} (h : Spec P m Q X) (hP : ∀ s, P2 s → P s)
    (hQ : ∀ a s, Q a s → Q2 a s) (hX : ∀ s, X s → X2 s) : Spec P2 m Q2 X2 := by
  constructor
  intro s hs
  have h1 := h.run s (hP s hs)
  rcases hms : m s with ⟨o, s1⟩
  rw [hms] at h1
  cases o with
  | ret a => exact hQ a s1 h1
  | thrown e => exact hX s1 h1
  | pending => exact hX s1 h1

theorem Spec.of_logs {α : Type} {w : World} {L : Label → Prop} {t p : Bool} {m : M α}
    {P : St → Prop} (h : Logs w L t p m) (hP : ∀ l s, L l → P s → P (s.apply w l)) :
    Spec P m (fun _ => P) P := by
  constructor
  intro s hs
  have h1 := h.inv P hP s hs
  rcases hms : m s with ⟨o, s1⟩
  rw [hms] at h1
  cases o <;> exact h1

theorem Spec.of_pure {α : Type} {P : St → Prop} {a : α} {Q : α → St → Prop} {X : St → Prop}
    (h : ∀ s, P s → Q a s) : Spec P (pure a : M α) Q X :=
  ⟨fun s hs => h s hs⟩

theorem Spec.cond {α : Type} {P : St → Prop} {c : Prop} [Decidable c] {a b : M α}
    {Q : α → St → Prop} {X : St → Prop} (ha : c → Spec P a Q X) (hb : ¬c → Spec P b Q X) :
    Spec P (if c then a else b) Q X := by
  split
  · exact ha ‹_›
  · exact hb ‹_›

theorem Spec.total {α : Type} {w : World} {L : Label → Prop} {m : M α} {P : St → Prop}
    {Q : α → St → Prop} {X : St → Prop} (h : Spec P m Q X) (hl : Logs w L false false m) :
    Spec P m Q (fun _ => False) := by
  constructor
  intro s hs
  have h1 := h.run s hs
  obtain ⟨-, ht, hp⟩ := hl.run s
  rcases hms : m s with ⟨o, s1⟩
  rw [hms] at h1 ht hp
  cases o with
  | ret a => exact h1
  | thrown e => exact Bool.noConfusion (ht rfl)
  | pending => exact Bool.noConfusion (hp rfl)

theorem Spec.of_getSt {P : St → Prop} {X : St → Prop} :
    Spec P getSt (fun a s => a = s ∧ P s) X :=
  ⟨fun _ hs => ⟨rfl, hs⟩⟩

/-! ## The publish loop -/

theorem apply_publishedUrl (w : World) (s : St) (l : Label) (h : ∀ v, l ≠ .publishedUrl v) :
    (s.apply w l).publishedUrl = s.publishedUrl := by
  cases l <;> simp [St.apply, St.after] at *
  split <;> rfl

theorem apply_previewScreenshot (w : World) (s : St) (l : Label)
    (h : s.previewScreenshot.isSome = true) : (s.apply w l).previewScreenshot.isSome = true := by
  cases l <;> simp [St.apply, St.after, h]
  split <;> simp [h]

theorem before_apply (w : World) (k : Nat) (l : Label) (s : St) (hl : l.pre)
    (hs : Before k s) : Before k (s.apply w l) := by
  obtain ⟨h1, h2, h3, h4⟩ := hs
  obtain ⟨es, e1, e2⟩ := apply_events w s l
  refine ⟨by rw [apply_publishedUrl w s l hl.2.2, h1], ?_, ?_, ?_⟩
  · intro x hx
    rw [apply_trace] at hx
    rcases List.mem_append.mp hx with hx | hx
    · exact h2 x hx
    · exact (hl.1 x hx).2
  · rw [apply_trace, List.countP_append]
    have : l.steps.countP Step.isAttemptMark = 0 :=
      List.countP_eq_zero.mpr fun x hx => by simp [(hl.1 x hx).1]
    omega
  · intro e he
    rw [e1] at he
    rcases List.mem_append.mp he with he | he
    · exact h4 e he
    · exact hl.2.1 e (e2 e he)

theorem ready_apply (w : World) (k : Nat) (l : Label) (s : St) (hl : l.pre)
    (hs : Ready k s) : Ready k (s.apply w l) :=
  ⟨before_apply w k l s hl hs.1, apply_previewScreenshot w s l hs.2⟩

theorem extracted_apply (w : World) (t : String) (l : Label) (s : St) (hl : l.post)
    (hs : Extracted t s) : Extracted t (s.apply w l) := by
  obtain ⟨⟨pre, post, h1, h2, h3, h4⟩, h5, h6, h7⟩ := hs
  obtain ⟨es, e1, e2⟩ := apply_events w s l
  refine ⟨⟨pre, post ++ l.steps, ?_, h2, h3, ?_⟩, ?_, apply_previewScreenshot w s l h6, ?_⟩
  · rw [apply_trace, h1]
    simp
  · intro x hx
    rcases List.mem_append.mp hx with hx | hx
    · exact h4 x hx
    · exact ⟨(hl.1.1 x hx).1, hl.2 x hx, (hl.1.1 x hx).2⟩
  · rw [apply_publishedUrl w s l hl.1.2.2, h5]
  · intro e he
    rw [e1] at he
    rcases List.mem_append.mp he with he | he
    · exact h7 e he
    · exact hl.1.2.1 e (e2 e he)

theorem after_apply (w : World) (l : Label) (s : St) (hl : l.post) (hs : After s) :
    After (s.apply w l) := by
  rcases hs with hs | ⟨t, hs⟩
  · exact Or.inl (before_apply w _ l s hl.1 hs)
  · exact Or.inr ⟨t, extracted_apply w t l s hl hs⟩

theorem pre_act (a : Action) : (Label.act a).pre := by
  simp [Label.pre, Label.steps, Label.emits, Step.isAttemptMark, Step.isExtracted]

theorem pre_emit (e : Event) (h : e.isComplete = false) : (Label.emit e).pre := by
  simp [Label.pre, Label.steps, Label.emits, h]

theorem attempt_pre (l : Label) (h : attemptLog l) : l.pre := by
  cases l with
  | act a => exact pre_act a
  | emit e => cases e <;> simp_all [attemptLog, Label.pre, Label.steps, Label.emits, Event.isComplete]
  | _ => simp_all [attemptLog]

theorem generate_post (w : World) (url prompt : String) (l : Label)
    (h : generateLog w url prompt l) : l.post := by
  simp only [generateLog, submitLog, loginLog, monitorLog] at h
  cases l with
  | act a =>
    cases a <;>
      simp_all [Label.post, Label.pre, Label.steps, Label.emits, Step.isAttemptMark,
        Step.isExtracted, Step.isPublishClick, composeLog, generateOwnLog, loginOwnLog, pollLog]
    (casesm* _ ∨ _, _ ∧ _) <;> simp_all
  | emit e =>
    cases e <;>
      simp_all [Label.post, Label.pre, Label.steps, Label.emits, Event.isComplete, composeLog,
        generateOwnLog, loginOwnLog, pollLog]
  | mark x =>
    cases x <;>
      simp_all [Label.post, Label.pre, Label.steps, Label.emits, Step.isAttemptMark,
        Step.isExtracted, Step.isPublishClick, composeLog, generateOwnLog, loginOwnLog, pollLog]
  | _ =>
    simp_all [Label.post, Label.pre, Label.steps, Label.emits, Event.isComplete, composeLog,
      generateOwnLog, loginOwnLog, pollLog]

theorem post_of_simple (l : Label)
    (h : finalShotLog l ∨ settleLog l ∨ captureLog l ∨ publishTailLog l ∨ lingerLog l ∨
      catchLog l) : l.post := by
  cases l with
  | act a =>
    cases a <;>
      simp_all [Label.post, Label.pre, Label.steps, Label.emits, Step.isAttemptMark,
        Step.isExtracted, Step.isPublishClick, finalShotLog, settleLog, captureLog,
        publishTailLog, lingerLog, catchLog]
  | emit e =>
    cases e <;>
      simp_all [Label.post, Label.pre, Label.steps, Label.emits, Event.isComplete, finalShotLog,
        settleLog, captureLog, publishTailLog, lingerLog, catchLog]
  | mark x =>
    simp_all [Label.post, Label.pre, Label.steps, Label.emits, finalShotLog, settleLog,
      captureLog, publishTailLog, lingerLog, catchLog]
  | _ =>
    simp_all [Label.post, Label.pre, Label.steps, Label.emits, finalShotLog, settleLog,
      captureLog, publishTailLog, lingerLog, catchLog]

theorem trimChars_idem (cs : List Char) : trimChars (trimChars cs) = trimChars cs := by
  have h1 : ∀ l, trimChars l = (l.dropWhile isJsSpace).rdropWhile isJsSpace := fun _ => rfl
  rw [h1 (trimChars cs), h1 cs]
  have h2 : ((cs.dropWhile isJsSpace).rdropWhile isJsSpace).dropWhile isJsSpace =
      (cs.dropWhile isJsSpace).rdropWhile isJsSpace := by
    obtain ⟨t, ht⟩ := List.rdropWhile_prefix isJsSpace (cs.dropWhile isJsSpace)
    cases hx : (cs.dropWhile isJsSpace).rdropWhile isJsSpace with
    | nil => rfl
    | cons x xs =>
      rw [hx] at ht
      have hne : cs.dropWhile isJsSpace ≠ [] := by rw [← ht]; simp
      have := List.head_dropWhile_not isJsSpace cs hne
      have hh : (cs.dropWhile isJsSpace).head hne = x := by
        simp only [← ht]
        rfl
      rw [hh] at this
      rw [List.dropWhile_cons_of_neg (by simp [this])]
  rw [h2, List.rdropWhile_idempotent]

theorem jsTrim_idem (s : String) : jsTrim (jsTrim s) = jsTrim s := by
  simp [jsTrim, trimChars_idem]

theorem allText_trimmed (els : List String) (found : String) (h : allText els = some found) :
    jsTrim found = found := by
  unfold allText at h
  obtain ⟨text, -, rfl⟩ := Option.map_eq_some'.mp h
  exact jsTrim_idem text

theorem https_truthy (u : String) : truthy (some ("https://" ++ u)) = true := by
  have h : "https://" ++ u ≠ "" := by
    intro h
    have := congrArg String.data h
    simp [String.data_append] at this
  simpa [truthy] using h

theorem Spec.of_run {α : Type} {P : St → Prop} {m : M α} {Q : α → St → Prop} {X : St → Prop}
    (a : α) (f : St → St) (hm : ∀ s, m s = (.ret a, f s)) (h : ∀ s, P s → Q a (f s)) :
    Spec P m Q X :=
  ⟨fun s hs => by rw [hm s]; exact h s hs⟩

theorem ready_logs {α : Type} {w : World} {L : Label → Prop} {t p : Bool} {m : M α} (k : Nat)
    (h : Logs w L t p m) (hL : ∀ l, L l → l.pre) :
    Spec (Ready k) m (fun _ => Ready k) (Ready k) :=
  Spec.of_logs h fun l s hl hs => ready_apply w k l s (hL l hl) hs

theorem act_pre (l : Label) (h : actLog l) : l.pre := by
  obtain ⟨a, rfl⟩ := h
  exact pre_act a

theorem extractFromSpan_spec (w : World) (k : Nat) (hk : k ≤ maxPublishAttempts) :
    Spec (Ready k) (extractFromSpan w)
      (fun b s => if b = true then ∃ t, Extracted t s else Ready k s) (Ready k) := by
  unfold extractFromSpan
  refine Spec.handle (Y := Ready k) ?_ (fun _ => Spec.of_pure fun s hs => by simpa using hs)
    (fun s hs => hs)
  refine Spec.seq (R := fun _ => Ready k)
    (ready_logs k (Logs.isVisible (p := false) (L := actLog) ⟨_, rfl⟩) act_pre) fun shown => ?_
  refine Spec.cond (fun _ => ?_) (fun _ => Spec.of_pure fun s hs => by simpa using hs)
  refine Spec.seq (R := fun _ => Ready k)
    (ready_logs k (Logs.await (p := false) (L := actLog) ⟨_, rfl⟩) act_pre) fun tc => ?_
  split
  · rename_i d _
    refine Spec.cond (fun _ => ?_) (fun _ => Spec.of_pure fun s hs => by simpa using hs)
    refine Spec.of_run true _ (fun _ => rfl) fun s hs => ?_
    obtain ⟨⟨h1, h2, h3, h4⟩, h5⟩ := hs
    simp only [if_true]
    refine ⟨d, ⟨s.trace, [], rfl, h2, le_trans h3 hk, by simp [Quiet]⟩, rfl, h5, ?_⟩
    intro e he
    rcases List.mem_append.mp he with he | he
    · exact h4 e he
    · rw [List.mem_singleton.mp he]
      rfl
  · exact Spec.of_pure fun s hs => by simpa using hs

theorem extractFromDocument_spec (w : World) (k : Nat) (hk : k ≤ maxPublishAttempts) :
    Spec (Ready k) (extractFromDocument w)
      (fun b s => if b = true then ∃ t, Extracted t s else Ready k s) (Ready k) := by
  unfold extractFromDocument
  refine Spec.seq (R := fun _ s => Ready k s) (Spec.of_getSt.conseq (fun _ h => h)
    (fun _ _ h => h.2) (fun _ h => h)) fun s0 => ?_
  refine Spec.cond (fun _ => ?_) (fun _ => Spec.of_pure fun s hs => by simpa using hs)
  refine Spec.handle (Y := Ready k) ?_ (fun _ => Spec.of_pure fun s hs => by simpa using hs)
    (fun s hs => hs)
  refine Spec.seq (R := fun _ => Ready k)
    (ready_logs k (Logs.await (p := false) (L := actLog) ⟨_, rfl⟩) act_pre) fun te => ?_
  split
  · rename_i found hfound
    refine Spec.cond (fun _ => ?_) (fun _ => Spec.of_pure fun s hs => by simpa using hs)
    refine Spec.of_run true _ (fun _ => rfl) fun s hs => ?_
    obtain ⟨⟨h1, h2, h3, h4⟩, h5⟩ := hs
    simp only [if_true]
    refine ⟨found, ⟨s.trace, [], rfl, h2, le_trans h3 hk, by simp [Quiet]⟩, ?_, h5, h4⟩
    show some ("https://" ++ found) = _
    rw [allText_trimmed _ _ hfound]
  · exact Spec.of_pure fun s hs => by simpa using hs

theorem ready_mono (k j : Nat) (h : k ≤ j) (s : St) (hs : Ready k s) : Ready j s :=
  ⟨⟨hs.1.1, hs.1.2.1, le_trans hs.1.2.2.1 h, hs.1.2.2.2⟩, hs.2⟩

theorem publishAttempt_spec (w : World) (attempt k : Nat) (hk : k ≤ maxPublishAttempts) :
    Spec (Ready k) (publishAttempt w attempt)
      (fun b s => if b = true then ∃ t, Extracted t s else Ready k s) (Ready k) := by
  unfold publishAttempt
  refine Spec.seq (R := fun _ => Ready k) (ready_logs k (openSheet_logs w attempt) attempt_pre)
    fun _ => ?_
  refine Spec.seq (extractFromSpan_spec w k hk) fun fromSpan => ?_
  cases fromSpan with
  | true => exact Spec.of_pure fun s hs => hs
  | false =>
    simp only [Bool.false_eq_true, if_false]
    refine Spec.seq (extractFromDocument_spec w k hk) fun fromDocument => ?_
    cases fromDocument with
    | true => exact Spec.of_pure fun s hs => hs
    | false =>
      simp only [Bool.false_eq_true, if_false]
      refine Spec.seq Spec.of_getSt fun s0 => ?_
      refine Spec.of_pure fun s hs => ?_
      obtain ⟨rfl, hs⟩ := hs
      have : truthy s0.publishedUrl = false := by rw [hs.1.1]; rfl
      simpa [this] using hs

theorem publishLoop_spec (w : World) (n k : Nat) (h : k + n ≤ maxPublishAttempts) :
    Spec (Ready k) (publishLoop w n) (fun _ => After) After := by
  induction n generalizing k with
  | zero =>
    exact Spec.of_pure fun s hs => Or.inl (ready_mono k _ (by omega) s hs).1
  | succ n ih =>
    unfold publishLoop
    refine Spec.seq (R := fun _ => Ready (k + 1)) ?_ fun _ => ?_
    · refine Spec.of_run () _ (fun _ => rfl) fun s hs => ?_
      obtain ⟨⟨h1, h2, h3, h4⟩, h5⟩ := hs
      refine ⟨⟨h1, ?_, ?_, h4⟩, h5⟩
      · intro x hx
        rcases List.mem_append.mp hx with hx | hx
        · exact h2 x hx
        · rw [List.mem_singleton.mp hx]
          rfl
      · show (s.trace ++ [_]).countP _ ≤ _
        rw [List.countP_append]
        simp [Step.isAttemptMark]
        omega
    · refine Spec.seq (R := fun b s => if b = true then ∃ t, Extracted t s else Ready (k + 1) s)
        ?_ fun left => ?_
      · refine Spec.handle (publishAttempt_spec w _ (k + 1) (by omega))
          (fun _ => Spec.of_pure fun s hs => by simpa using hs) ?_
        intro s hs
        exact Or.inl (ready_mono _ _ (by omega) s hs).1
      · cases left with
        | true => exact Spec.of_pure fun s hs => Or.inr hs
        | false =>
          simp only [Bool.false_eq_true, if_false]
          exact ih (k + 1) (by omega)

theorem before_logs {α : Type} {w : World} {L : Label → Prop} {t p : Bool} {m : M α} (k : Nat)
    (h : Logs w L t p m) (hL : ∀ l, L l → l.pre) :
    Spec (Before k) m (fun _ => Before k) (Before k) :=
  Spec.of_logs h fun l s hl hs => before_apply w k l s (hL l hl) hs

theorem after_logs {α : Type} {w : World} {L : Label → Prop} {t p : Bool} {m : M α}
    (h : Logs w L t p m) (hL : ∀ l, L l → l.post) : Spec After m (fun _ => After) After :=
  Spec.of_logs h fun l s hl hs => after_apply w l s (hL l hl) hs

theorem capturePreview_spec (w : World) :
    Spec (Before 0) (capturePreview w) (fun _ => Ready 0) (Before 0) := by
  unfold capturePreview
  refine Spec.seq (R := fun _ => Before 0)
    (before_logs 0 (Logs.dateNow (t := false) (p := false) (L := actLog) ⟨_, rfl⟩) act_pre)
    fun t => ?_
  dsimp only
  refine Spec.seq (R := fun _ => Before 0) ?_ fun _ => ?_
  · refine before_logs 0 (w := w) (L := captureLog) (t := true) (p := false) ?_
      (fun l hl => (post_of_simple l (Or.inr (Or.inr (Or.inl hl)))).1)
    repeat (first
      | with_reducible (first
          | apply Logs.tryCatchM
          | apply Logs.ite
          | apply Logs.perform
          | apply Logs.await
          | apply Logs.pure
          | apply Logs.bind)
      | intro _
      | split
      | dsimp only
      | simp [captureLog, isShot_mk, isPath_mk])
  · refine Spec.of_run () _ (fun _ => rfl) fun s hs => ?_
    obtain ⟨h1, h2, h3, h4⟩ := hs
    refine ⟨⟨h1, h2, h3, ?_⟩, rfl⟩
    intro e he
    rcases List.mem_append.mp he with he | he
    · exact h4 e he
    · rw [List.mem_singleton.mp he]
      rfl

theorem publishPhase_spec (w : World) : Spec (Before 0) (publishPhase w) (fun _ => After) After := by
  have hb : ∀ s, Before 0 s → After s := fun s hs =>
    Or.inl ⟨hs.1, hs.2.1, le_trans hs.2.2.1 (Nat.zero_le _), hs.2.2.2⟩
  unfold publishPhase
  refine Spec.handle (Y := After) ?_ (fun _ => ?_) (fun s hs => hs)
  · refine Spec.seq (R := fun _ => Before 0)
      ((before_logs 0 (settle_logs w) (fun l hl =>
        (post_of_simple l (Or.inr (Or.inl hl))).1)).conseq (fun _ h => h) (fun _ _ h => h) hb)
      fun _ => ?_
    refine Spec.seq (R := fun _ => Ready 0)
      ((capturePreview_spec w).conseq (fun _ h => h) (fun _ _ h => h) hb) fun _ => ?_
    refine Spec.seq (R := fun _ => After) (publishLoop_spec w maxPublishAttempts 0 (by simp))
      fun _ => ?_
    refine after_logs (w := w) (L := publishTailLog) (t := false) (p := false) ?_
      (fun l hl => post_of_simple l (Or.inr (Or.inr (Or.inr (Or.inl hl)))))
    repeat (first
      | with_reducible (first
          | apply Logs.tryCatchM
          | apply Logs.ite
          | apply Logs.perform
          | apply Logs.dateNow
          | apply Logs.getSt
          | apply Logs.sendProgress
          | apply Logs.pure
          | apply Logs.bind)
      | intro _
      | dsimp only
      | simp [publishTailLog, isShot_mk])
  · exact after_logs (w := w) (L := publishTailLog) (t := false) (p := false)
      (Logs.sendProgress (by simp [publishTailLog]))
      (fun l hl => post_of_simple l (Or.inr (Or.inr (Or.inr (Or.inl hl)))))

/-! ## The end of a run -/

theorem split_left {xs ys pre post : List Step} {a : Step}
    (h : xs ++ ys = pre ++ a :: post) (ha : a ∉ ys) :
    ∃ c, xs = pre ++ a :: c ∧ post = c ++ ys := by
  rcases List.append_eq_append_iff.mp h with ⟨a', h1, h2⟩ | ⟨c', h1, h2⟩
  · exact absurd (by rw [h2]; simp) ha
  · cases c' with
    | nil =>
      simp only [List.nil_append] at h2
      exact absurd (by rw [← h2]; simp) ha
    | cons b c =>
      simp only [List.cons_append, List.cons.injEq] at h2
      obtain ⟨rfl, rfl⟩ := h2
      exact ⟨c, h1, rfl⟩

theorem loopBounded_append (xs ys : List Step) (h : LoopBounded xs) (hy : Quiet ys) :
    LoopBounded (xs ++ ys) := by
  constructor
  · rw [List.countP_append]
    have : ys.countP Step.isAttemptMark = 0 :=
      List.countP_eq_zero.mpr fun x hx => by simp [(hy x hx).1]
    have := h.1
    omega
  · intro pre t post hsplit x hx
    have hn : Step.extracted t ∉ ys := fun hm => by
      have := (hy _ hm).2.2
      simp [Step.isExtracted] at this
    obtain ⟨c, h1, rfl⟩ := split_left hsplit hn
    rcases List.mem_append.mp hx with hx | hx
    · exact h.2 pre t c h1 x hx
    · exact ⟨(hy x hx).1, (hy x hx).2.1⟩

theorem finished_apply (w : World) (l : Label) (s : St) (hl : l.post) (hs : Finished s) :
    Finished (s.apply w l) := by
  have hq : Quiet l.steps := fun x hx => ⟨(hl.1.1 x hx).1, hl.2 x hx, (hl.1.1 x hx).2⟩
  obtain ⟨es, e1, e2⟩ := apply_events w s l
  refine ⟨by rw [apply_trace]; exact loopBounded_append _ _ hs.1 hq, fun t ht => ?_⟩
  rw [apply_trace] at ht
  have ht2 : Step.extracted t ∈ s.trace := by
    rcases List.mem_append.mp ht with ht | ht
    · exact ht
    · have := (hq _ ht).2.2
      simp [Step.isExtracted] at this
  obtain ⟨screenshot, preview, editUrl, h1, h2⟩ := hs.2 t ht2
  refine ⟨screenshot, preview, editUrl, by rw [e1]; exact List.mem_append_left _ h1, ?_⟩
  intro e he hc
  rw [e1] at he
  rcases List.mem_append.mp he with he | he
  · exact h2 e he hc
  · have := hl.1.2.1 e (e2 e he)
    rw [hc] at this
    cases this

theorem finished_of_noExtraction (s : St) (h2 : NoExtraction s.trace)
    (h3 : s.trace.countP Step.isAttemptMark ≤ maxPublishAttempts) : Finished s := by
  have hno : ∀ t, Step.extracted t ∉ s.trace := fun t ht => by
    have := h2 _ ht
    simp [Step.isExtracted] at this
  refine ⟨⟨h3, fun pre t post hsplit => ?_⟩, fun t ht => absurd ht (hno t)⟩
  exact absurd (by rw [hsplit]; simp) (hno t)

theorem finished_of_before (k : Nat) (hk : k ≤ maxPublishAttempts) (s : St)
    (hs : Before k s) : Finished s :=
  finished_of_noExtraction s hs.2.1 (le_trans hs.2.2.1 hk)

theorem unique_split {pre post pre2 post2 : List Step} {t t2 : String}
    (h : pre ++ .extracted t :: post = pre2 ++ .extracted t2 :: post2)
    (hpre : NoExtraction pre) (hpost : Quiet post) : t2 = t ∧ post2 = post := by
  have hn : Step.extracted t2 ∉ post := fun hm => by
    have := (hpost _ hm).2.2
    simp [Step.isExtracted] at this
  have h' : pre ++ ([Step.extracted t] ++ post) = pre2 ++ .extracted t2 :: post2 := by
    simpa using h
  rcases List.append_eq_append_iff.mp h' with ⟨a', h1, h2⟩ | ⟨c', h1, h2⟩
  · cases a' with
    | nil =>
      simp only [List.nil_append, List.singleton_append, List.cons.injEq,
        Step.extracted.injEq] at h2
      exact ⟨h2.1.symm, h2.2.symm⟩
    | cons b c =>
      simp only [List.cons_append, List.singleton_append, List.cons.injEq,
        List.nil_append] at h2
      exact absurd (by rw [h2.2]; simp) hn
  · cases c' with
    | nil =>
      simp only [List.nil_append, List.singleton_append, List.cons.injEq,
        Step.extracted.injEq] at h2
      exact ⟨h2.1, h2.2⟩
    | cons b c =>
      simp only [List.cons_append, List.cons.injEq] at h2
      have hm : Step.extracted t2 ∈ pre := by rw [h1, h2.1]; simp
      have := hpre _ hm
      simp [Step.isExtracted] at this

theorem finished_of_after (s : St) (hs : After s) (screenshot editUrl : String) :
    Finished { s with events := s.events ++ [.complete true screenshot s.previewScreenshot
      editUrl s.publishedUrl (completeMessage s.publishedUrl s.previewReady)] } := by
  rcases hs with hs | ⟨t, ⟨pre, post, h1, h2, h3, h4⟩, h5, h6, h7⟩
  · exact finished_of_noExtraction _ hs.2.1 hs.2.2.1
  · obtain ⟨preview, hpv⟩ := Option.isSome_iff_exists.mp h6
    have hpostc : post.countP Step.isAttemptMark = 0 :=
      List.countP_eq_zero.mpr fun x hx => by simp [(h4 x hx).1]
    refine ⟨⟨?_, fun pre2 t2 post2 hsplit x hx => ?_⟩, fun t2 ht2 => ?_⟩
    · show s.trace.countP _ ≤ _
      rw [h1, List.countP_append, List.countP_cons, hpostc]
      simp [Step.isAttemptMark]
      exact h3
    · have hsplit2 : pre ++ .extracted t :: post = pre2 ++ .extracted t2 :: post2 := by
        rw [← h1]
        exact hsplit
      obtain ⟨-, rfl⟩ := unique_split hsplit2 h2 h4
      exact ⟨(h4 x hx).1, (h4 x hx).2.1⟩
    · have ht3 : Step.extracted t2 ∈ pre ++ .extracted t :: post := by
        rw [← h1]
        exact ht2
      have htt : t2 = t := by
        rcases List.mem_append.mp ht3 with hm | hm
        · have := h2 _ hm
          simp [Step.isExtracted] at this
        · rcases List.mem_cons.mp hm with hm | hm
          · exact Step.extracted.inj hm
          · have := (h4 _ hm).2.2
            simp [Step.isExtracted] at this
      subst htt
      have hmsg : completeMessage s.publishedUrl s.previewReady =
          "Landing page generated and published successfully!" := by
        rw [h5]
        simp [completeMessage, https_truthy]
      refine ⟨screenshot, preview, editUrl, ?_, ?_⟩
      · show _ ∈ s.events ++ _
        rw [hmsg, h5, hpv]
        simp
      · intro e he hc
        have he2 : e ∈ s.events ++ [Event.complete true screenshot s.previewScreenshot editUrl
            s.publishedUrl (completeMessage s.publishedUrl s.previewReady)] := he
        rcases List.mem_append.mp he2 with hm | hm
        · rw [h7 e hm] at hc
          cases hc
        · rw [List.mem_singleton.mp hm, hmsg, h5, hpv]

theorem finished_logs {α : Type} {w : World} {L : Label → Prop} {t p : Bool} {m : M α}
    (h : Logs w L t p m) (hL : ∀ l, L l → l.post) :
    Spec Finished m (fun _ => Finished) Finished :=
  Spec.of_logs h fun l s hl hs => finished_apply w l s (hL l hl) hs

theorem finish_spec (w : World) (file : String) :
    Spec After (finish w file) (fun _ => Finished) Finished := by
  unfold finish
  have hurl : Logs w finalShotLog false false (pageUrl w) :=
    Logs.pageUrl (by simp [finalShotLog])
  refine Spec.seq (R := fun _ => After)
    (((after_logs hurl (fun l hl => post_of_simple l (Or.inl hl))).total hurl).conseq
      (fun _ h => h) (fun _ _ h => h) (fun _ h => h.elim)) fun editUrl => ?_
  refine Spec.seq Spec.of_getSt fun s0 => ?_
  refine Spec.seq (R := fun _ => Finished) ?_ fun _ => ?_
  · refine Spec.of_run () _ (fun _ => rfl) fun s hs => ?_
    obtain ⟨rfl, hs⟩ := hs
    exact finished_of_after _ hs _ _
  · exact finished_logs (linger_logs w)
      (fun l hl => post_of_simple l (Or.inr (Or.inr (Or.inr (Or.inr (Or.inl hl))))))

theorem tryBlock_spec (w : World) (fuel : Nat) (url prompt : String) :
    Spec (Before 0) (tryBlock w fuel url prompt) (fun _ => Finished) Finished := by
  have hb : ∀ s, Before 0 s → Finished s := finished_of_before 0 (Nat.zero_le _)
  unfold tryBlock
  refine Spec.seq (R := fun _ => Before 0)
    ((before_logs 0 (generate_logs w fuel url prompt)
      (fun l hl => (generate_post w url prompt l hl).1)).conseq (fun _ h => h)
      (fun _ _ h => h) hb) fun _ => ?_
  refine Spec.seq (R := fun _ => Before 0)
    ((before_logs 0 (finalScreenshot_logs w)
      (fun l hl => (post_of_simple l (Or.inl hl)).1)).conseq (fun _ h => h)
      (fun _ _ h => h) hb) fun file => ?_
  refine Spec.seq (R := fun _ => Before 0) (Spec.of_getSt.conseq (fun _ h => h)
    (fun _ _ h => h.2) (fun _ h => h)) fun s0 => ?_
  dsimp only
  refine Spec.cond (fun _ => ?_) (fun _ => ?_)
  · refine Spec.seq (R := fun _ => After)
      (((publishPhase_spec w).total (publishPhase_logs w)).conseq (fun _ h => h)
        (fun _ _ h => h) (fun _ h => h.elim)) fun _ => ?_
    exact finish_spec w file
  · refine Spec.seq (R := fun _ => After) (Spec.of_pure fun s hs => Or.inl
      ⟨hs.1, hs.2.1, le_trans hs.2.2.1 (Nat.zero_le _), hs.2.2.2⟩) fun _ => ?_
    exact finish_spec w file

theorem stream_spec (w : World) (fuel : Nat) (url prompt : String) :
    Spec (Before 0) (stream w fuel url prompt) (fun _ => Finished) Finished := by
  unfold stream
  refine Spec.seq (R := fun _ => Before 0)
    ((before_logs 0 (w := w)
      (L := fun l => l = .emit (.status "Starting clone process..." 1 none))
      (t := false) (p := false) (Logs.sendProgress rfl)
      (fun l hl => by rw [hl]; exact pre_emit _ rfl)).conseq (fun _ h => h) (fun _ _ h => h)
      (finished_of_before 0 (Nat.zero_le _))) fun _ => ?_
  unfold tryStatement
  exact Spec.handle (tryBlock_spec w fuel url prompt)
    (fun e => finished_logs (catchBlock_logs w e)
      (fun l hl => post_of_simple l (Or.inr (Or.inr (Or.inr (Or.inr (Or.inr hl)))))))
    (fun _ h => h)

/-- Every run ends in a state that is `Finished`. -/
theorem cloneStream_finished (w : World) (fuel : Nat) (req : Request) :
    Finished (cloneStream w fuel req).st := by
  have h0 : Before 0 (St.init w) := ⟨rfl, by simp [NoExtraction, St.init], by simp [St.init],
    by simp [NoComplete, St.init]⟩
  rcases cloneStream_cases w fuel req with ⟨msg, e⟩ | ⟨u, hu, hp⟩
  · rw [e]
    exact finished_of_before 0 (Nat.zero_le _) _ h0
  · rw [(cloneStream_st w fuel req u hu hp).1]
    have h := (stream_spec w fuel u (req.prompt.getD "")).run _ h0
    rcases hr : stream w fuel u (req.prompt.getD "") (St.init w) with ⟨o, s1⟩
    rw [hr] at h
    cases o <;> exact h
/-! ## Invariants of a whole run -/

theorem core_notComplete (w : World) (url prompt : String) (l : Label)
    (hl : coreLog w url prompt l) : ∀ e, l.emits e → e.isComplete = false := by
  intro e he
  cases l <;> simp only [Label.emits] at he
  · subst he
    cases e <;> try rfl
    simp [coreLog, generateLog, submitLog, loginLog, monitorLog, publishLog, loopLog,
      composeLog, generateOwnLog, loginOwnLog, pollLog, finalShotLog, settleLog, captureLog,
      attemptLog, extractLog, publishTailLog, lingerLog, catchLog] at hl
  · subst he
    rfl

theorem finish_inv (w : World) (file : String) (P : St → Prop)
    (hP : ∀ l s, finalShotLog l ∨ lingerLog l → P s → P (s.apply w l))
    (hC : ∀ s editUrl, P s → P (s.completed file editUrl)) :
    Spec P (finish w file) (fun _ => P) P := by
  unfold finish
  have hurl : Logs w finalShotLog false false (pageUrl w) :=
    Logs.pageUrl (by simp [finalShotLog])
  refine Spec.seq (R := fun _ => P) (Spec.of_logs hurl fun l s hl => hP l s (Or.inl hl))
    fun editUrl => ?_
  refine Spec.seq Spec.of_getSt fun s0 => ?_
  refine Spec.seq (R := fun _ => P) ?_ fun _ => ?_
  · refine Spec.of_run () _ (fun _ => rfl) fun s hs => ?_
    obtain ⟨rfl, hs⟩ := hs
    exact hC _ editUrl hs
  · exact Spec.of_logs (linger_logs w) fun l s hl => hP l s (Or.inr hl)

/-- A property of the state that every effect other than the `complete` event keeps,
and that the `complete` event keeps when it is sent with the values of the locals,
holds all along a run. -/
theorem stream_inv (w : World) (fuel : Nat) (url prompt : String) (P : St → Prop)
    (hP : ∀ l s, coreLog w url prompt l → P s → P (s.apply w l))
    (hC : ∀ s file editUrl, P s → P (s.completed file editUrl)) :
    Spec P (stream w fuel url prompt) (fun _ => P) P := by
  unfold stream
  refine Spec.seq (R := fun _ => P)
    (Spec.of_logs (w := w) (L := fun l => l = .emit (.status "Starting clone process..." 1 none))
      (t := false) (p := false) (Logs.sendProgress rfl) fun l s hl => hP l s (Or.inl hl))
    fun _ => ?_
  unfold tryStatement
  refine Spec.handle (Y := P) ?_
    (fun e => Spec.of_logs (catchBlock_logs w e) fun l s hl =>
      hP l s (Or.inr (Or.inr (Or.inr (Or.inr (Or.inr hl))))))
    (fun _ h => h)
  unfold tryBlock
  refine Spec.seq (R := fun _ => P)
    (Spec.of_logs (generate_logs w fuel url prompt) fun l s hl => hP l s (Or.inr (Or.inl hl)))
    fun _ => ?_
  refine Spec.seq (R := fun _ => P)
    (Spec.of_logs (finalScreenshot_logs w) fun l s hl => hP l s (Or.inr (Or.inr (Or.inl hl))))
    fun file => ?_
  have hfin : Spec P (finish w file) (fun _ => P) P :=
    finish_inv w file P
      (fun l s hl => hP l s (hl.elim (fun h => Or.inr (Or.inr (Or.inl h)))
        (fun h => Or.inr (Or.inr (Or.inr (Or.inr (Or.inl h)))))))
      (fun s editUrl => hC s file editUrl)
  refine Spec.seq (R := fun _ => P) (Spec.of_getSt.conseq (fun _ h => h)
    (fun _ _ h => h.2) (fun _ h => h)) fun s0 => ?_
  dsimp only
  refine Spec.cond (fun _ => ?_) (fun _ => ?_)
  · exact Spec.seq (R := fun _ => P)
      (Spec.of_logs (publishPhase_logs w) fun l s hl =>
        hP l s (Or.inr (Or.inr (Or.inr (Or.inl hl))))) fun _ => hfin
  · exact Spec.seq (R := fun _ => P) (Spec.of_pure fun s hs => hs) fun _ => hfin

/-- The invariant principle of `stream_inv`, on the state a run leaves. -/
theorem cloneStream_inv (w : World) (fuel : Nat) (req : Request) (P : St → Prop)
    (hP : ∀ l s, coreLog w (req.url.getD "") (req.prompt.getD "") l → P s → P (s.apply w l))
    (hC : ∀ s file editUrl, P s → P (s.completed file editUrl))
    (h0 : P (St.init w)) : P (cloneStream w fuel req).st := by
  rcases cloneStream_cases w fuel req with ⟨msg, e⟩ | ⟨u, hu, hp⟩
  · rw [e]
    exact h0
  · rw [(cloneStream_st w fuel req u hu hp).1]
    rw [hu] at hP
    have h := (stream_inv w fuel u (req.prompt.getD "") P hP hC).run _ h0
    rcases hr : stream w fuel u (req.prompt.getD "") (St.init w) with ⟨o, s1⟩
    rw [hr] at h
    cases o <;> exact h
theorem core_report (w : World) (url prompt : String) (p : ProgressText)
    (hl : coreLog w url prompt (.report p)) : ∃ t, progressText (w.texts t) = some p := by
  simpa [coreLog, generateLog, submitLog, loginLog, monitorLog, publishLog, loopLog,
    composeLog, generateOwnLog, loginOwnLog, pollLog, finalShotLog, settleLog, captureLog,
    attemptLog, extractLog, publishTailLog, lingerLog, catchLog] using hl

theorem core_address (w : World) (url prompt : String) (v : String)
    (hl : coreLog w url prompt (.publishedUrl v)) : IsAddress w v := by
  simpa [coreLog, generateLog, submitLog, loginLog, monitorLog, publishLog, loopLog,
    composeLog, generateOwnLog, loginOwnLog, pollLog, finalShotLog, settleLog, captureLog,
    attemptLog, extractLog, publishTailLog, lingerLog, catchLog] using hl

theorem cloneStream_readProgress (w : World) (fuel : Nat) (req : Request) :
    ∀ e ∈ (cloneStream w fuel req).st.events, e.readProgress w := by
  refine cloneStream_inv w fuel req (fun s => ∀ e ∈ s.events, e.readProgress w) ?_ ?_
    (by simp [St.init])
  · intro l s hl hs e he
    obtain ⟨es, e1, e2⟩ := apply_events w s l
    rw [e1] at he
    rcases List.mem_append.mp he with he | he
    · exact hs e he
    · have hemit := e2 e he
      cases l with
      | emit e0 =>
        have he0 : e = e0 := hemit
        subst he0
        cases e with
        | progress m n k =>
          exact absurd hl (by
            simp [coreLog, generateLog, submitLog, loginLog, monitorLog, publishLog, loopLog,
              composeLog, generateOwnLog, loginOwnLog, pollLog, finalShotLog, settleLog,
              captureLog, attemptLog, extractLog, publishTailLog, lingerLog, catchLog])
        | _ => trivial
      | report p =>
        have he0 : e = .progress (progressMessage p) (p.percent.getD (.finite 0)) 16 := hemit
        subst he0
        obtain ⟨t, ht⟩ := core_report w _ _ _ hl
        exact ⟨t, _, ht, rfl, rfl, rfl⟩
      | _ => exact hemit.elim
  · intro s file editUrl hs e he
    have he2 : e ∈ s.events ++ [Event.complete true ("/screenshots/" ++ file)
        s.previewScreenshot editUrl s.publishedUrl
        (completeMessage s.publishedUrl s.previewReady)] := he
    rcases List.mem_append.mp he2 with he3 | he3
    · exact hs e he3
    · rw [List.mem_singleton.mp he3]
      trivial

theorem cloneStream_addressed (w : World) (fuel : Nat) (req : Request) :
    Addressed w (cloneStream w fuel req).st := by
  refine cloneStream_inv w fuel req (Addressed w) ?_ ?_
    ⟨by simp [St.init], by simp [St.init]⟩
  · intro l s hl hs
    obtain ⟨es, e1, e2⟩ := apply_events w s l
    refine ⟨fun u hu => ?_, fun e he => ?_⟩
    · by_cases hv : ∃ v, l = .publishedUrl v
      · obtain ⟨v, rfl⟩ := hv
        have : v = u := by simpa [St.apply] using hu
        subst this
        exact core_address w _ _ _ hl
      · rw [apply_publishedUrl w s l (fun v hv2 => hv ⟨v, hv2⟩)] at hu
        exact hs.1 u hu
    · rw [e1] at he
      rcases List.mem_append.mp he with he | he
      · exact hs.2 e he
      · have := core_notComplete w _ _ l hl e (e2 e he)
        cases e <;> trivial
  · intro s file editUrl hs
    refine ⟨hs.1, fun e he => ?_⟩
    have he2 : e ∈ s.events ++ [Event.complete true ("/screenshots/" ++ file)
        s.previewScreenshot editUrl s.publishedUrl
        (completeMessage s.publishedUrl s.previewReady)] := he
    rcases List.mem_append.mp he2 with he3 | he3
    · exact hs.2 e he3
    · rw [List.mem_singleton.mp he3]
      cases hpu : s.publishedUrl with
      | none => trivial
      | some u => exact hs.1 u hpu
/-! ## The three stretches -/

theorem bind_assoc_run {α β γ : Type} (m : M α) (f : α → M β) (g : β → M γ) :
    ((m >>= f) >>= g) = (m >>= fun a => f a >>= g) := by
  funext s
  simp only [bind_run]
  rcases m s with ⟨o, s1⟩
  cases o <;> rfl

theorem generate_eq (w : World) (fuel : Nat) (url prompt : String) :
    generate w fuel url prompt = (arrive w url prompt >>= fun _ => watch w fuel prompt) := by
  simp only [generate, arrive, watch, bind_assoc_run]

theorem tryBlock_eq (w : World) (fuel : Nat) (url prompt : String) :
    tryBlock w fuel url prompt =
      (arrive w url prompt >>= fun _ => watch w fuel prompt >>= fun _ => conclude w) := by
  have : tryBlock w fuel url prompt = (generate w fuel url prompt >>= fun _ => conclude w) := rfl
  rw [this, generate_eq, bind_assoc_run]

theorem watch_logs (w : World) (fuel : Nat) (prompt : String) :
    Logs w (watchLog w prompt) true true (watch w fuel prompt) := by
  unfold watch
  repeat (first
    | exact (monitor_logs w _ fuel).mono (fun l hl => by simp [watchLog, hl]) id id
    | with_reducible (first
        | apply Logs.perform
        | apply Logs.pageUrl
        | apply Logs.dateNow
        | apply Logs.sendProgress
        | apply Logs.bind)
    | intro _
    | simp [watchLog])

theorem conclude_logs (w : World) : Logs w (concludeLog w) true false (conclude w) := by
  unfold conclude
  refine Logs.bind_ret
    ((finalScreenshot_logs w).mono (fun l hl => Or.inl hl) id id)
    (finalScreenshot_returns w) fun file hfile => ?_
  refine Logs.bind Logs.getSt fun s => ?_
  have hfin : Logs w (concludeLog w) true false (finish w file) :=
    (finish_logs w file).mono (fun l hl => Or.inr (Or.inr ⟨file, hfile, hl⟩)) id id
  dsimp only
  split
  · exact Logs.bind
      ((publishPhase_logs w).mono (fun l hl => Or.inr (Or.inl hl))
        (fun h => Bool.noConfusion h) id) fun _ => hfin
  · exact Logs.bind (Logs.pure _) fun _ => hfin

theorem rest_logs (w : World) (fuel : Nat) (prompt : String) :
    Logs w (restLog w prompt) false true
      (tryCatchM (watch w fuel prompt >>= fun _ => conclude w) (catchBlock w)) := by
  refine Logs.tryCatchM ?_ fun e => (catchBlock_logs w e).mono
    (fun l hl => Or.inr (Or.inr hl)) id (fun h => Bool.noConfusion h)
  exact Logs.bind ((watch_logs w fuel prompt).mono (fun l hl => Or.inl hl) id id)
    fun _ => (conclude_logs w).mono (fun l hl => Or.inr (Or.inl hl)) id
      (fun h => Bool.noConfusion h)
theorem Logs.trace_grows {α : Type} {w : World} {L : Label → Prop} {t p : Bool} {m : M α}
    (h : Logs w L t p m) (s : St) :
    ∃ xs, (m s).2.trace = s.trace ++ xs ∧ ∀ x ∈ xs, ∃ l, L l ∧ x ∈ l.steps := by
  refine h.inv (fun s1 => ∃ xs, s1.trace = s.trace ++ xs ∧ ∀ x ∈ xs, ∃ l, L l ∧ x ∈ l.steps)
    ?_ s ⟨[], by simp, by simp⟩
  rintro l s1 hl ⟨xs, hxs, hall⟩
  refine ⟨xs ++ l.steps, by rw [apply_trace, hxs, List.append_assoc], fun x hx => ?_⟩
  rcases List.mem_append.mp hx with hx | hx
  · exact hall x hx
  · exact ⟨l, hl, hx⟩

theorem stream_arrived (w : World) (fuel : Nat) (url prompt : String) (s0 s2 : St)
    (h : arrive w url prompt
      (s0.apply w (.emit (.status "Starting clone process..." 1 none))) = (.ret (), s2)) :
    stream w fuel url prompt s0 =
      tryCatchM (watch w fuel prompt >>= fun _ => conclude w) (catchBlock w) s2 := by
  have h1 : stream w fuel url prompt s0 = tryCatchM (tryBlock w fuel url prompt) (catchBlock w)
      (s0.apply w (.emit (.status "Starting clone process..." 1 none))) := rfl
  rw [h1, tryBlock_eq, tryCatchM_run, bind_run, h, tryCatchM_run]

theorem rest_noMilestone (w : World) (prompt : String) (l : Label) (hl : restLog w prompt l) :
    ∀ x ∈ l.steps, x.isMilestone = false := by
  intro x hx
  simp only [restLog, watchLog, concludeLog, monitorLog, publishLog, loopLog] at hl
  cases l with
  | act a =>
    simp only [Label.steps, List.mem_singleton] at hx
    subst hx
    cases a <;> simp_all [Step.isMilestone, Step.isCompose, pollLog, finalShotLog, settleLog,
      captureLog, attemptLog, extractLog, publishTailLog, finishLog, lingerLog, catchLog]
    all_goals (rcases hl with hl | hl <;> subst hl <;> rfl)
  | mark y =>
    simp only [Label.steps, List.mem_singleton] at hx
    subst hx
    cases x <;> simp_all [Step.isMilestone, Step.isCompose, pollLog, finalShotLog, settleLog,
      captureLog, attemptLog, extractLog, publishTailLog, finishLog, lingerLog, catchLog]
  | _ => simp [Label.steps] at hx

theorem arrive_ok (w : World) (url prompt : String) (hok : ∀ t a, w.fails t a = none)
    (s : St) :
    ∃ s1, arrive w url prompt s = (.ret (), s1) ∧
      s1.trace.filter Step.isMilestone = s.trace.filter Step.isMilestone ++
        milestones w url prompt (w.visible (s.tick + loginCheckTick prompt) .loginButton) := by
  cases hprompt : hasPrompt prompt <;>
    cases hvis : w.visible (s.tick + loginCheckTick prompt) .loginButton <;>
    simp [loginCheckTick, hprompt] at hvis <;>
    simp [arrive, submitFirst, loginBranch, composePrompt, isVisible, await, perform, setSt,
      sendProgress, bind_run, tryCatchM_run, pure_run, St.after, hok, hprompt, hvis,
      loginCheckTick, milestones, composeCalls, Step.isMilestone, Step.isCompose,
      Nat.add_assoc, List.filter_append]
/-! ## Programs that do not throw -/

theorem Calm.calm_pure {α : Type} {w : World} {F : Action → Bool} (a : α) :
    Calm w F (pure a : M α) :=
  ⟨fun _ _ => rfl⟩

theorem Calm.calm_bind {α β : Type} {w : World} {F : Action → Bool} {m : M α} {f : α → M β}
    (hm : Calm w F m) (hf : ∀ a, Calm w F (f a)) : Calm w F (m >>= f) := by
  constructor
  intro hw s
  have h1 := hm.run hw s
  rw [bind_run]
  rcases hms : m s with ⟨o, s1⟩
  rw [hms] at h1
  cases o with
  | ret a => exact (hf a).run hw s1
  | thrown e => exact h1
  | pending => rfl

theorem Calm.calm_tryCatchM {α : Type} {w : World} {F : Action → Bool} {m : M α}
    {h : JsError → M α} (hh : ∀ e, Calm w F (h e)) : Calm w F (tryCatchM m h) := by
  constructor
  intro hw s
  rw [tryCatchM_run]
  rcases m s with ⟨o, s1⟩
  cases o with
  | ret a => rfl
  | thrown e => exact (hh e).run hw s1
  | pending => rfl

theorem Calm.calm_ite {α : Type} {w : World} {F : Action → Bool} {c : Prop} [Decidable c]
    {a b : M α} (ha : c → Calm w F a) (hb : ¬c → Calm w F b) :
    Calm w F (if c then a else b) := by
  split
  · exact ha ‹_›
  · exact hb ‹_›

theorem Calm.calm_of_logs {α : Type} {w : World} {F : Action → Bool} {L : Label → Prop} {p : Bool}
    {m : M α} (h : Logs w L false p m) : Calm w F m := by
  constructor
  intro _ s
  cases ht : (m s).1.isThrown with
  | false => rfl
  | true => exact Bool.noConfusion ((h.run s).2.1 ht)

theorem fails_none {w : World} {F : Action → Bool}
    (hw : ∀ t a, w.fails t a ≠ none → F a = true) {a : Action} (ha : F a = false) (t : Nat) :
    w.fails t a = none := by
  by_contra h
  rw [hw t a h] at ha
  cases ha

theorem Calm.calm_perform {w : World} {F : Action → Bool} {a : Action} (ha : F a = false) :
    Calm w F (perform w a) :=
  ⟨fun hw s => by simp [CloneFlow.perform, fails_none hw ha, Out.isThrown]⟩

theorem Calm.calm_await {w : World} {F : Action → Bool} {a : Action} (ha : F a = false) :
    Calm w F (await w a) :=
  ⟨fun hw s => by simp [CloneFlow.await, fails_none hw ha, Out.isThrown]⟩

theorem Calm.calm_safe {α : Type} {w : World} {F : Action → Bool} {m : M α}
    (h : ∀ s, ∃ a s1, m s = (.ret a, s1)) : Calm w F m :=
  ⟨fun _ s => by obtain ⟨a, s1, e⟩ := h s; rw [e]; rfl⟩

theorem Calm.calm_sendProgress {w : World} {F : Action → Bool} (e : Event) :
    Calm w F (sendProgress e) :=
  Calm.calm_safe fun _ => ⟨_, _, rfl⟩

theorem Calm.calm_setSt {w : World} {F : Action → Bool} (f : St → St) : Calm w F (setSt f) :=
  Calm.calm_safe fun _ => ⟨_, _, rfl⟩

theorem Calm.calm_getSt {w : World} {F : Action → Bool} : Calm w F getSt :=
  Calm.calm_safe fun _ => ⟨_, _, rfl⟩

theorem Calm.calm_mark {w : World} {F : Action → Bool} (x : Step) : Calm w F (mark x) :=
  Calm.calm_safe fun _ => ⟨_, _, rfl⟩

theorem Calm.calm_dateNow {w : World} {F : Action → Bool} : Calm w F (dateNow w) :=
  Calm.calm_safe fun _ => ⟨_, _, rfl⟩

theorem Calm.calm_pageUrl {w : World} {F : Action → Bool} : Calm w F (pageUrl w) :=
  Calm.calm_safe fun _ => ⟨_, _, rfl⟩

theorem Calm.calm_outOfFuel {α : Type} {w : World} {F : Action → Bool} :
    Calm w F (outOfFuel : M α) :=
  ⟨fun _ _ => rfl⟩

set_option maxRecDepth 4000 in
theorem arrive_calm (w : World) (url prompt : String) :
    Calm w Action.isComposeOnly (arrive w url prompt) := by
  unfold arrive submitFirst loginBranch
  repeat (first
    | with_reducible (first
        | apply Calm.calm_tryCatchM
        | apply Calm.calm_ite
        | apply Calm.calm_perform
        | apply Calm.calm_sendProgress
        | apply Calm.calm_setSt
        | apply Calm.calm_pure
        | apply Calm.calm_bind)
    | intro _
    | dsimp only
    | rfl)

theorem monitor_calm (w : World) (startTime fuel : Nat) :
    Calm w Action.isComposeOnly (monitor w startTime fuel) := by
  induction fuel with
  | zero => exact Calm.calm_outOfFuel
  | succ n ih =>
    unfold monitor
    repeat (first
      | exact ih
      | with_reducible (first
          | apply Calm.calm_tryCatchM
          | apply Calm.calm_ite
          | apply Calm.calm_perform
          | apply Calm.calm_dateNow
          | apply Calm.calm_mark
          | apply Calm.calm_pure
          | apply Calm.calm_bind)
      | intro _
      | dsimp only
      | rfl)

theorem watch_calm (w : World) (fuel : Nat) (prompt : String) :
    Calm w Action.isComposeOnly (watch w fuel prompt) := by
  unfold watch
  repeat (first
    | exact monitor_calm w _ fuel
    | with_reducible (first
        | apply Calm.calm_perform
        | apply Calm.calm_sendProgress
        | apply Calm.calm_dateNow
        | apply Calm.calm_pageUrl
        | apply Calm.calm_bind)
    | intro _
    | rfl)

set_option maxRecDepth 4000 in
theorem conclude_calm (w : World) : Calm w Action.isComposeOnly (conclude w) := by
  unfold conclude finalScreenshot finish linger
  repeat (first
    | exact Calm.calm_of_logs (publishPhase_logs w)
    | with_reducible (first
        | apply Calm.calm_ite
        | apply Calm.calm_perform
        | apply Calm.calm_sendProgress
        | apply Calm.calm_setSt
        | apply Calm.calm_getSt
        | apply Calm.calm_dateNow
        | apply Calm.calm_pageUrl
        | apply Calm.calm_pure
        | apply Calm.calm_bind)
    | intro _
    | split
    | dsimp only
    | rfl)

theorem tryBlock_calm (w : World) (fuel : Nat) (url prompt : String) :
    Calm w Action.isComposeOnly (tryBlock w fuel url prompt) := by
  rw [tryBlock_eq]
  exact Calm.calm_bind (arrive_calm w url prompt) fun _ =>
    Calm.calm_bind (watch_calm w fuel prompt) fun _ => conclude_calm w
theorem arrive_logs (w : World) (url prompt : String) :
    Logs w (arriveLog w url prompt) true false (arrive w url prompt) := by
  unfold arrive
  repeat (first
    | exact (submitFirst_logs w url prompt).mono (fun l hl => by simp [arriveLog, hl]) id id
    | exact (loginBranch_logs w url prompt).mono (fun l hl => by simp [arriveLog, hl]) id id
    | with_reducible (first
        | apply Logs.perform
        | apply Logs.bind)
    | exact Logs.setSt .browser (by simp [arriveLog, generateOwnLog]) (fun _ => rfl)
    | intro _
    | simp [arriveLog, generateOwnLog])

/-- In a world where only compose calls reject, `arrive` returns. -/
theorem arrive_returns (w : World) (url prompt : String)
    (hw : ∀ t a, w.fails t a ≠ none → a.isComposeOnly = true) (s : St) :
    ∃ s1, arrive w url prompt s = (.ret (), s1) := by
  have h1 := (arrive_calm w url prompt).run hw s
  have h2 := (arrive_logs w url prompt).run s
  rcases h : arrive w url prompt s with ⟨o, s1⟩
  rw [h] at h1 h2
  cases o with
  | ret a => exact ⟨s1, rfl⟩
  | thrown e => cases h1
  | pending => exact Bool.noConfusion (h2.2.2 rfl)

theorem tryCatchM_calm {α : Type} (m : M α) (h : JsError → M α) (s : St)
    (hm : (m s).1.isThrown = false) : tryCatchM m h s = m s := by
  rw [tryCatchM_run]
  rcases hms : m s with ⟨o, s1⟩
  rw [hms] at hm
  cases o with
  | ret a => rfl
  | thrown e => cases hm
  | pending => rfl

/-! ## The click on submit after the compose calls -/

theorem submitFollows_append (xs ys : List Step) (h : SubmitFollows xs)
    (hy : ∀ y ∈ ys, y.isCompose = false) : SubmitFollows (xs ++ ys) := by
  intro pre x post hsplit hx
  rcases List.append_eq_append_iff.mp hsplit with ⟨a, ha, hb⟩ | ⟨c, hc, hd⟩
  · -- `pre = xs ++ a`, so `x` is one of `ys`
    have : x ∈ ys := by rw [hb]; simp
    rw [hy x this] at hx
    cases hx
  · cases c with
    | nil =>
      simp only [List.nil_append] at hd
      have : x ∈ ys := by rw [← hd]; simp
      rw [hy x this] at hx
      cases hx
    | cons c cs =>
      simp only [List.cons_append, List.cons.injEq] at hd
      obtain ⟨rfl, rfl⟩ := hd
      exact List.mem_append_left _ (h pre x cs hc hx)

theorem submitFollows_submit (xs : List Step) :
    SubmitFollows (xs ++ [.act (.click .submitButton)]) := by
  intro pre x post hsplit hx
  rcases List.append_eq_append_iff.mp hsplit with ⟨a, ha, hb⟩ | ⟨c, hc, hd⟩
  · cases a with
    | nil =>
      simp only [List.nil_append, List.cons.injEq] at hb
      rw [← hb.1] at hx
      cases hx
    | cons a as =>
      simp only [List.cons_append, List.cons.injEq] at hb
      have := congrArg List.length hb.2
      simp at this
      omega
  · cases c with
    | nil =>
      simp only [List.nil_append, List.cons.injEq] at hd
      rw [hd.1] at hx
      cases hx
    | cons c cs =>
      simp only [List.cons_append, List.cons.injEq] at hd
      rw [hd.2]
      simp
theorem Spec.perform_to {w : World} {a : Action} {P Q : St → Prop}
    (h : ∀ s, P s → Q (s.after w a)) :
    Spec P (perform w a) (fun _ => Q) (fun _ => True) := by
  constructor
  intro s hs
  unfold CloneFlow.perform
  split
  · trivial
  · exact h s hs

theorem Spec.anything {α : Type} {P : St → Prop} {m : M α} :
    Spec P m (fun _ _ => True) (fun _ => True) := by
  constructor
  intro s _
  rcases m s with ⟨o, s1⟩
  cases o <;> trivial

theorem settled_after (w : World) (a : Action) (s : St)
    (ha : Step.isCompose (.act a) = false) (hs : Settled s) : Settled (s.after w a) :=
  ⟨List.mem_append_left _ hs.1,
    submitFollows_append _ _ hs.2 (by simpa using ha)⟩

theorem follows_after (w : World) (a : Action) (s : St)
    (ha : Step.isCompose (.act a) = false) (hs : SubmitFollows s.trace) :
    SubmitFollows (s.after w a).trace :=
  submitFollows_append _ _ hs (by simpa using ha)

theorem settled_submit (w : World) (s : St) : Settled (s.after w (.click .submitButton)) :=
  ⟨by simp [St.after], submitFollows_submit _⟩

theorem settled_logs {α : Type} {w : World} {L : Label → Prop} {t p : Bool} {m : M α}
    (h : Logs w L t p m) (hL : ∀ l, L l → ∀ x ∈ l.steps, x.isCompose = false) :
    Spec Settled m (fun _ => Settled) Settled :=
  Spec.of_logs h fun l s hl hs => by
    refine ⟨?_, ?_⟩
    · rw [apply_trace]
      exact List.mem_append_left _ hs.1
    · rw [apply_trace]
      exact submitFollows_append _ _ hs.2 (hL l hl)

theorem submit_settled (w : World) {P : St → Prop} :
    Spec P (do perform w (.click .submitButton); perform w (.waitForTimeout 2000))
      (fun _ => Settled) (fun _ => True) :=
  Spec.seq (R := fun _ => Settled) (Spec.perform_to fun s _ => settled_submit w s)
    fun _ => Spec.perform_to fun s hs => settled_after w _ s rfl hs

theorem submitFirst_settled (w : World) (url prompt : String) :
    Spec (fun s => SubmitFollows s.trace) (submitFirst w url prompt) (fun _ => Settled)
      (fun _ => True) := by
  unfold submitFirst
  dsimp only
  split
  · refine Spec.seq (R := fun _ _ => True) Spec.anything fun _ => ?_
    refine Spec.seq (R := fun _ _ => True) Spec.anything fun _ => ?_
    exact submit_settled w
  · refine Spec.seq (R := fun _ _ => True) Spec.anything fun _ => ?_
    exact submit_settled w

theorem loginBranch_settled (w : World) (url prompt : String) :
    Spec Settled (loginBranch w url prompt) (fun _ => Settled) (fun _ => True) := by
  unfold loginBranch
  refine Spec.seq (R := fun _ => Settled)
    ((settled_logs (w := w) (L := fun l => l = .act (.isVisible .loginButton)) (t := false)
      (p := false) (Logs.tryCatchM (Logs.isVisible rfl) fun _ => Logs.pure _)
      (fun l hl x hx => by subst hl; simp [Label.steps] at hx; subst hx; rfl)).conseq
      (fun _ h => h) (fun _ _ h => h) (fun _ _ => trivial)) fun v => ?_
  split
  · iterate 10
      refine Spec.seq (R := fun _ => Settled)
        (Spec.perform_to fun s hs => settled_after w _ s rfl hs) fun _ => ?_
    dsimp only
    split
    · refine Spec.seq (R := fun _ _ => True) Spec.anything fun _ => ?_
      refine Spec.seq (R := fun _ _ => True) Spec.anything fun _ => ?_
      exact submit_settled w
    · refine Spec.seq (R := fun _ _ => True) Spec.anything fun _ => ?_
      refine Spec.seq (R := fun _ _ => True) Spec.anything fun _ => ?_
      exact submit_settled w
  · exact Spec.of_pure fun s hs => hs

theorem arrive_settled (w : World) (url prompt : String) :
    Spec (fun s => SubmitFollows s.trace) (arrive w url prompt) (fun _ => Settled)
      (fun _ => True) := by
  unfold arrive
  refine Spec.seq (R := fun _ s => SubmitFollows s.trace)
    (Spec.perform_to fun s hs => follows_after w _ s rfl hs) fun _ => ?_
  refine Spec.seq (R := fun _ s => SubmitFollows s.trace)
    (Spec.of_run () _ (fun _ => rfl) fun s hs => hs) fun _ => ?_
  iterate 4
    refine Spec.seq (R := fun _ s => SubmitFollows s.trace)
      (Spec.perform_to fun s hs => follows_after w _ s rfl hs) fun _ => ?_
  exact Spec.seq (R := fun _ => Settled) (submitFirst_settled w url prompt)
    fun _ => loginBranch_settled w url prompt

theorem milestone_of_compose (x : Step) (h : x.isCompose = true) : x.isMilestone = true := by
  unfold Step.isMilestone
  split <;> first | rfl | exact h

theorem rest_noCompose (w : World) (prompt : String) (l : Label) (hl : restLog w prompt l) :
    ∀ x ∈ l.steps, x.isCompose = false := by
  intro x hx
  have h := rest_noMilestone w prompt l hl x hx
  cases hc : x.isCompose with
  | false => rfl
  | true =>
    rw [milestone_of_compose x hc] at h
    cases h

theorem try_noError (w : World) (url prompt : String) (l : Label) (e : Event)
    (hl : l = .emit (.status "Starting clone process..." 1 none) ∨ tryLog w url prompt l)
    (he : l.emits e) : e.isError = false := by
  cases l with
  | emit e0 =>
    have : e = e0 := he
    subst this
    cases e with
    | error a b =>
      simp [tryLog, generateLog, submitLog, loginLog, monitorLog, publishLog, loopLog,
        composeLog, generateOwnLog, loginOwnLog, pollLog, finalShotLog, settleLog, captureLog,
        attemptLog, extractLog, publishTailLog, finishLog, lingerLog] at hl
    | _ => rfl
  | report p =>
    have : e = .progress (progressMessage p) (p.percent.getD (.finite 0)) 16 := he
    subst this
    rfl
  | _ => exact he.elim
theorem guarded_returns (w : World) (url prompt : String) (s : St) :
    ∃ s1, tryCatchM (composePrompt w url prompt) (fun _ => pure ()) s = (.ret (), s1) := by
  have h := (composePrompt_logs w url prompt).run s
  rw [tryCatchM_run]
  rcases hc : composePrompt w url prompt s with ⟨o, s1⟩
  rw [hc] at h
  cases o with
  | ret a => exact ⟨s1, rfl⟩
  | thrown e => exact ⟨s1, rfl⟩
  | pending => exact Bool.noConfusion (h.2.2 rfl)
theorem Spec.perform_both {w : World} {a : Action} {P Q : St → Prop}
    (h : ∀ s, P s → Q (s.after w a)) : Spec P (perform w a) (fun _ => Q) Q := by
  constructor
  intro s hs
  unfold CloneFlow.perform
  split <;> exact h s hs

/-- The `try` around the compose sub-sequence makes its first call, whatever rejects. -/
theorem guarded_starts (w : World) (url prompt : String) {P : St → Prop} :
    Spec P (tryCatchM (composePrompt w url prompt) (fun _ => pure ()))
      (fun _ s => Step.act (.click .paragraphNth1) ∈ s.trace)
      (fun s => Step.act (.click .paragraphNth1) ∈ s.trace) := by
  refine Spec.handle (Y := fun s => Step.act (.click .paragraphNth1) ∈ s.trace) ?_
    (fun _ => Spec.of_pure fun s hs => hs) (fun _ h => h)
  unfold composePrompt
  refine Spec.seq (R := fun _ s => Step.act (.click .paragraphNth1) ∈ s.trace)
    (Spec.perform_both fun s _ => by simp [St.after]) fun _ => ?_
  iterate 9
    refine Spec.seq (R := fun _ s => Step.act (.click .paragraphNth1) ∈ s.trace)
      (Spec.perform_both fun s hs => List.mem_append_left _ hs) fun _ => ?_
  exact Spec.perform_both fun s hs => List.mem_append_left _ hs

theorem arrive_starts (w : World) (url prompt : String) (hprompt : hasPrompt prompt = true) :
    Spec (fun _ => True) (arrive w url prompt)
      (fun _ s => Step.act (.click .paragraphNth1) ∈ s.trace) (fun _ => True) := by
  unfold arrive
  iterate 6
    refine Spec.seq (R := fun _ _ => True) Spec.anything fun _ => ?_
  refine Spec.seq (R := fun _ s => Step.act (.click .paragraphNth1) ∈ s.trace) ?_ fun _ => ?_
  · unfold submitFirst
    dsimp only
    rw [if_pos hprompt]
    refine Spec.seq (R := fun _ _ => True) Spec.anything fun _ => ?_
    refine Spec.seq (R := fun _ s => Step.act (.click .paragraphNth1) ∈ s.trace)
      ((guarded_starts w url prompt).conseq (fun _ h => h) (fun _ _ h => h)
        (fun _ _ => trivial)) fun _ => ?_
    refine Spec.seq (R := fun _ s => Step.act (.click .paragraphNth1) ∈ s.trace)
      (Spec.perform_to fun s hs => List.mem_append_left _ hs) fun _ => ?_
    exact Spec.perform_to fun s hs => List.mem_append_left _ hs
  · exact (Spec.of_logs (P := fun s => Step.act (.click .paragraphNth1) ∈ s.trace)
      (loginBranch_logs w url prompt) fun l s _ hs => by
        show _ ∈ (s.apply w l).trace
        rw [apply_trace]
        exact List.mem_append_left _ hs).conseq (fun _ h => h) (fun _ _ h => h)
      (fun _ _ => trivial)
/-! ## The skeleton of the handler -/

/-- The handler, as a composition of its parts: what holds before (`A`), after the final
screenshot (`A2`), at the entry of the publish phase (`A1`), before the `complete` event
(`C`), where a part throws or is cut (`E`) and in the end (`F`). -/
theorem stream_frame (w : World) (fuel : Nat) (url prompt : String)
    (A0 A A2 A1 C E F : St → Prop)
    (hstart : ∀ s, A0 s → A (s.apply w (.emit (.status "Starting clone process..." 1 none))))
    (hgen : Spec A (generate w fuel url prompt) (fun _ => A) E)
    (hshot : Spec A (finalScreenshot w) (fun _ => A2) E)
    (henter : ∀ s, A2 s → s.previewReady = true → A1 s)
    (hskip : ∀ s, A2 s → s.previewReady = false → C s)
    (hpub : Spec A1 (publishPhase w) (fun _ => C) E)
    (hfin : ∀ file, Spec C (finish w file) (fun _ => F) E)
    (hcatch : ∀ e, Spec E (catchBlock w e) (fun _ => F) F)
    (hEF : ∀ s, E s → F s) :
    Spec A0 (stream w fuel url prompt) (fun _ => F) F := by
  unfold stream
  refine Spec.seq (R := fun _ => A) (Spec.of_run () _ (fun _ => rfl) hstart) fun _ => ?_
  unfold tryStatement
  refine Spec.handle (Y := E) ?_ hcatch hEF
  unfold tryBlock
  refine Spec.seq (R := fun _ => A) hgen fun _ => ?_
  refine Spec.seq (R := fun _ => A2) hshot fun file => ?_
  refine Spec.seq (R := fun s0 s => s0 = s ∧ A2 s) Spec.of_getSt fun s0 => ?_
  dsimp only
  by_cases hr : s0.previewReady = true
  · rw [if_pos hr]
    refine Spec.seq (R := fun _ => C) (hpub.conseq ?_ (fun _ _ h => h) (fun _ h => h))
      fun _ => hfin file
    rintro s ⟨rfl, hs⟩
    exact henter _ hs hr
  · rw [if_neg hr]
    refine Spec.seq (R := fun _ => C) (Spec.of_pure ?_) fun _ => hfin file
    rintro s ⟨rfl, hs⟩
    exact hskip _ hs (by simpa using hr)

/-- The frame of `stream_frame`, on the state a run leaves. -/
theorem cloneStream_frame (w : World) (fuel : Nat) (req : Request) (A A2 A1 C E F : St → Prop)
    (h0 : A ((St.init w).apply w (.emit (.status "Starting clone process..." 1 none))))
    (hinit : F (St.init w))
    (hgen : ∀ url, req.url = some url →
      Spec A (generate w fuel url (req.prompt.getD "")) (fun _ => A) E)
    (hshot : Spec A (finalScreenshot w) (fun _ => A2) E)
    (henter : ∀ s, A2 s → s.previewReady = true → A1 s)
    (hskip : ∀ s, A2 s → s.previewReady = false → C s)
    (hpub : Spec A1 (publishPhase w) (fun _ => C) E)
    (hfin : ∀ file, Spec C (finish w file) (fun _ => F) E)
    (hcatch : ∀ e, Spec E (catchBlock w e) (fun _ => F) F)
    (hEF : ∀ s, E s → F s) : F (cloneStream w fuel req).st := by
  rcases cloneStream_cases w fuel req with ⟨msg, e⟩ | ⟨u, hu, hp⟩
  · rw [e]
    exact hinit
  · rw [(cloneStream_st w fuel req u hu hp).1]
    have h := (stream_frame w fuel u (req.prompt.getD "") (fun s => s = St.init w) A A2 A1 C E F
      (fun s hs => by rw [hs]; exact h0) (hgen u hu) hshot henter hskip hpub hfin hcatch
      hEF).run _ rfl
    rcases hr : stream w fuel u (req.prompt.getD "") (St.init w) with ⟨o, s1⟩
    rw [hr] at h
    cases o <;> exact h

/-- The publish phase, as a composition of its parts: `A` holds up to the capture of the
preview, `B` from the `preview_ready` event on. -/
theorem publishPhase_frame (w : World) (A B : St → Prop)
    (hA : ∀ l s, settleLog l ∨ l = .act .now ∨ (∃ f c, l = .act (.screenshot f c)) ∨
      l = .act (.boundingBox .iframe) ∨ publishTailLog l → A s → A (s.apply w l))
    (hcap : ∀ s v, A s → B ((s.apply w (.previewScreenshot v)).apply w
      (.emit (.preview_ready v "Preview ready. Publishing your site..."))))
    (hB : ∀ l s, loopLog w l ∨ publishTailLog l → B s → B (s.apply w l)) :
    Spec A (publishPhase w) (fun _ s => A s ∨ B s) (fun _ => False) := by
  refine Spec.total (w := w) (L := publishLog w) (X := fun s => A s ∨ B s) ?_
    (publishPhase_logs w)
  unfold publishPhase
  refine Spec.handle (Y := fun s => A s ∨ B s) (X := fun s => A s ∨ B s) ?_ (fun _ => ?_)
    (fun s hs => hs)
  · refine Spec.seq (R := fun _ => A)
      ((Spec.of_logs (settle_logs w) fun l s hl hs => hA l s (Or.inl hl) hs).conseq
        (fun _ h => h) (fun _ _ h => h) (fun _ h => Or.inl h)) fun _ => ?_
    refine Spec.seq (R := fun _ => B) ?_ fun _ => ?_
    · unfold capturePreview
      refine Spec.seq (R := fun _ => A)
        ((Spec.of_logs (w := w) (L := fun l => l = .act .now) (t := false) (p := false)
          (Logs.dateNow rfl) fun l s hl hs => hA l s (Or.inr (Or.inl hl)) hs).conseq
          (fun _ h => h) (fun _ _ h => h) (fun _ h => Or.inl h)) fun t => ?_
      dsimp only
      refine Spec.seq (R := fun _ => A) ?_ fun _ => ?_
      · refine (Spec.of_logs (w := w)
          (L := fun l => (∃ f c, l = .act (.screenshot f c)) ∨ l = .act (.boundingBox .iframe))
          (t := true) (p := false) ?_
          fun l s hl hs => hA l s (Or.inr (Or.inr (hl.elim Or.inl (fun h => Or.inr (Or.inl h)))))
            hs).conseq (fun _ h => h) (fun _ _ h => h) (fun _ h => Or.inl h)
        repeat (first
          | with_reducible (first
              | apply Logs.tryCatchM
              | apply Logs.ite
              | apply Logs.perform
              | apply Logs.await
              | apply Logs.pure
              | apply Logs.bind)
          | intro _
          | split
          | dsimp only
          | exact Or.inl ⟨_, _, rfl⟩
          | exact Or.inr rfl)
      · refine Spec.of_run () _ (fun _ => rfl) fun s hs => ?_
        exact hcap s _ hs
    · refine Spec.seq (R := fun _ => B)
        ((Spec.of_logs (publishLoop_logs w maxPublishAttempts (le_refl _)) fun l s hl hs =>
          hB l s (Or.inl hl) hs).conseq (fun _ h => h) (fun _ _ h => h) (fun _ h => Or.inr h))
        fun _ => ?_
      refine (Spec.of_logs (w := w) (L := publishTailLog) (t := false) (p := false) ?_
        fun l s hl hs => hB l s (Or.inr hl) hs).conseq (fun _ h => h)
        (fun _ _ h => Or.inr h) (fun _ h => Or.inr h)
      repeat (first
        | with_reducible (first
            | apply Logs.tryCatchM
            | apply Logs.ite
            | apply Logs.perform
            | apply Logs.dateNow
            | apply Logs.getSt
            | apply Logs.sendProgress
            | apply Logs.pure
            | apply Logs.bind)
        | intro _
        | dsimp only
        | simp [publishTailLog, isShot_mk])
  · refine Spec.of_run () _ (fun _ => rfl) fun s hs => ?_
    rcases hs with hs | hs
    · exact Or.inl (hA (.emit (.status
        "Publish process encountered an issue. Showing preview." 19 none)) s
        (Or.inr (Or.inr (Or.inr (Or.inr (by simp [publishTailLog]))))) hs)
    · exact Or.inr (hB (.emit (.status
        "Publish process encountered an issue. Showing preview." 19 none)) s
        (Or.inr (by simp [publishTailLog])) hs)
/-- The end of the handler: `C` before the `complete` event, `F` from it on. -/
theorem finish_frame (w : World) (file : String) (C F : St → Prop)
    (hurl : ∀ s, C s → C (s.apply w (.act .url)))
    (hC : ∀ s editUrl, C s → F (s.completed file editUrl))
    (hF : ∀ l s, lingerLog l → F s → F (s.apply w l)) (hCF : ∀ s, C s → F s) :
    Spec C (finish w file) (fun _ => F) F := by
  unfold finish
  refine Spec.seq (R := fun _ => C) ?_ fun editUrl => ?_
  · exact (Spec.of_logs (w := w) (L := fun l => l = .act .url) (t := false) (p := false)
      (Logs.pageUrl rfl) fun l s hl hs => by rw [hl]; exact hurl s hs).conseq (fun _ h => h)
      (fun _ _ h => h) hCF
  refine Spec.seq Spec.of_getSt fun s0 => ?_
  refine Spec.seq (R := fun _ => F) ?_ fun _ => ?_
  · refine Spec.of_run () _ (fun _ => rfl) fun s hs => ?_
    obtain ⟨rfl, hs⟩ := hs
    exact hC _ editUrl hs
  · exact Spec.of_logs (linger_logs w) fun l s hl hs => hF l s hl hs
/-! ## The preview before publishing -/

theorem apply_history (w : World) (s : St) (l : Label) :
    ∃ hs, (s.apply w l).history = s.history ++ hs ∧ ∀ x ∈ hs, l.writes x := by
  cases l with
  | act a => exact ⟨[_], rfl, by simp [Label.writes]⟩
  | mark y => exact ⟨[_], rfl, by simp [Label.writes]⟩
  | emit e => exact ⟨[_], rfl, by simp [Label.writes]⟩
  | report p =>
    simp only [St.apply]
    split
    · exact ⟨[_], rfl, by simp [Label.writes]⟩
    · exact ⟨[], by simp, by simp⟩
  | _ => exact ⟨[], by simp [St.apply], by simp⟩

theorem apply_preview (w : World) (s : St) (l : Label) (h : ∀ v, l ≠ .previewScreenshot v) :
    (s.apply w l).previewScreenshot = s.previewScreenshot := by
  cases l <;> simp [St.apply, St.after] at *
  split <;> rfl

/-- The history of a run holds its events and its trace. -/
theorem coherent_apply (w : World) (l : Label) (s : St)
    (hs : s.history.filterMap Entry.event? = s.events ∧
      s.history.filterMap Entry.step? = s.trace) :
    (s.apply w l).history.filterMap Entry.event? = (s.apply w l).events ∧
      (s.apply w l).history.filterMap Entry.step? = (s.apply w l).trace := by
  cases l <;>
    simp [St.apply, St.after, List.filterMap_append, Entry.event?, Entry.step?, hs.1, hs.2]
  split <;>
    simp [List.filterMap_append, Entry.event?, Entry.step?, hs.1, hs.2]

theorem split_append {α : Type} {h ys pre post : List α} {x : α}
    (e : h ++ ys = pre ++ x :: post) :
    (∃ c, h = pre ++ x :: c ∧ post = c ++ ys) ∨ ∃ a, pre = h ++ a ∧ ys = a ++ x :: post := by
  rcases List.append_eq_append_iff.mp e with ⟨a, h1, h2⟩ | ⟨c, h1, h2⟩
  · exact Or.inr ⟨a, h1, h2⟩
  · cases c with
    | nil =>
      simp only [List.nil_append] at h2
      simp only [List.append_nil] at h1
      exact Or.inr ⟨[], by simp [h1], by simp [h2]⟩
    | cons b c =>
      simp only [List.cons_append, List.cons.injEq] at h2
      obtain ⟨rfl, rfl⟩ := h2
      exact Or.inl ⟨c, h1, rfl⟩

theorem previewFirst_quiet (h ys : List Entry) (hh : PreviewFirst h)
    (hy : ∀ x ∈ ys, x.isPublishing = false) : PreviewFirst (h ++ ys) := by
  intro pre x post e hx
  rcases split_append e with ⟨c, h1, -⟩ | ⟨a, -, h2⟩
  · exact hh pre x c h1 hx
  · have : x ∈ ys := by rw [h2]; simp
    rw [hy x this] at hx
    cases hx

theorem previewFirst_seen (h ys : List Entry) (hh : PreviewFirst h)
    (hy : ∃ y ∈ h, y.isPreviewReady = true) : PreviewFirst (h ++ ys) := by
  intro pre x post e hx
  rcases split_append e with ⟨c, h1, -⟩ | ⟨a, h1, -⟩
  · exact hh pre x c h1 hx
  · obtain ⟨y, hy1, hy2⟩ := hy
    exact ⟨y, by rw [h1]; exact List.mem_append_left _ hy1, hy2⟩

theorem previewFirst_none (h : List Entry) (hh : ∀ x ∈ h, x.isPublishing = false) :
    PreviewFirst h := by
  intro pre x post e hx
  have : x ∈ h := by rw [e]; simp
  rw [hh x this] at hx
  cases hx

theorem unpreviewed_apply (w : World) (l : Label) (s : St) (hl : l.quiet)
    (hs : Unpreviewed s) : Unpreviewed (s.apply w l) := by
  obtain ⟨es, e1, e2⟩ := apply_events w s l
  obtain ⟨hs1, h1, h2⟩ := apply_history w s l
  refine ⟨fun e he => ?_, by rw [apply_preview w s l hl.1.2]; exact hs.2.1, fun x hx => ?_⟩
  · rw [e1] at he
    rcases List.mem_append.mp he with he | he
    · exact hs.1 e he
    · exact hl.1.1 e (e2 e he)
  · rw [h1] at hx
    rcases List.mem_append.mp hx with hx | hx
    · exact hs.2.2 x hx
    · exact hl.2 x (h2 x hx)

theorem previewed_apply (w : World) (v : String) (l : Label) (s : St) (hl : l.plain)
    (hs : Previewed v s) : Previewed v (s.apply w l) := by
  obtain ⟨es, e1, e2⟩ := apply_events w s l
  obtain ⟨hs1, h1, h2⟩ := apply_history w s l
  obtain ⟨c1, c2, c3, c4, c5, y, hy, hy2⟩ := hs
  have hes : es.countP Event.isPreviewReady = 0 :=
    List.countP_eq_zero.mpr fun e he => by simp [(hl.1 e (e2 e he)).1]
  refine ⟨by rw [e1, List.countP_append, c1, hes], fun v1 m hm => ?_,
    by rw [apply_preview w s l hl.2]; exact c3, fun e he => ?_, ?_, y, ?_, hy2⟩
  · rw [e1] at hm
    rcases List.mem_append.mp hm with hm | hm
    · exact c2 v1 m hm
    · exact absurd (hl.1 _ (e2 _ hm)).1 (by simp [Event.isPreviewReady])
  · rw [e1] at he
    rcases List.mem_append.mp he with he | he
    · exact c4 e he
    · exact (hl.1 e (e2 e he)).2
  · rw [h1]
    exact previewFirst_seen _ _ c5 ⟨y, hy, hy2⟩
  · rw [h1]
    exact List.mem_append_left _ hy

theorem once_apply (w : World) (l : Label) (s : St) (hl : l.quiet) (hs : PreviewOnce s) :
    PreviewOnce (s.apply w l) := by
  obtain ⟨es, e1, e2⟩ := apply_events w s l
  obtain ⟨hs1, h1, h2⟩ := apply_history w s l
  obtain ⟨c1, c2, c3⟩ := hs
  have hes : es.countP Event.isPreviewReady = 0 :=
    List.countP_eq_zero.mpr fun e he => by simp [(hl.1.1 e (e2 e he)).1]
  refine ⟨by rw [e1, List.countP_append, hes]; exact c1, ?_, ?_⟩
  · rw [h1]
    exact previewFirst_quiet _ _ c2 fun x hx => hl.2 x (h2 x hx)
  · intro v m success screenshot pv editUrl pu msg hm hc
    rw [e1] at hm hc
    have hm1 : Event.preview_ready v m ∈ s.events := by
      rcases List.mem_append.mp hm with hm | hm
      · exact hm
      · exact absurd (hl.1.1 _ (e2 _ hm)).1 (by simp [Event.isPreviewReady])
    have hc1 : Event.complete success screenshot pv editUrl pu msg ∈ s.events := by
      rcases List.mem_append.mp hc with hc | hc
      · exact hc
      · exact absurd (hl.1.1 _ (e2 _ hc)).2 (by simp [Event.isComplete])
    exact c3 v m success screenshot pv editUrl pu msg hm1 hc1

theorem once_of_unpreviewed (s : St) (hs : Unpreviewed s) : PreviewOnce s := by
  refine ⟨?_, previewFirst_none _ hs.2.2, ?_⟩
  · rw [List.countP_eq_zero.mpr fun e he => by simp [(hs.1 e he).1]]
    exact Nat.zero_le _
  · intro v m success screenshot pv editUrl pu msg hm
    exact absurd (hs.1 _ hm).1 (by simp [Event.isPreviewReady])

theorem once_of_previewed (v : String) (s : St) (hs : Previewed v s) : PreviewOnce s := by
  obtain ⟨c1, c2, c3, c4, c5, -⟩ := hs
  refine ⟨by rw [c1], c5, ?_⟩
  intro v1 m success screenshot pv editUrl pu msg _ hc
  exact absurd (c4 _ hc) (by simp [Event.isComplete])
theorem quiet_of_generate (w : World) (url prompt : String) (l : Label)
    (h : l = .emit (.status "Starting clone process..." 1 none) ∨ generateLog w url prompt l) :
    l.quiet := by
  simp only [generateLog, submitLog, loginLog, monitorLog] at h
  cases l with
  | act a =>
    cases a <;>
      simp_all [Label.quiet, Label.plain, Label.emits, Label.writes, Entry.isPublishing,
        Step.isPublishClick, composeLog, generateOwnLog, loginOwnLog, pollLog]
    (casesm* _ ∨ _, _ ∧ _) <;> simp_all
  | emit e =>
    cases e <;>
      simp_all [Label.quiet, Label.plain, Label.emits, Label.writes, Entry.isPublishing,
        Event.isComplete, Event.isPreviewReady, composeLog, generateOwnLog, loginOwnLog, pollLog]
    (casesm* _ ∨ _, _ ∧ _) <;> simp_all
  | mark x =>
    cases x <;>
      simp_all [Label.quiet, Label.plain, Label.emits, Label.writes, Entry.isPublishing,
        Step.isPublishClick, composeLog, generateOwnLog, loginOwnLog, pollLog]
  | _ =>
    simp_all [Label.quiet, Label.plain, Label.emits, Label.writes, Entry.isPublishing,
      Event.isComplete, Event.isPreviewReady, composeLog, generateOwnLog, loginOwnLog, pollLog]

theorem quiet_of_simple (l : Label)
    (h : finalShotLog l ∨ settleLog l ∨ l = .act .now ∨ (∃ f c, l = .act (.screenshot f c)) ∨
      l = .act (.boundingBox .iframe) ∨ publishTailLog l ∨ lingerLog l ∨ catchLog l) :
    l.quiet := by
  cases l with
  | act a =>
    cases a <;>
      simp_all [Label.quiet, Label.plain, Label.emits, Label.writes, Entry.isPublishing,
        Step.isPublishClick, finalShotLog, settleLog, publishTailLog, lingerLog, catchLog]
  | emit e =>
    cases e <;>
      simp_all [Label.quiet, Label.plain, Label.emits, Label.writes, Entry.isPublishing,
        Event.isComplete, Event.isPreviewReady, finalShotLog, settleLog, publishTailLog,
        lingerLog, catchLog]
    all_goals (casesm* _ ∨ _, _ ∧ _) <;> simp_all
  | mark x =>
    simp_all [Label.quiet, Label.plain, Label.emits, Label.writes, Entry.isPublishing,
      Step.isPublishClick, finalShotLog, settleLog, publishTailLog, lingerLog, catchLog]
  | _ =>
    simp_all [Label.quiet, Label.plain, Label.emits, Label.writes, Entry.isPublishing,
      Event.isComplete, Event.isPreviewReady, finalShotLog, settleLog, publishTailLog,
      lingerLog, catchLog]

theorem quiet_of_capture (l : Label)
    (h : settleLog l ∨ l = .act .now ∨ (∃ f c, l = .act (.screenshot f c)) ∨
      l = .act (.boundingBox .iframe) ∨ publishTailLog l) : l.quiet := by
  refine quiet_of_simple l ?_
  rcases h with h | h | h | h | h
  all_goals simp only [h, true_or, or_true]

theorem plain_of_loop (w : World) (l : Label) (h : loopLog w l ∨ publishTailLog l) :
    l.plain := by
  simp only [loopLog] at h
  cases l with
  | emit e =>
    cases e <;>
      simp_all [Label.plain, Label.emits, Event.isComplete, Event.isPreviewReady, attemptLog,
        extractLog, publishTailLog]
  | _ =>
    simp_all [Label.plain, Label.emits, Event.isComplete, Event.isPreviewReady, attemptLog,
      extractLog, publishTailLog]
theorem previewed_capture (w : World) (s : St) (v : String) (hs : Unpreviewed s) :
    Previewed v ((s.apply w (.previewScreenshot v)).apply w
      (.emit (.preview_ready v "Preview ready. Publishing your site..."))) := by
  obtain ⟨h1, h2, h3⟩ := hs
  have hc : s.events.countP Event.isPreviewReady = 0 :=
    List.countP_eq_zero.mpr fun e he => by simp [(h1 e he).1]
  refine ⟨?_, ?_, rfl, ?_, ?_, ?_⟩
  · show (s.events ++ [_]).countP _ = 1
    rw [List.countP_append, hc]
    rfl
  · intro v1 m hm
    have hm2 : Event.preview_ready v1 m ∈ s.events ++
        [Event.preview_ready v "Preview ready. Publishing your site..."] := hm
    rcases List.mem_append.mp hm2 with hm3 | hm3
    · exact absurd (h1 _ hm3).1 (by simp [Event.isPreviewReady])
    · simp only [List.mem_singleton, Event.preview_ready.injEq] at hm3
      exact hm3.1
  · intro e he
    have he2 : e ∈ s.events ++
        [Event.preview_ready v "Preview ready. Publishing your site..."] := he
    rcases List.mem_append.mp he2 with he3 | he3
    · exact (h1 e he3).2
    · rw [List.mem_singleton.mp he3]
      rfl
  · show PreviewFirst (s.history ++ [_])
    exact previewFirst_quiet _ _ (previewFirst_none _ h3) (by simp [Entry.isPublishing])
  · exact ⟨.sent (.preview_ready v "Preview ready. Publishing your site..."),
      by simp [St.apply], rfl⟩

theorem once_completed (s : St) (file editUrl : String)
    (hs : Unpreviewed s ∨ ∃ v, Previewed v s) : PreviewOnce (s.completed file editUrl) := by
  have hev : (s.completed file editUrl).events = s.events ++
      [.complete true ("/screenshots/" ++ file) s.previewScreenshot editUrl s.publishedUrl
        (completeMessage s.publishedUrl s.previewReady)] := rfl
  have hh : (s.completed file editUrl).history = s.history ++
      [.sent (.complete true ("/screenshots/" ++ file) s.previewScreenshot editUrl
        s.publishedUrl (completeMessage s.publishedUrl s.previewReady))] := rfl
  have hone := hs.elim (once_of_unpreviewed s) (fun h => h.elim fun v hv => once_of_previewed v s hv)
  refine ⟨?_, ?_, ?_⟩
  · rw [hev, List.countP_append]
    simpa [Event.isPreviewReady] using hone.1
  · rw [hh]
    exact previewFirst_quiet _ _ hone.2.1 (by simp [Entry.isPublishing])
  · intro v m success screenshot pv editUrl1 pu msg hm hc
    rw [hev] at hm hc
    have hm1 : Event.preview_ready v m ∈ s.events := by
      rcases List.mem_append.mp hm with hm | hm
      · exact hm
      · simp at hm
    rcases hs with hs | ⟨v0, hs⟩
    · exact absurd (hs.1 _ hm1).1 (by simp [Event.isPreviewReady])
    · rcases List.mem_append.mp hc with hc | hc
      · exact absurd (hs.2.2.2.1 _ hc) (by simp [Event.isComplete])
      · simp only [List.mem_singleton, Event.complete.injEq] at hc
        rw [hc.2.2.1, hs.2.2.1, hs.2.1 v m hm1]

/-- Every run leaves a state with the property of C16. -/
theorem cloneStream_previewOnce (w : World) (fuel : Nat) (req : Request) :
    PreviewOnce (cloneStream w fuel req).st := by
  have h0 : Unpreviewed (St.init w) := ⟨by simp [St.init], rfl, by simp [St.init]⟩
  refine cloneStream_frame w fuel req Unpreviewed Unpreviewed Unpreviewed
    (fun s => Unpreviewed s ∨ ∃ v, Previewed v s) PreviewOnce PreviewOnce
    (unpreviewed_apply w _ _ (quiet_of_generate w "" "" _ (Or.inl rfl)) h0)
    (once_of_unpreviewed _ h0) ?_ ?_ (fun s hs _ => hs) (fun s hs _ => Or.inl hs) ?_ ?_ ?_
    (fun _ h => h)
  · intro url _
    exact (Spec.of_logs (generate_logs w fuel url _) fun l s hl hs =>
      unpreviewed_apply w l s (quiet_of_generate w url _ l (Or.inr hl)) hs).conseq
      (fun _ h => h) (fun _ _ h => h) once_of_unpreviewed
  · exact (Spec.of_logs (finalScreenshot_logs w) fun l s hl hs =>
      unpreviewed_apply w l s (quiet_of_simple l (Or.inl hl)) hs).conseq
      (fun _ h => h) (fun _ _ h => h) once_of_unpreviewed
  · refine (publishPhase_frame w Unpreviewed (fun s => ∃ v, Previewed v s) ?_ ?_ ?_).conseq
      (fun _ h => h) (fun _ _ h => h) (fun _ h => h.elim)
    · intro l s hl hs
      exact unpreviewed_apply w l s (quiet_of_capture l hl) hs
    · exact fun s v hs => ⟨v, previewed_capture w s v hs⟩
    · rintro l s hl ⟨v, hs⟩
      exact ⟨v, previewed_apply w v l s (plain_of_loop w l hl) hs⟩
  · intro file
    refine finish_frame w file _ _ ?_ (fun s editUrl hs => once_completed s file editUrl hs)
      (fun l s hl hs => once_apply w l s
        (quiet_of_simple l (by simp [hl])) hs)
      (fun s hs => hs.elim (once_of_unpreviewed s)
        (fun h => h.elim fun v hv => once_of_previewed v s hv))
    rintro s (hs | ⟨v, hs⟩)
    · exact Or.inl (unpreviewed_apply w _ s
        (quiet_of_simple _ (Or.inl (by simp [finalShotLog]))) hs)
    · exact Or.inr ⟨v, previewed_apply w v _ s
        ⟨by simp [Label.emits], by simp⟩ hs⟩
  · intro e
    exact Spec.of_logs (catchBlock_logs w e) fun l s hl hs =>
      once_apply w l s (quiet_of_simple l (by simp [hl])) hs

/-- The history of every run holds its events and its trace, each in its order. -/
theorem cloneStream_coherent (w : World) (fuel : Nat) (req : Request) :
    (cloneStream w fuel req).st.history.filterMap Entry.event? =
        (cloneStream w fuel req).st.events ∧
      (cloneStream w fuel req).st.history.filterMap Entry.step? =
        (cloneStream w fuel req).st.trace := by
  rcases cloneStream_cases w fuel req with ⟨msg, e⟩ | ⟨u, hu, hp⟩
  · rw [e]
    simp [St.init]
  · rw [(cloneStream_st w fuel req u hu hp).1]
    exact (stream_logs w fuel u (req.prompt.getD "")).inv
      (fun s => s.history.filterMap Entry.event? = s.events ∧
        s.history.filterMap Entry.step? = s.trace)
      (fun l s _ hs => coherent_apply w l s hs) _ (by simp [St.init])
/-! ## A session that ends at the ceiling -/

theorem Spec.of_step {α : Type} {P : St → Prop} {m : M α} {Q : α → St → Prop} {X : St → Prop}
    (g : St → α) (f : St → St) (hm : ∀ s, m s = (.ret (g s), f s))
    (h : ∀ s, P s → Q (g s) (f s)) : Spec P m Q X :=
  ⟨fun s hs => by rw [hm s]; exact h s hs⟩

theorem Spec.perform_fail {w : World} {a : Action} {P Q X : St → Prop}
    (hret : ∀ s, P s → Q (s.after w a))
    (hthrow : ∀ s, P s → w.fails s.tick a ≠ none → X (s.after w a)) :
    Spec P (perform w a) (fun _ => Q) X := by
  constructor
  intro s hs
  unfold CloneFlow.perform
  split
  · next e he => exact hthrow s hs (by rw [he]; simp)
  · exact hret s hs

theorem pageUrl_returns (w : World) : Returns (pageUrl w) (fun u => ∃ t, u = w.location t) :=
  Returns.ret_bind fun t => Returns.ret_pure ⟨t, rfl⟩

theorem pollBody_away (w : World) (startTime : Nat)
    (hurl : ∀ t, includes (w.location t) "/chat/" = false) :
    Logs w (awayLog w) false false (pollBody w startTime) := by
  unfold pollBody
  refine Logs.bind_ret (Logs.pageUrl (by simp [awayLog, pollLog])) (pageUrl_returns w)
    fun u hu => ?_
  obtain ⟨t, rfl⟩ := hu
  rw [if_neg (by simp [hurl t])]
  repeat (first
    | (with_reducible refine Logs.mono (reportProgress_logs w _) ?_ id id
       intro l hl
       cases l <;> simp_all [awayLog, pollLog, reportLog])
    | with_reducible refine Logs.bind_ret ?_ (found_returns w) ?_
    | with_reducible (first
        | apply Logs.tryCatchM
        | apply Logs.ite
        | apply Logs.perform
        | apply Logs.await
        | apply Logs.dateNow)
    | with_reducible (first
        | apply Logs.pure
        | apply Logs.bind)
    | intro _
    | split
    | dsimp only
    | simp [awayLog, pollLog, isShot_mk])

theorem monitor_away (w : World) (startTime fuel : Nat) (prompt : String)
    (hurl : ∀ t, includes (w.location t) "/chat/" = false) :
    Logs w (watchAwayLog w prompt) true true (monitor w startTime fuel) := by
  induction fuel with
  | zero => exact Logs.outOfFuel
  | succ n ih =>
    unfold monitor
    repeat (first
      | exact ih
      | exact (pollBody_away w startTime hurl).mono (fun l hl => by simp [watchAwayLog, hl])
          (fun h => rfl) (fun h => rfl)
      | with_reducible (first
          | apply Logs.tryCatchM
          | apply Logs.ite
          | apply Logs.perform
          | apply Logs.dateNow
          | apply Logs.mark
          | apply Logs.pure
          | apply Logs.bind)
      | intro _
      | dsimp only
      | simp [watchAwayLog])

theorem watch_away (w : World) (fuel : Nat) (prompt : String)
    (hurl : ∀ t, includes (w.location t) "/chat/" = false) :
    Logs w (watchAwayLog w prompt) true true (watch w fuel prompt) := by
  unfold watch
  repeat (first
    | exact monitor_away w _ fuel prompt hurl
    | with_reducible (first
        | apply Logs.perform
        | apply Logs.pageUrl
        | apply Logs.dateNow
        | apply Logs.sendProgress
        | apply Logs.bind)
    | intro _
    | simp [watchAwayLog])
theorem not_finalShot_of_progress {f : String} (h : IsShot "progress-" f) :
    ¬IsShot "clone-final-" f := by
  obtain ⟨n, rfl⟩ := h
  rintro ⟨m, hm⟩
  have := congrArg (fun s : String => s.data.head?) hm
  simp [String.data_append] at this

theorem idle_of_arrive (w : World) (url prompt : String) (l : Label)
    (h : l = .emit (.status "Starting clone process..." 1 none) ∨ arriveLog w url prompt l) :
    l.idle := by
  simp only [arriveLog, submitLog, loginLog] at h
  cases l with
  | act a =>
    cases a <;>
      simp_all [Label.idle, Label.emits, Label.steps, Step.isPublish, Step.isPublishClick,
        Step.isAttemptMark, Step.isFinalShot, composeLog, generateOwnLog, loginOwnLog]
    (casesm* _ ∨ _, _ ∧ _) <;> simp_all
  | emit e =>
    cases e <;>
      simp_all [Label.idle, Label.emits, Label.steps, Event.isTerminal, composeLog,
        generateOwnLog, loginOwnLog]
  | mark x =>
    cases x <;>
      simp_all [Label.idle, Label.emits, Label.steps, composeLog, generateOwnLog, loginOwnLog]
  | _ =>
    simp_all [Label.idle, Label.emits, Label.steps, Event.isTerminal, composeLog,
      generateOwnLog, loginOwnLog]

theorem idle_of_watch (w : World) (prompt : String) (l : Label)
    (h : watchAwayLog w prompt l) : l.idle := by
  simp only [watchAwayLog] at h
  cases l with
  | act a =>
    cases a <;>
      simp_all [Label.idle, Label.emits, Label.steps, Step.isPublish, Step.isPublishClick,
        Step.isAttemptMark, Step.isFinalShot, awayLog, pollLog]
    intro hc
    exact not_finalShot_of_progress h.2 hc
  | emit e =>
    cases e <;>
      simp_all [Label.idle, Label.emits, Label.steps, Event.isTerminal, awayLog, pollLog]
  | mark x =>
    cases x <;>
      simp_all [Label.idle, Label.emits, Label.steps, Step.isPublish, Step.isPublishClick,
        Step.isAttemptMark, Step.isFinalShot, awayLog, pollLog]
  | report p =>
    simp [Label.idle, Label.emits, Label.steps, Event.isTerminal]
  | _ =>
    simp_all [Label.idle, Label.emits, Label.steps, Event.isTerminal, awayLog, pollLog]

theorem idle_apply (w : World) (l : Label) (s : St) (hl : l.idle) (hs : Idle s) :
    Idle (s.apply w l) := by
  obtain ⟨es, e1, e2⟩ := apply_events w s l
  obtain ⟨h1, h2, h3, h4, h5⟩ := hs
  obtain ⟨l1, l2, l3, l4, l5⟩ := hl
  refine ⟨?_, by rw [apply_preview w s l l4]; exact h2,
    by rw [apply_publishedUrl w s l l5]; exact h3, fun e he => ?_, fun x hx => ?_⟩
  · cases l <;> simp [St.apply, St.after, h1] at l3 ⊢
    split <;> simp [h1]
  · rw [e1] at he
    rcases List.mem_append.mp he with he | he
    · exact h4 e he
    · exact l1 e (e2 e he)
  · rw [apply_trace] at hx
    rcases List.mem_append.mp hx with hx | hx
    · exact h5 x hx
    · exact l2 x hx
theorem Spec.vacuous {α : Type} {P : St → Prop} {m : M α} {Q : α → St → Prop} {X : St → Prop}
    (h : ∀ s, ¬P s) : Spec P m Q X :=
  ⟨fun s hs => absurd hs (h s)⟩

theorem shot_of_idle (s : St) (hs : Idle s) : Shot s :=
  ⟨hs.1, hs.2.1, hs.2.2.1, hs.2.2.2.1, fun x hx => (hs.2.2.2.2 x hx).1⟩

theorem finalShot_tail (w : World)
    (hshot : ∀ t file, IsShot "clone-final-" file → w.fails t (.screenshot file false) = none) :
    Spec Idle
      (do let t ← dateNow w
          perform w (.screenshot ("clone-final-" ++ num t ++ ".png") false)
          pure ("clone-final-" ++ num t ++ ".png"))
      (fun _ => Shot) (fun _ => False) := by
  refine Spec.seq (R := fun _ => Idle)
    (Spec.of_step (fun s => s.clock + w.elapsed s.tick .now) (fun s => s.after w .now)
      (fun _ => rfl) fun s hs => idle_apply w (.act .now) s
        (by simp [Label.idle, Label.emits, Label.steps, Step.isPublish, Step.isPublishClick,
          Step.isAttemptMark, Step.isFinalShot]) hs) fun t => ?_
  refine Spec.seq (R := fun _ => Shot) (Spec.perform_fail (fun s hs => ?_) (fun s _ hf => ?_))
    fun _ => Spec.of_pure fun s hs => hs
  · obtain ⟨h1, h2, h3, h4, h5⟩ := hs
    refine ⟨h1, h2, h3, h4, fun x hx => ?_⟩
    have hx2 : x ∈ s.trace ++ [.act (.screenshot ("clone-final-" ++ num t ++ ".png") false)] := hx
    rcases List.mem_append.mp hx2 with hx3 | hx3
    · exact (h5 x hx3).1
    · rw [List.mem_singleton.mp hx3]
      rfl
  · exact absurd (hshot _ _ (isShot_mk "clone-final-" t)) hf

theorem finalScreenshot_away (w : World)
    (hurl : ∀ t, includes (w.location t) "/chat/" = false)
    (hshot : ∀ t file, IsShot "clone-final-" file → w.fails t (.screenshot file false) = none) :
    Spec Idle (finalScreenshot w) (fun _ => Shot) (fun _ => False) := by
  unfold finalScreenshot
  refine Spec.seq (R := fun s0 s => s0 = s ∧ Idle s) Spec.of_getSt fun s0 => ?_
  dsimp only
  cases hr : s0.previewReady with
  | true =>
    refine Spec.vacuous ?_
    rintro s ⟨rfl, hs⟩
    rw [hs.1] at hr
    cases hr
  | false =>
    rw [if_pos (by simp)]
    refine Spec.seq (R := fun u s => Idle s ∧ includes u "/chat/" = false)
      (Spec.of_step (fun s => w.location s.tick) (fun s => s.after w .url) (fun _ => rfl)
        fun s hs => ⟨idle_apply w (.act .url) s
          (by simp [Label.idle, Label.emits, Label.steps, Step.isPublish, Step.isPublishClick,
            Step.isAttemptMark, Step.isFinalShot]) hs.2, hurl _⟩) fun u => ?_
    cases hu : includes u "/chat/" with
    | true =>
      refine Spec.vacuous ?_
      rintro s ⟨-, h⟩
      rw [hu] at h
      cases h
    | false =>
      rw [if_neg (by simp)]
      exact Spec.seq (R := fun _ => Idle) (Spec.of_pure fun s hs => hs.1)
        fun _ => finalShot_tail w hshot
theorem sent_after (w : World) (a : Action) (s : St)
    (ha : Step.isPublish (.act a) = false) (hs : Sent s) : Sent (s.after w a) := by
  obtain ⟨h1, h2⟩ := hs
  refine ⟨fun x hx => ?_, h2⟩
  have hx2 : x ∈ s.trace ++ [.act a] := hx
  rcases List.mem_append.mp hx2 with hx3 | hx3
  · exact h1 x hx3
  · rw [List.mem_singleton.mp hx3]
    exact ha

theorem failed_of_sent (w : World) (s : St) (hs : Sent s) (hw : ¬LingerOk w) : Failed w s := by
  obtain ⟨h1, pre, e, h2, h3, h4⟩ := hs
  exact ⟨h1, fun _ => ⟨hw, pre, e, [], h2, h3, h4, by simp⟩⟩

theorem ceiling_of_sent (w : World) (s : St) (hs : Sent s) : Ceiling w s := by
  obtain ⟨h1, pre, e, h2, h3, h4⟩ := hs
  exact ⟨h1, fun _ => ⟨pre, e, [], h2, h3, h4, by simp, fun _ => rfl⟩⟩

theorem ceiling_of_failed (w : World) (s : St) (hs : Failed w s) : Ceiling w s := by
  refine ⟨hs.1, fun hx => ?_⟩
  obtain ⟨hw, pre, e, post, h2, h3, h4, h5⟩ := hs.2 hx
  exact ⟨pre, e, post, h2, h3, h4, h5, fun h => absurd h hw⟩

theorem failed_of_idle (w : World) (s : St) (hs : Idle s) : Failed w s := by
  refine ⟨fun x hx => (hs.2.2.2.2 x hx).1, ?_⟩
  rintro ⟨x, hx, hf⟩
  exact absurd hf (hs.2.2.2.2 x hx).2

theorem sent_completed (s : St) (file editUrl : String) (hs : Shot s) :
    Sent (s.completed file editUrl) := by
  obtain ⟨h1, h2, h3, h4, h5⟩ := hs
  refine ⟨h5, s.events, _, rfl, ?_, h4⟩
  simp [Event.isCeiling, h1, h2, h3, completeMessage, truthy]

theorem finish_away (w : World) (file : String) :
    Spec Shot (finish w file) (fun _ => Ceiling w) (Failed w) := by
  unfold finish
  refine Spec.seq (R := fun _ => Shot)
    (Spec.of_step (fun s => w.location s.tick) (fun s => s.after w .url) (fun _ => rfl)
      fun s hs => ?_) fun editUrl => ?_
  · obtain ⟨h1, h2, h3, h4, h5⟩ := hs
    refine ⟨h1, h2, h3, h4, fun x hx => ?_⟩
    have hx2 : x ∈ s.trace ++ [.act .url] := hx
    rcases List.mem_append.mp hx2 with hx3 | hx3
    · exact h5 x hx3
    · rw [List.mem_singleton.mp hx3]
      rfl
  refine Spec.seq Spec.of_getSt fun s0 => ?_
  refine Spec.seq (R := fun _ => Sent) ?_ fun _ => ?_
  · refine Spec.of_run () _ (fun _ => rfl) fun s hs => ?_
    obtain ⟨rfl, hs⟩ := hs
    exact sent_completed _ file editUrl hs
  unfold linger
  refine Spec.seq (R := fun _ => Sent)
    (Spec.perform_fail (fun s hs => sent_after w _ s rfl hs)
      (fun s hs hf => failed_of_sent w _ (sent_after w _ s rfl hs)
        (fun h => hf (h s.tick).1))) fun _ => ?_
  refine Spec.seq (R := fun _ => Sent)
    (Spec.perform_fail (fun s hs => sent_after w _ s rfl hs)
      (fun s hs hf => failed_of_sent w _ (sent_after w _ s rfl hs)
        (fun h => hf (h s.tick).2))) fun _ => ?_
  exact Spec.of_run () _ (fun _ => rfl) fun s hs => ceiling_of_sent w _ hs

theorem failed_apply (w : World) (l : Label) (s : St) (hl : catchLog l) (hs : Failed w s) :
    Failed w (s.apply w l) := by
  obtain ⟨es, e1, e2⟩ := apply_events w s l
  have hsteps : ∀ x ∈ l.steps, x.isPublish = false ∧ ¬x.isFinalShot := by
    intro x hx
    cases l with
    | act a =>
      simp only [Label.steps, List.mem_singleton] at hx
      subst hx
      cases a <;> simp_all [catchLog, Step.isPublish, Step.isPublishClick, Step.isAttemptMark,
        Step.isFinalShot]
    | mark y => simp [catchLog] at hl
    | _ => simp [Label.steps] at hx
  have hemits : ∀ e ∈ es, e.isComplete = false := by
    intro e he
    have := e2 e he
    cases l with
    | emit e0 =>
      have h0 : e = e0 := this
      subst h0
      cases e <;> simp_all [catchLog, Event.isComplete]
    | report p => simp [catchLog] at hl
    | _ => exact this.elim
  refine ⟨fun x hx => ?_, ?_⟩
  · rw [apply_trace] at hx
    rcases List.mem_append.mp hx with hx | hx
    · exact hs.1 x hx
    · exact (hsteps x hx).1
  · rintro ⟨x, hx, hf⟩
    rw [apply_trace] at hx
    have hold : ∃ x ∈ s.trace, x.isFinalShot := by
      rcases List.mem_append.mp hx with hx | hx
      · exact ⟨x, hx, hf⟩
      · exact absurd hf (hsteps x hx).2
    obtain ⟨hw, pre, e, post, h2, h3, h4, h5⟩ := hs.2 hold
    refine ⟨hw, pre, e, post ++ es, by rw [e1, h2]; simp, h3, h4, fun y hy => ?_⟩
    rcases List.mem_append.mp hy with hy | hy
    · exact h5 y hy
    · exact hemits y hy

/-- Every run in which the page is never on its result address and the final screenshot
does not reject leaves a state with the property of C12. -/
theorem cloneStream_ceiling (w : World) (fuel : Nat) (req : Request)
    (hurl : ∀ t, includes (w.location t) "/chat/" = false)
    (hshot : ∀ t file, IsShot "clone-final-" file → w.fails t (.screenshot file false) = none) :
    Ceiling w (cloneStream w fuel req).st := by
  have h0 : Idle (St.init w) :=
    ⟨rfl, rfl, rfl, by simp [St.init], by simp [St.init]⟩
  refine cloneStream_frame w fuel req Idle Shot (fun _ => False) Shot (Failed w) (Ceiling w)
    (idle_apply w _ _ (idle_of_arrive w "" "" _ (Or.inl rfl)) h0)
    (ceiling_of_failed w _ (failed_of_idle w _ h0)) ?_ ?_ ?_ (fun s hs _ => hs) ?_
    (fun file => finish_away w file) ?_ (ceiling_of_failed w)
  · intro url _
    rw [generate_eq]
    refine Spec.seq (R := fun _ => Idle)
      ((Spec.of_logs (arrive_logs w url _) fun l s hl hs =>
        idle_apply w l s (idle_of_arrive w url _ l (Or.inr hl)) hs).conseq (fun _ h => h)
        (fun _ _ h => h) (failed_of_idle w)) fun _ => ?_
    exact (Spec.of_logs (watch_away w fuel _ hurl) fun l s hl hs =>
      idle_apply w l s (idle_of_watch w _ l hl) hs).conseq (fun _ h => h)
      (fun _ _ h => h) (failed_of_idle w)
  · exact (finalScreenshot_away w hurl hshot).conseq (fun _ h => h) (fun _ _ h => h)
      (fun _ h => h.elim)
  · intro s hs hr
    rw [hs.1] at hr
    cases hr
  · exact Spec.vacuous fun _ h => h
  · intro e
    exact (Spec.of_logs (catchBlock_logs w e) fun l s hl hs => failed_apply w l s hl hs).conseq
      (fun _ h => h) (fun _ _ h => ceiling_of_failed w _ h) (ceiling_of_failed w)
/-! ## Numerals, code units and the message of a snapshot -/

/-! ## The rendering of numbers -/

theorem digitChar_isDigit (k : Nat) (hk : k < 10) : (Nat.digitChar k).isDigit = true := by
  interval_cases k <;> decide

theorem digitChar_value (k : Nat) (hk : k < 10) : (Nat.digitChar k).toNat - 48 = k := by
  interval_cases k <;> decide

theorem toDigitsCore_digits : ∀ (fuel n : Nat) (ds : List Char),
    (∀ c ∈ ds, c.isDigit = true) → ∀ c ∈ Nat.toDigitsCore 10 fuel n ds, c.isDigit = true
  | 0, n, ds, h => by simpa [Nat.toDigitsCore] using h
  | fuel + 1, n, ds, h => by
    have hd : ∀ c ∈ Nat.digitChar (n % 10) :: ds, c.isDigit = true := by
      intro c hc
      rcases List.mem_cons.1 hc with rfl | hc
      · exact digitChar_isDigit _ (Nat.mod_lt _ (by decide))
      · exact h c hc
    simp only [Nat.toDigitsCore]
    split
    · exact hd
    · exact toDigitsCore_digits fuel _ _ hd

theorem toDigitsCore_ne_nil : ∀ (fuel n : Nat) (ds : List Char),
    ds ≠ [] ∨ 0 < fuel → Nat.toDigitsCore 10 fuel n ds ≠ []
  | 0, n, ds, h => by
    rcases h with h | h
    · simpa [Nat.toDigitsCore] using h
    · cases h
  | fuel + 1, n, ds, _ => by
    simp only [Nat.toDigitsCore]
    split
    · simp
    · exact toDigitsCore_ne_nil fuel _ _ (Or.inl (by simp))

theorem toDigitsCore_value : ∀ (fuel n : Nat) (ds : List Char), n < fuel →
    (Nat.toDigitsCore 10 fuel n ds).foldl (fun m c => 10 * m + (c.toNat - 48)) 0 =
      ds.foldl (fun m c => 10 * m + (c.toNat - 48)) n
  | 0, n, ds, h => by cases h
  | fuel + 1, n, ds, h => by
    simp only [Nat.toDigitsCore]
    split
    · next h0 =>
      have hn : n < 10 := by
        by_contra hc
        have : 0 < n / 10 := Nat.div_pos (by omega) (by decide)
        omega
      simp [List.foldl, Nat.mod_eq_of_lt hn, digitChar_value n hn]
    · next h0 =>
      have hlt : n / 10 < fuel := by
        have : n / 10 < n := Nat.div_lt_self (by
          by_contra hc
          have : n = 0 := by omega
          simp [this] at h0) (by decide)
        omega
      rw [toDigitsCore_value fuel (n / 10) _ hlt]
      simp only [List.foldl, digitChar_value _ (Nat.mod_lt n (by decide))]
      congr 1
      omega

theorem num_data (n : Nat) : (num n).data = Nat.toDigits 10 n := rfl

theorem num_digits (n : Nat) : ∀ c ∈ (num n).data, c.isDigit = true :=
  toDigitsCore_digits _ _ _ (by simp)

theorem num_ne_nil (n : Nat) : (num n).data ≠ [] :=
  toDigitsCore_ne_nil _ _ _ (Or.inr (Nat.succ_pos n))

/-- Reading back the rendering of a number gives the number. -/
theorem mathInt_num (n : Nat) : mathInt (num n).data = n := by
  rw [num_data, mathInt, Nat.toDigits, toDigitsCore_value _ _ _ (Nat.lt_succ_self n)]
  rfl

theorem num_injective {a b : Nat} (h : num a = num b) : a = b := by
  rw [← mathInt_num a, ← mathInt_num b, h]

/-! ## The message of a snapshot -/

theorem hasDigitPercent_cons (x : Char) {cs : List Char}
    (h : hasDigitPercent cs = true) : hasDigitPercent (x :: cs) = true := by
  cases cs with
  | nil => simp [hasDigitPercent] at h
  | cons y cs => simp [hasDigitPercent, h]

theorem hasDigitPercent_mid (d : Char) (hd : d.isDigit = true) (b : List Char) :
    ∀ a : List Char, hasDigitPercent (a ++ d :: '%' :: b) = true
  | [] => by simp [hasDigitPercent, hd]
  | x :: a => hasDigitPercent_cons x (hasDigitPercent_mid d hd b a)

theorem hasDigitPercent_iff : ∀ cs : List Char,
    hasDigitPercent cs = true ↔ ∃ a d b, cs = a ++ d :: '%' :: b ∧ d.isDigit = true
  | [] => by simp [hasDigitPercent]
  | [x] => by
    simp only [hasDigitPercent, Bool.false_eq_true, false_iff]
    rintro ⟨a, d, b, h, -⟩
    have := congrArg List.length h
    simp at this
    omega
  | x :: y :: cs => by
    constructor
    · intro h
      simp only [hasDigitPercent, Bool.or_eq_true, Bool.and_eq_true, beq_iff_eq] at h
      rcases h with ⟨hx, rfl⟩ | h
      · exact ⟨[], x, cs, rfl, hx⟩
      · obtain ⟨a, d, b, e, hd⟩ := (hasDigitPercent_iff (y :: cs)).1 h
        exact ⟨x :: a, d, b, by rw [e]; rfl, hd⟩
    · rintro ⟨a, d, b, e, hd⟩
      rw [e]
      exact hasDigitPercent_mid d hd b a

theorem hasDigitPercent_within {l1 l2 : List Char} (h : l1 <:+: l2)
    (h1 : hasDigitPercent l1 = true) : hasDigitPercent l2 = true := by
  obtain ⟨s, t, rfl⟩ := h
  obtain ⟨a, d, b, rfl, hd⟩ := (hasDigitPercent_iff l1).1 h1
  have := hasDigitPercent_mid d hd (b ++ t) (s ++ a)
  simpa using this

theorem trimChars_subtext (cs : List Char) : trimChars cs <:+: cs := by
  unfold trimChars
  have h1 : (cs.dropWhile isJsSpace) <:+: cs := (List.dropWhile_suffix _).isInfix
  have h2 : ((cs.dropWhile isJsSpace).reverse.dropWhile isJsSpace).reverse <:+:
      cs.dropWhile isJsSpace := by
    have := (List.dropWhile_suffix isJsSpace (l := (cs.dropWhile isJsSpace).reverse)).isInfix
    have := List.reverse_infix.2 this
    simpa using this
  exact h2.trans h1

/-! ## Code units -/

theorem char_range (c : Char) :
    c.toNat < 0xD800 ∨ (0xDFFF < c.toNat ∧ c.toNat < 0x110000) := c.valid

theorem char_eq_of_toNat {c d : Char} (h : c.toNat = d.toNat) : c = d := by
  apply Char.ext
  apply UInt32.ext
  exact h

theorem utf16_eq (s : String) : utf16 s = unitsList s.data := rfl

theorem unitsList_cons (c : Char) (cs : List Char) :
    unitsList (c :: cs) = unitsOf c ++ unitsList cs := by
  simp [unitsList]

theorem unitsList_append (a b : List Char) :
    unitsList (a ++ b) = unitsList a ++ unitsList b := by
  simp [unitsList]

/-- The code units of a character: one unit, the character itself and no surrogate, or a
high and a low surrogate. -/
theorem unitsOf_cases (c : Char) :
    (unitsOf c = [c.toNat] ∧ (c.toNat < 0xD800 ∨ (0xDFFF < c.toNat ∧ c.toNat < 0x10000))) ∨
      ∃ hi lo, unitsOf c = [hi, lo] ∧ 0xD800 ≤ hi ∧ hi < 0xDC00 ∧ 0xDC00 ≤ lo ∧ lo < 0xE000 ∧
        c.toNat = 0x10000 + (hi - 0xD800) * 0x400 + (lo - 0xDC00) := by
  have hr := char_range c
  unfold unitsOf
  by_cases h : c.toNat < 0x10000
  · rw [if_pos h]
    exact Or.inl ⟨rfl, by omega⟩
  · rw [if_neg h]
    exact Or.inr ⟨_, _, rfl, by omega, by omega, by omega, by omega, by omega⟩

theorem unitsList_injective : ∀ {a b : List Char}, unitsList a = unitsList b → a = b
  | [], [], _ => rfl
  | [], d :: b, h => by
    rw [unitsList_cons] at h
    rcases unitsOf_cases d with ⟨hd, -⟩ | ⟨hi, lo, hd, -⟩ <;> rw [hd] at h <;>
      simp [unitsList] at h
  | c :: a, [], h => by
    rw [unitsList_cons] at h
    rcases unitsOf_cases c with ⟨hc, -⟩ | ⟨hi, lo, hc, -⟩ <;> rw [hc] at h <;>
      simp [unitsList] at h
  | c :: a, d :: b, h => by
    rw [unitsList_cons, unitsList_cons] at h
    rcases unitsOf_cases c with ⟨hc, hc1⟩ | ⟨hi, lo, hc, h1, h2, h3, h4, h5⟩ <;>
      rcases unitsOf_cases d with ⟨hd, hd1⟩ | ⟨hi2, lo2, hd, k1, k2, k3, k4, k5⟩ <;>
      rw [hc, hd] at h <;>
      simp only [List.cons_append, List.nil_append, List.cons.injEq] at h
    · obtain ⟨h0, hrest⟩ := h
      rw [char_eq_of_toNat h0, unitsList_injective hrest]
    · omega
    · omega
    · obtain ⟨e1, e2, hrest⟩ := h
      have : c.toNat = d.toNat := by omega
      rw [char_eq_of_toNat this, unitsList_injective hrest]

theorem utf16_injective {s t : String} (h : utf16 s = utf16 t) : s = t :=
  String.ext (unitsList_injective h)

/-- A code unit below the surrogates is a character of the text. -/
theorem unitsList_low {u : Nat} (hu : u < 0xD800) :
    ∀ cs : List Char, u ∈ unitsList cs → ∃ c ∈ cs, c.toNat = u
  | [], h => by simp [unitsList] at h
  | c :: cs, h => by
    rw [unitsList_cons, List.mem_append] at h
    rcases h with h | h
    · rcases unitsOf_cases c with ⟨hc, -⟩ | ⟨hi, lo, hc, h1, h2, h3, h4, h5⟩ <;> rw [hc] at h
      · exact ⟨c, by simp, (List.mem_singleton.1 h).symm⟩
      · simp at h
        omega
    · obtain ⟨c1, hmem, h1⟩ := unitsList_low hu cs h
      exact ⟨c1, List.mem_cons_of_mem _ hmem, h1⟩

theorem unitsList_ne_nil {cs : List Char} (h : cs ≠ []) : unitsList cs ≠ [] := by
  cases cs with
  | nil => exact absurd rfl h
  | cons c cs =>
    rw [unitsList_cons]
    rcases unitsOf_cases c with ⟨hc, -⟩ | ⟨hi, lo, hc, -⟩ <;> rw [hc] <;> simp

theorem digit_units {d : Char} (hd : d.isDigit = true) :
    unitsOf d = [d.toNat] ∧ 48 ≤ d.toNat ∧ d.toNat ≤ 57 := by
  have h : 48 ≤ d.toNat ∧ d.toNat ≤ 57 := by
    simp only [Char.isDigit, Bool.and_eq_true, decide_eq_true_eq] at hd
    exact ⟨hd.1, hd.2⟩
  refine ⟨?_, h⟩
  unfold unitsOf
  rw [if_pos (by omega)]

theorem isDigit_of_toNat {c : Char} (h1 : 48 ≤ c.toNat) (h2 : c.toNat ≤ 57) :
    c.isDigit = true := by
  simp only [Char.isDigit, Bool.and_eq_true, decide_eq_true_eq]
  exact ⟨h1, h2⟩

/-- A digit followed by `%` in a text shows in its code units. -/
theorem digitPercent_of_has {cs : List Char} (h : hasDigitPercent cs = true) :
    DigitPercent (unitsList cs) := by
  obtain ⟨a, d, b, rfl, hd⟩ := (hasDigitPercent_iff cs).1 h
  obtain ⟨hu, h1, h2⟩ := digit_units hd
  refine ⟨d.toNat, h1, h2, unitsList a, unitsList b, ?_⟩
  rw [unitsList_append, unitsList_cons, unitsList_cons, hu]
  simp [unitsOf]

/-- A digit followed by `%` among the code units of a text is one in the text. -/
theorem has_of_units (d : Nat) (h1 : 48 ≤ d) (h2 : d ≤ 57) (post : List Nat) :
    ∀ (cs : List Char) (pre : List Nat), unitsList cs = pre ++ d :: 37 :: post →
      hasDigitPercent cs = true
  | [], pre, h => by simp [unitsList] at h
  | c :: cs, [], h => by
    rw [unitsList_cons] at h
    rcases unitsOf_cases c with ⟨hc, -⟩ | ⟨hi, lo, hc, k1, k2, k3, k4, k5⟩ <;> rw [hc] at h <;>
      simp only [List.cons_append, List.nil_append, List.cons.injEq] at h
    · obtain ⟨e1, hrest⟩ := h
      cases cs with
      | nil => simp [unitsList] at hrest
      | cons c2 cs2 =>
        rw [unitsList_cons] at hrest
        have hc2 : c2 = '%' := by
          rcases unitsOf_cases c2 with ⟨hc2, -⟩ | ⟨hi, lo, hc2, k1, k2, k3, k4, k5⟩ <;>
            rw [hc2] at hrest <;>
            simp only [List.cons_append, List.nil_append, List.cons.injEq] at hrest
          · exact char_eq_of_toNat hrest.1
          · omega
        subst hc2
        have hdig : c.isDigit = true := isDigit_of_toNat (by omega) (by omega)
        simp [hasDigitPercent, hdig]
    · omega
  | c :: cs, x :: pre, h => by
    rw [unitsList_cons] at h
    apply hasDigitPercent_cons
    rcases unitsOf_cases c with ⟨hc, -⟩ | ⟨hi, lo, hc, k1, k2, k3, k4, k5⟩ <;> rw [hc] at h <;>
      simp only [List.cons_append, List.nil_append, List.cons.injEq] at h
    · exact has_of_units d h1 h2 post cs pre h.2
    · cases pre with
      | nil =>
        simp only [List.nil_append, List.cons.injEq] at h
        omega
      | cons y pre2 =>
        simp only [List.cons_append, List.cons.injEq] at h
        exact has_of_units d h1 h2 post cs pre2 h.2.2

theorem has_of_digitPercent {cs : List Char} (h : DigitPercent (unitsList cs)) :
    hasDigitPercent cs = true := by
  obtain ⟨d, h1, h2, pre, post, e⟩ := h
  exact has_of_units d h1 h2 post cs pre (by rw [← e]; simp)

theorem DigitPercent.within {a b : List Nat} (h : DigitPercent a) (hab : a <:+: b) :
    DigitPercent b := by
  obtain ⟨d, h1, h2, hin⟩ := h
  exact ⟨d, h1, h2, hin.trans hab⟩

/-! ## Trimming keeps the percentage -/

theorem digit_not_space {c : Char} (hd : c.isDigit = true) : isJsSpace c = false := by
  have h : 48 ≤ c.toNat ∧ c.toNat ≤ 57 := by
    simp only [Char.isDigit, Bool.and_eq_true, decide_eq_true_eq] at hd
    exact ⟨hd.1, hd.2⟩
  obtain ⟨k, hk⟩ : ∃ k, c.toNat = k := ⟨_, rfl⟩
  rw [hk] at h
  obtain ⟨h1, h2⟩ := h
  interval_cases k
  · rw [char_eq_of_toNat (d := '0') hk]; decide
  · rw [char_eq_of_toNat (d := '1') hk]; decide
  · rw [char_eq_of_toNat (d := '2') hk]; decide
  · rw [char_eq_of_toNat (d := '3') hk]; decide
  · rw [char_eq_of_toNat (d := '4') hk]; decide
  · rw [char_eq_of_toNat (d := '5') hk]; decide
  · rw [char_eq_of_toNat (d := '6') hk]; decide
  · rw [char_eq_of_toNat (d := '7') hk]; decide
  · rw [char_eq_of_toNat (d := '8') hk]; decide
  · rw [char_eq_of_toNat (d := '9') hk]; decide

theorem space_not_digit {c : Char} (hs : isJsSpace c = true) : c.isDigit = false := by
  cases hd : c.isDigit with
  | false => rfl
  | true =>
    rw [digit_not_space hd] at hs
    cases hs

theorem digitsThenPercent_space {c : Char} (hs : isJsSpace c = true) (cs : List Char) :
    digitsThenPercent (c :: cs) = none := by
  simp [digitsThenPercent, List.takeWhile, List.dropWhile, space_not_digit hs]

theorem matchPercent_spaces : ∀ sp : List Char, (∀ c ∈ sp, isJsSpace c = true) →
    matchPercent sp = none
  | [], _ => rfl
  | c :: sp, h => by
    rw [matchPercent, digitsThenPercent_space (h c (by simp))]
    exact matchPercent_spaces sp fun x hx => h x (List.mem_cons_of_mem _ hx)

theorem matchPercent_dropSpaces : ∀ cs : List Char,
    matchPercent (cs.dropWhile isJsSpace) = matchPercent cs
  | [] => rfl
  | c :: cs => by
    cases hs : isJsSpace c with
    | false => simp [List.dropWhile, hs]
    | true =>
      rw [List.dropWhile_cons_of_pos hs, matchPercent_dropSpaces cs, matchPercent,
        digitsThenPercent_space hs]

/-- Spaces after a text change nothing to an attempt of the pattern at its head. -/
theorem digitsThenPercent_append (l sp : List Char) (hl : l ≠ [])
    (hsp : ∀ c ∈ sp, isJsSpace c = true) :
    digitsThenPercent (l ++ sp) = digitsThenPercent l := by
  have hdrop : sp.dropWhile Char.isDigit = sp := by
    cases sp with
    | nil => rfl
    | cons c sp => simp [List.dropWhile, space_not_digit (hsp c (by simp))]
  have htake : sp.takeWhile Char.isDigit = [] := by
    cases sp with
    | nil => rfl
    | cons c sp => simp [List.takeWhile, space_not_digit (hsp c (by simp))]
  by_cases hall : ∀ c ∈ l, c.isDigit = true
  · have h1 : (l ++ sp).takeWhile Char.isDigit = l := by
      rw [List.takeWhile_append_of_pos hall, htake, List.append_nil]
    have h2 : (l ++ sp).dropWhile Char.isDigit = sp := by
      rw [List.dropWhile_append_of_pos hall, hdrop]
    have h3 : l.takeWhile Char.isDigit = l := List.takeWhile_eq_self_iff.2 hall
    have h4 : l.dropWhile Char.isDigit = [] := List.dropWhile_eq_nil_iff.2 hall
    unfold digitsThenPercent
    rw [h1, h2, h3, h4]
    cases l with
    | nil => exact absurd rfl hl
    | cons d ds =>
      cases sp with
      | nil => rfl
      | cons c sp =>
        have hc : c ≠ '%' := by
          rintro rfl
          have := hsp '%' (by simp)
          revert this
          decide
        simp [hc]
  · have hex : ∃ c ∈ l, c.isDigit = false := by
      by_contra hn
      apply hall
      intro c hc
      cases hd : c.isDigit with
      | true => rfl
      | false => exact absurd ⟨c, hc, hd⟩ hn
    obtain ⟨c, hc, hcd⟩ := hex
    obtain ⟨a, b, rfl⟩ := List.append_of_mem hc
    clear hc
    -- cut `l` at its first character that is not a digit
    have key : ∀ (a : List Char) (r : List Char),
        (∃ x r2, (a.dropWhile Char.isDigit) = x :: r2) →
          (a ++ r).takeWhile Char.isDigit = a.takeWhile Char.isDigit ∧
          (a ++ r).dropWhile Char.isDigit = a.dropWhile Char.isDigit ++ r := by
      intro a
      induction a with
      | nil => rintro r ⟨x, r2, h⟩; cases h
      | cons y a ih =>
        intro r h
        cases hy : y.isDigit with
        | false => simp [List.takeWhile, List.dropWhile, hy]
        | true =>
          simp only [List.dropWhile_cons_of_pos hy] at h
          obtain ⟨i1, i2⟩ := ih r h
          simp [List.takeWhile, List.dropWhile, hy, i1, i2]
    have hne : ∃ x r2, ((a ++ c :: b).dropWhile Char.isDigit) = x :: r2 := by
      cases hd : (a ++ c :: b).dropWhile Char.isDigit with
      | nil =>
        have := List.dropWhile_eq_nil_iff.1 hd c (by simp)
        rw [hcd] at this
        cases this
      | cons x r2 => exact ⟨x, r2, rfl⟩
    obtain ⟨k1, k2⟩ := key (a ++ c :: b) sp hne
    obtain ⟨x, r2, hx⟩ := hne
    unfold digitsThenPercent
    rw [k1, k2, hx, List.cons_append]
    generalize List.takeWhile Char.isDigit (a ++ c :: b) = run
    cases run with
    | nil => rfl
    | cons d ds =>
      by_cases hp : x = '%'
      · subst hp
        rfl
      · simp [hp]

theorem matchPercent_append : ∀ (l sp : List Char), (∀ c ∈ sp, isJsSpace c = true) →
    matchPercent (l ++ sp) = matchPercent l
  | [], sp, h => by
    rw [List.nil_append, matchPercent_spaces sp h]
    rfl
  | c :: l, sp, h => by
    have h1 := digitsThenPercent_append (c :: l) sp (by simp) h
    rw [List.cons_append] at h1 ⊢
    rw [matchPercent, matchPercent, h1, matchPercent_append l sp h]

/-- A text is its trimmed text followed by white space, once its leading white space is
dropped. -/
theorem trimChars_tail (cs : List Char) :
    ∃ sp, (∀ c ∈ sp, isJsSpace c = true) ∧ cs.dropWhile isJsSpace = trimChars cs ++ sp := by
  refine ⟨((cs.dropWhile isJsSpace).reverse.takeWhile isJsSpace).reverse, ?_, ?_⟩
  · intro c hc
    exact List.mem_takeWhile_imp (List.mem_reverse.1 hc)
  · unfold trimChars
    rw [← List.reverse_append, List.takeWhile_append_dropWhile, List.reverse_reverse]

theorem matchPercent_trim (cs : List Char) : matchPercent (trimChars cs) = matchPercent cs := by
  obtain ⟨sp, hsp, h⟩ := trimChars_tail cs
  rw [← matchPercent_dropSpaces cs, h, matchPercent_append _ _ hsp]

/-! ## The characters of a rendered Number -/

theorem digit_ne_paren {c : Char} (h : c.isDigit = true) : c ≠ '(' := by
  rintro rfl
  revert h
  decide

theorem num_no_paren (n : Nat) : ∀ c ∈ (num n).data, c ≠ '(' :=
  fun c hc => digit_ne_paren (num_digits n c hc)

/-- The text of a Number in a template literal has no opening parenthesis. -/
theorem numberToString_no_paren (x : JsNumber) : ∀ c ∈ (numberToString x).data, c ≠ '(' := by
  intro c hc
  cases x with
  | infinity =>
    have : c ∈ "Infinity".data := hc
    simp at this
    rcases this with rfl | rfl | rfl | rfl | rfl | rfl | rfl | rfl <;> decide
  | finite n =>
    cases n with
    | zero =>
      have : c ∈ "0".data := hc
      simp at this
      subst this
      decide
    | succ m =>
      simp only [numberToString] at hc
      split at hc
      · simp only [String.data_append, List.mem_append] at hc
        rcases hc with hc | hc
        · exact num_no_paren _ c hc
        · rw [List.eq_of_mem_replicate hc]
          decide
      · split at hc
        · simp only [String.data_append, List.mem_append] at hc
          rcases hc with (hc | hc) | hc
          · exact num_no_paren _ c hc
          · simp at hc
            rcases hc with rfl | rfl <;> decide
          · exact num_no_paren _ c hc
        · simp only [String.data_append, List.mem_append] at hc
          rcases hc with (((hc | hc) | hc) | hc) | hc
          · exact num_no_paren _ c (List.mem_of_mem_take hc)
          · simp at hc
            subst hc
            decide
          · exact num_no_paren _ c (List.mem_of_mem_drop hc)
          · simp at hc
            rcases hc with rfl | rfl <;> decide
          · exact num_no_paren _ c hc

/-- The code units of the text of a Number hold no opening parenthesis. -/
theorem rendered_no_paren (x : JsNumber) : 40 ∉ utf16 (numberToString x) := by
  intro h
  obtain ⟨c, hc, hv⟩ := unitsList_low (by decide) _ h
  exact numberToString_no_paren x c hc (char_eq_of_toNat (d := '(') hv)

/-! ## The message of a snapshot -/

theorem has_of_matchPercent {cs ds : List Char} (h : matchPercent cs = some ds) :
    hasDigitPercent cs = true := by
  obtain ⟨pre, post, rfl, hne, hdig, -, -⟩ := matchPercent_some h
  rcases List.eq_nil_or_concat ds with h0 | ⟨init, last, rfl⟩
  · exact absurd h0 hne
  · have := hasDigitPercent_mid last (hdig last (by simp)) post (pre ++ init)
    simpa using this

/-- A result without percentage has no digit followed by `%` in its text. -/
theorem progressText_unknown {els : List String} {p : ProgressText}
    (h : progressText els = some p) (hp : p.percent = none) : ¬DigitPercent p.text := by
  unfold progressText at h
  split at h
  · next r hr =>
    cases h
    obtain ⟨text, -, ht⟩ := List.exists_of_findSome?_eq_some hr
    rw [Option.map_eq_some'] at ht
    obtain ⟨ds, -, rfl⟩ := ht
    cases hp
  · next hr =>
    obtain ⟨text, hmem, ht⟩ := List.exists_of_findSome?_eq_some h
    split at ht
    · cases ht
      intro hdp
      have h1 : DigitPercent (unitsList (trimChars text.data)) :=
        hdp.within (List.take_prefix 100 _).isInfix
      have h2 := hasDigitPercent_within (trimChars_subtext text.data) (has_of_digitPercent h1)
      obtain ⟨ds, hds⟩ := matchPercent_of_has h2
      have hnone := List.findSome?_eq_none_iff.1 hr text hmem
      rw [hds] at hnone
      simp at hnone
    · cases ht

/-- A result with a percentage: its text is the code units of a trimmed text in which
the pattern matches, and its percentage is `parseInt` of the digits matched there. -/
theorem progressText_known {els : List String} {p : ProgressText} {x : JsNumber}
    (h : progressText els = some p) (hx : p.percent = some x) :
    ∃ cs ds, p.text = unitsList cs ∧ matchPercent cs = some ds ∧ x = parseInt ds := by
  obtain ⟨text, -, ds, hds, hv, htext⟩ := progressText_source h hx
  exact ⟨trimChars text.data, ds, htext, by rw [matchPercent_trim, hds],
    by rw [hv, parseInt_eq_toDouble]⟩

theorem message_known (p : ProgressText) (x : JsNumber) (hx : p.percent = some x) :
    progressMessage p = (p.text ++ [32]) ++ 40 :: (utf16 (numberToString x) ++ [37, 41]) := by
  have h1 : utf16 (" (" ++ numberToString x ++ "%)") =
      [32, 40] ++ utf16 (numberToString x) ++ [37, 41] := by
    simp only [utf16_eq, String.data_append, unitsList_append]
    rfl
  simp only [progressMessage, hx, h1]
  simp

/-- The last opening parenthesis of a string cuts it in one way only. -/
theorem split_paren : ∀ {t1 t2 r1 r2 : List Nat}, 40 ∉ r1 → 40 ∉ r2 →
    t1 ++ 40 :: r1 = t2 ++ 40 :: r2 → t1 = t2 ∧ r1 = r2
  | [], [], r1, r2, _, _, h => by simpa using h
  | [], y :: t2, r1, r2, h1, _, h => by
    simp only [List.nil_append, List.cons_append, List.cons.injEq] at h
    exact absurd (by rw [h.2]; simp) h1
  | x :: t1, [], r1, r2, _, h2, h => by
    simp only [List.nil_append, List.cons_append, List.cons.injEq] at h
    exact absurd (by rw [← h.2]; simp) h2
  | x :: t1, y :: t2, r1, r2, h1, h2, h => by
    simp only [List.cons_append, List.cons.injEq] at h
    obtain ⟨e1, e2⟩ := split_paren h1 h2 h.2
    exact ⟨by rw [h.1, e1], e2⟩

theorem tail_no_paren (x : JsNumber) : 40 ∉ utf16 (numberToString x) ++ [37, 41] := by
  intro h
  rcases List.mem_append.1 h with h | h
  · exact rendered_no_paren x h
  · simp at h

/-- Two results of the extractor with the same message are the same result. -/
theorem message_injective {els1 els2 : List String} {p q : ProgressText}
    (hp : progressText els1 = some p) (hq : progressText els2 = some q)
    (h : progressMessage p = progressMessage q) : p = q := by
  cases hpp : p.percent with
  | some x =>
    obtain ⟨cs1, ds1, ht1, hm1, hx1⟩ := progressText_known hp hpp
    cases hqp : q.percent with
    | some y =>
      obtain ⟨cs2, ds2, ht2, hm2, hx2⟩ := progressText_known hq hqp
      rw [message_known p x hpp, message_known q y hqp] at h
      obtain ⟨e1, -⟩ := split_paren (tail_no_paren x) (tail_no_paren y) h
      have e2 : p.text = q.text := List.append_cancel_right e1
      have e3 : cs1 = cs2 := unitsList_injective (by rw [← ht1, ← ht2, e2])
      have e4 : x = y := by
        rw [e3, hm2] at hm1
        cases hm1
        rw [hx1, hx2]
      obtain ⟨pp, pt⟩ := p
      obtain ⟨qp, qt⟩ := q
      simp only at hpp hqp e2
      rw [hpp, hqp, e2, e4]
    | none =>
      exfalso
      apply progressText_unknown hq hqp
      have hm : progressMessage q = q.text := by simp [progressMessage, hqp]
      rw [← hm, ← h, message_known p x hpp, ht1]
      exact (digitPercent_of_has (has_of_matchPercent hm1)).within
        ⟨[], [32] ++ 40 :: (utf16 (numberToString x) ++ [37, 41]), by simp⟩
  | none =>
    cases hqp : q.percent with
    | some y =>
      obtain ⟨cs2, ds2, ht2, hm2, hx2⟩ := progressText_known hq hqp
      exfalso
      apply progressText_unknown hp hpp
      have hm : progressMessage p = p.text := by simp [progressMessage, hpp]
      rw [← hm, h, message_known q y hqp, ht2]
      exact (digitPercent_of_has (has_of_matchPercent hm2)).within
        ⟨[], [32] ++ 40 :: (utf16 (numberToString y) ++ [37, 41]), by simp⟩
    | none =>
      have e2 : p.text = q.text := by simpa [progressMessage, hpp, hqp] using h
      obtain ⟨pp, pt⟩ := p
      obtain ⟨qp, qt⟩ := q
      simp only at hpp hqp e2
      rw [hpp, hqp, e2]

/-- A text that holds one of the status texts is not blank. -/
theorem status_not_blank (text : String)
    (h : statusTexts.any (fun status => includes text status) = true) :
    trimChars text.data ≠ [] := by
  have key : ∀ (x y : Char) (mid : List Char), isJsSpace x = false → isJsSpace y = false →
      x :: (mid ++ [y]) <:+: text.data → trimChars text.data ≠ [] := by
    intro x y mid hx hy hin hnil
    have := trimChars_keeps x y mid text.data hx hy hin
    rw [hnil] at this
    simp at this
  simp only [statusTexts, List.any_cons, List.any_nil, Bool.or_false, Bool.or_eq_true] at h
  unfold includes at h
  simp only [includesChars_iff] at h
  rcases h with h | h | h | h
  · exact key 'C' 'n' "reating visual directio".data (by decide) (by decide) h
  · exact key 'S' 's' "canning page element".data (by decide) (by decide) h
  · exact key 'P' 'e' "roject structur".data (by decide) (by decide) h
  · exact key 'L' 'd' "et's buil".data (by decide) (by decide) h

/-- The message of an extractor result is never the empty string. -/
theorem message_not_empty {els : List String} {p : ProgressText}
    (h : progressText els = some p) : progressMessage p ≠ [] := by
  cases hp : p.percent with
  | some x =>
    rw [message_known p x hp]
    simp
  | none =>
    unfold progressText at h
    split at h
    · next r hr =>
      cases h
      obtain ⟨text, -, ht⟩ := List.exists_of_findSome?_eq_some hr
      rw [Option.map_eq_some'] at ht
      obtain ⟨ds, -, rfl⟩ := ht
      cases hp
    · obtain ⟨text, -, ht⟩ := List.exists_of_findSome?_eq_some h
      split at ht
      · next hs =>
        cases ht
        have h2 := unitsList_ne_nil (status_not_blank text hs)
        simp only [progressMessage, substring0, utf16_eq, jsTrim]
        cases hc : unitsList (trimChars text.data) with
        | nil => exact absurd hc h2
        | cons c cs => simp
      · cases ht

/-- What `reportProgress` does when the message is not the last one sent. -/
theorem reportProgress_fresh (p : ProgressText) (s : St)
    (h : progressMessage p ≠ s.lastProgress) :
    reportProgress p s =
      (.ret (), { s with lastProgress := progressMessage p,
                         events := s.events ++
                           [.progress (progressMessage p) (p.percent.getD (.finite 0)) 16],
                         history := s.history ++
                           [.sent (.progress (progressMessage p) (p.percent.getD (.finite 0))
                             16)] }) := by
  have hb : (progressMessage p != s.lastProgress) = true := by simpa using h
  simp [reportProgress, getSt, setSt, sendProgress, bind, M.bind, hb]

/-- The message alone does not determine a pair of a text and a percentage in general:
what the extractor guarantees of its texts is needed. -/
theorem message_clash :
    progressMessage ⟨none, utf16 "a (5%)"⟩ = progressMessage ⟨some (.finite 5), utf16 "a"⟩ := by
  decide

theorem lastReported_other (es : List Event) (e : Event) (h : e.isProgress = false) :
    lastReported (es ++ [e]) = lastReported es := by
  simp [lastReported, List.filter_append, List.filter, h]

theorem lastReported_progress (es : List Event) (e : Event) (h : e.isProgress = true) :
    lastReported (es ++ [e]) = some e := by
  simp [lastReported, List.filter_append, List.filter, h]

theorem core_notProgress (w : World) (url prompt : String) (e : Event)
    (hl : coreLog w url prompt (.emit e)) : e.isProgress = false := by
  cases e <;> try rfl
  simp [coreLog, generateLog, submitLog, loginLog, monitorLog, publishLog, loopLog,
    composeLog, generateOwnLog, loginOwnLog, pollLog, finalShotLog, settleLog, captureLog,
    attemptLog, extractLog, publishTailLog, lingerLog, catchLog] at hl

/-- Along a run `lastProgress` is the message of the last snapshot reported. -/
theorem cloneStream_remembered (w : World) (fuel : Nat) (req : Request) :
    Remembered w (cloneStream w fuel req).st := by
  refine cloneStream_inv w fuel req (Remembered w) ?_ ?_ (Or.inl ⟨rfl, rfl⟩)
  · intro l s hl hs
    cases l with
    | emit e =>
      have he := core_notProgress w _ _ e hl
      have h1 : (s.apply w (.emit e)).events = s.events ++ [e] := rfl
      have h2 : (s.apply w (.emit e)).lastProgress = s.lastProgress := rfl
      unfold Remembered
      rw [h1, h2, lastReported_other _ _ he]
      exact hs
    | report p =>
      obtain ⟨t, ht⟩ := core_report w _ _ _ hl
      by_cases hm : progressMessage p = s.lastProgress
      · have h1 : s.apply w (.report p) = s := by simp [St.apply, hm]
        rw [h1]
        exact hs
      · have hb : (progressMessage p != s.lastProgress) = true := by simpa using hm
        refine Or.inr ⟨p, t, ht, ?_, ?_⟩
        · simp [St.apply, hb]
        · simp only [St.apply, hb, if_true]
          exact lastReported_progress _ _ rfl
    | act a => exact hs
    | mark x => exact hs
    | browser => exact hs
    | previewReady => exact hs
    | previewScreenshot v => exact hs
    | publishedUrl v => exact hs
    | ended => exact hs
  · intro s file editUrl hs
    have h1 : (s.completed file editUrl).events = s.events ++ [Event.complete true
        ("/screenshots/" ++ file) s.previewScreenshot editUrl s.publishedUrl
        (completeMessage s.publishedUrl s.previewReady)] := rfl
    have h2 : (s.completed file editUrl).lastProgress = s.lastProgress := rfl
    unfold Remembered
    rw [h1, h2, lastReported_other s.events (Event.complete true
      ("/screenshots/" ++ file) s.previewScreenshot editUrl s.publishedUrl
      (completeMessage s.publishedUrl s.previewReady)) rfl]
    exact hs

/-- The percentage of a long digit run is rounded to the nearest double, and a template
literal renders a Number as `Number::toString` does: in full up to 21 digits, with the
shortest digits that give the Number back, in exponent form beyond, `Infinity` in the
end. -/
theorem rendering_examples :
    toDouble 9007199254740993 = .finite 9007199254740992 ∧
    numberToString (toDouble (2 ^ 60)) = "1152921504606847000" ∧
    numberToString (toDouble (10 ^ 21)) = "1e+21" ∧
    numberToString (toDouble (2 ^ 70)) = "1.1805916207174113e+21" ∧
    toDouble (10 ^ 309) = .infinity ∧
    numberToString .infinity = "Infinity" ∧
    (progressText ["1000000000000000000000%"]).map progressMessage =
      some (utf16 "1000000000000000000000% (1e+21%)") := by
  decide!

/-- The cut of a status text at 100 code units goes through a surrogate pair: of the
text `Let's build`, 88 letters and the character U+1F600, the snapshot keeps 100 code
units, the last of them the high surrogate 0xD83D alone. -/
theorem cut_example :
    (progressText [String.mk ("Let's build".data ++ List.replicate 88 'x' ++
        [Char.ofNat 0x1F600])]).map
      (fun p => (p.percent, p.text.length, p.text.getLast?)) =
      some (none, 100, some 0xD83D) := by
  decide!
/-! ## The bound on monitoring -/

theorem apply_clock (w : World) (s : St) (l : Label) : s.clock ≤ (s.apply w l).clock := by
  cases l <;> simp [St.apply, St.after]
  split <;> simp

theorem apply_polls (w : World) (s : St) (l : Label) (h : l ≠ .mark .poll) :
    (s.apply w l).polls = s.polls := by
  unfold St.polls
  rw [apply_trace]
  cases l with
  | act a => simp [Label.steps]
  | mark x =>
    have : x ≠ .poll := fun hx => h (by rw [hx])
    simp [Label.steps, List.count_singleton, this]
  | _ => simp [Label.steps]

/-- The guarded body of a poll returns, enters no poll, and does not turn back the
clock. -/
theorem guardedPoll_run (w : World) (startTime : Nat) (s : St) :
    ∃ left s3, tryCatchM (pollBody w startTime) (fun _ => pure false) s = (.ret left, s3) ∧
      s.clock ≤ s3.clock ∧ s3.polls = s.polls := by
  have hl : Logs w (pollLog w) false false
      (tryCatchM (pollBody w startTime) (fun _ => pure false)) :=
    Logs.tryCatchM ((pollBody_logs w startTime).mono (fun _ h => h) (fun _ => rfl) id)
      fun _ => Logs.pure false
  have hinv := hl.inv (fun s1 => s.clock ≤ s1.clock ∧ s1.polls = s.polls)
    (fun l s1 hl1 hs1 => ⟨le_trans hs1.1 (apply_clock w s1 l), by
      rw [apply_polls w s1 l (by rintro rfl; simp [pollLog] at hl1)]
      exact hs1.2⟩) s ⟨le_refl _, rfl⟩
  obtain ⟨-, ht, hp⟩ := hl.run s
  rcases hr : tryCatchM (pollBody w startTime) (fun _ => pure false) s with ⟨o, s3⟩
  rw [hr] at hinv ht hp
  cases o with
  | ret left => exact ⟨left, s3, rfl, hinv⟩
  | thrown e => exact Bool.noConfusion (ht rfl)
  | pending => exact Bool.noConfusion (hp rfl)

/-- When `k` more waits take the clock past `maxWaitTime`, the loop enters at most `k`
more polls, and it is not cut when there is fuel for more than `k` evaluations of its
condition. -/
theorem monitor_bound (w : World) (startTime : Nat) (hw : WaitAdvances w) :
    ∀ (fuel k : Nat) (s : St), maxWaitTime + startTime ≤ s.clock + 3000 * k →
      (monitor w startTime fuel s).2.polls ≤ s.polls + k ∧
        (k < fuel → (monitor w startTime fuel s).1.isPending = false)
  | 0, k, s, _ => ⟨Nat.le_add_right _ _, fun h => absurd h (Nat.not_lt_zero k)⟩
  | fuel + 1, k, s, hk => by
    have hnow : dateNow w s = (.ret (s.clock + w.elapsed s.tick .now), s.after w .now) := rfl
    have h1p : (s.after w .now).polls = s.polls := apply_polls w s (.act .now) (by simp)
    have h1c : (s.after w .now).clock = s.clock + w.elapsed s.tick .now := rfl
    unfold monitor
    rw [bind_run, hnow]
    dsimp only
    split
    · next hlt =>
      have hk1 : 1 ≤ k := by
        rcases Nat.eq_zero_or_pos k with h0 | h0
        · subst h0
          omega
        · exact h0
      have hmark : mark .poll (s.after w .now) =
          (.ret (), (s.after w .now).apply w (.mark .poll)) := rfl
      have h2p : ((s.after w .now).apply w (.mark .poll)).polls = s.polls + 1 := by
        unfold St.polls at h1p ⊢
        rw [apply_trace, List.count_append, h1p]
        rfl
      have h2c : ((s.after w .now).apply w (.mark .poll)).clock = (s.after w .now).clock := rfl
      obtain ⟨left, s3, hrun, h3c, h3p⟩ :=
        guardedPoll_run w startTime ((s.after w .now).apply w (.mark .poll))
      rw [bind_run, hmark]
      dsimp only
      rw [bind_run, hrun]
      dsimp only
      cases left with
      | true =>
        simp only [if_true, pure_run]
        exact ⟨by omega, fun _ => rfl⟩
      | false =>
        simp only [Bool.false_eq_true, if_false]
        rw [bind_run]
        have h4p : (s3.after w (.waitForTimeout 3000)).polls = s3.polls :=
          apply_polls w s3 (.act (.waitForTimeout 3000)) (by simp)
        have h4c : (s3.after w (.waitForTimeout 3000)).clock =
            s3.clock + w.elapsed s3.tick (.waitForTimeout 3000) := rfl
        unfold perform
        cases hf : w.fails s3.tick (.waitForTimeout 3000) with
        | some e =>
          dsimp only
          exact ⟨by omega, fun _ => rfl⟩
        | none =>
          dsimp only
          have hw3 := hw s3.tick
          have ih := monitor_bound w startTime hw fuel (k - 1)
            (s3.after w (.waitForTimeout 3000)) (by omega)
          exact ⟨by omega, fun hkf => ih.2 (by omega)⟩
    · simp only [pure_run]
      exact ⟨by omega, fun _ => rfl⟩

theorem Ends.ends_of_logs {α : Type} {w : World} {L : Label → Prop} {t : Bool} {m : M α}
    (h : Logs w L t false m) : Ends m := by
  intro s
  obtain ⟨-, -, hp⟩ := h.run s
  cases hv : (m s).1.isPending with
  | false => rfl
  | true => exact Bool.noConfusion (hp hv)

theorem Ends.ends_bind {α β : Type} {m : M α} {f : α → M β} (hm : Ends m)
    (hf : ∀ a, Ends (f a)) : Ends (m >>= f) := by
  intro s
  have h1 := hm s
  rw [bind_run]
  rcases hms : m s with ⟨o, s1⟩
  rw [hms] at h1
  cases o with
  | ret a => exact hf a s1
  | thrown e => rfl
  | pending => exact h1

theorem Ends.ends_try {α : Type} {m : M α} {h : JsError → M α} (hm : Ends m)
    (hh : ∀ e, Ends (h e)) : Ends (tryCatchM m h) := by
  intro s
  have h1 := hm s
  rw [tryCatchM_run]
  rcases hms : m s with ⟨o, s1⟩
  rw [hms] at h1
  cases o with
  | ret a => rfl
  | thrown e => exact hh e s1
  | pending => exact h1

theorem PollsWithin.polls_of_logs {α : Type} {w : World} {L : Label → Prop} {t p : Bool} {m : M α}
    (h : Logs w L t p m) (hL : ∀ l, L l → l ≠ .mark .poll) : PollsWithin 0 m := by
  intro s
  have := h.inv (fun s1 => s1.polls = s.polls)
    (fun l s1 hl hs => (apply_polls w s1 l (hL l hl)).trans hs) s rfl
  exact le_of_eq this

theorem PollsWithin.before {α β : Type} {c : Nat} {m : M α} {f : α → M β}
    (hm : PollsWithin 0 m) (hf : ∀ a, PollsWithin c (f a)) : PollsWithin c (m >>= f) := by
  intro s
  have h1 := hm s
  rw [bind_run]
  rcases hms : m s with ⟨o, s1⟩
  rw [hms] at h1
  cases o with
  | ret a => exact le_trans (hf a s1) (by simpa using h1)
  | thrown e => exact le_trans h1 (by simp)
  | pending => exact le_trans h1 (by simp)

theorem PollsWithin.after {α β : Type} {c : Nat} {m : M α} {f : α → M β}
    (hm : PollsWithin c m) (hf : ∀ a, PollsWithin 0 (f a)) : PollsWithin c (m >>= f) := by
  intro s
  have h1 := hm s
  rw [bind_run]
  rcases hms : m s with ⟨o, s1⟩
  rw [hms] at h1
  cases o with
  | ret a => exact le_trans (hf a s1) h1
  | thrown e => exact h1
  | pending => exact h1

theorem PollsWithin.handled {α : Type} {c : Nat} {m : M α} {h : JsError → M α}
    (hm : PollsWithin c m) (hh : ∀ e, PollsWithin 0 (h e)) : PollsWithin c (tryCatchM m h) := by
  intro s
  have h1 := hm s
  rw [tryCatchM_run]
  rcases hms : m s with ⟨o, s1⟩
  rw [hms] at h1
  cases o with
  | ret a => exact h1
  | thrown e => exact le_trans (hh e s1) h1
  | pending => exact h1

/-- The loop with its reading of `startTime`: at most 700 polls, and no cut when there
is fuel for 701 evaluations of the condition. -/
theorem timed_bound (w : World) (fuel : Nat) (hw : WaitAdvances w) :
    PollsWithin 700 (dateNow w >>= fun startTime => monitor w startTime fuel) ∧
      (700 < fuel → Ends (dateNow w >>= fun startTime => monitor w startTime fuel)) := by
  have key : ∀ s, ((dateNow w >>= fun startTime => monitor w startTime fuel) s).2.polls ≤
      s.polls + 700 ∧ (700 < fuel →
        ((dateNow w >>= fun startTime => monitor w startTime fuel) s).1.isPending = false) := by
    intro s
    have hnow : dateNow w s = (.ret (s.clock + w.elapsed s.tick .now), s.after w .now) := rfl
    have h1p : (s.after w .now).polls = s.polls := apply_polls w s (.act .now) (by simp)
    have h1c : (s.after w .now).clock = s.clock + w.elapsed s.tick .now := rfl
    have hb := monitor_bound w (s.clock + w.elapsed s.tick .now) hw fuel 700 (s.after w .now)
      (by rw [h1c]; unfold maxWaitTime; omega)
    rw [bind_run, hnow]
    dsimp only
    rw [h1p] at hb
    exact hb
  exact ⟨fun s => (key s).1, fun hf s => (key s).2 hf⟩

theorem watch_bound (w : World) (fuel : Nat) (prompt : String) (hw : WaitAdvances w) :
    PollsWithin 700 (watch w fuel prompt) ∧ (700 < fuel → Ends (watch w fuel prompt)) := by
  have hsend : Logs w (fun l => ∃ e, l = .emit e) false false
      (sendProgress (.status "Generation process started! Monitoring progress..."
        (if prompt != "" then 19 else 17) none)) := Logs.sendProgress ⟨_, rfl⟩
  have hwait : Logs w (fun l => ∃ a, l = .act a) true false
      (perform w (.waitForTimeout 5000)) := Logs.perform ⟨_, rfl⟩
  have hurl : Logs w (fun l => ∃ a, l = .act a) false false (pageUrl w) :=
    Logs.pageUrl ⟨_, rfl⟩
  have hact : ∀ l : Label, (∃ a, l = .act a) → l ≠ .mark .poll := by
    rintro l ⟨a, rfl⟩ h
    cases h
  have hemit : ∀ l : Label, (∃ e, l = .emit e) → l ≠ .mark .poll := by
    rintro l ⟨a, rfl⟩ h
    cases h
  obtain ⟨h1, h2⟩ := timed_bound w fuel hw
  unfold watch
  constructor
  · exact PollsWithin.before (PollsWithin.polls_of_logs hsend hemit) fun _ =>
      PollsWithin.before (PollsWithin.polls_of_logs hwait hact) fun _ =>
        PollsWithin.before (PollsWithin.polls_of_logs hurl hact) fun _ => h1
  · intro hf
    exact Ends.ends_bind (Ends.ends_of_logs hsend) fun _ =>
      Ends.ends_bind (Ends.ends_of_logs hwait) fun _ =>
        Ends.ends_bind (Ends.ends_of_logs hurl) fun _ => h2 hf

theorem arrive_noPoll (w : World) (url prompt : String) (l : Label)
    (hl : arriveLog w url prompt l) : l ≠ .mark .poll := by
  rintro rfl
  simp [arriveLog, generateOwnLog, submitLog, loginLog, composeLog, loginOwnLog] at hl

theorem conclude_noPoll (w : World) (l : Label) (hl : concludeLog w l) : l ≠ .mark .poll := by
  rintro rfl
  simp [concludeLog, finalShotLog, publishLog, loopLog, settleLog, captureLog, attemptLog,
    extractLog, publishTailLog, finishLog, lingerLog] at hl

theorem catch_noPoll (l : Label) (hl : catchLog l) : l ≠ .mark .poll := by
  rintro rfl
  simp [catchLog] at hl

theorem stream_bound (w : World) (fuel : Nat) (url prompt : String) (hw : WaitAdvances w) :
    PollsWithin 700 (stream w fuel url prompt) ∧
      (700 < fuel → Ends (stream w fuel url prompt)) := by
  obtain ⟨h1, h2⟩ := watch_bound w fuel prompt hw
  have hsend : Logs w (fun l => ∃ e, l = .emit e) false false
      (sendProgress (.status "Starting clone process..." 1 none)) := Logs.sendProgress ⟨_, rfl⟩
  have hemit : ∀ l : Label, (∃ e, l = .emit e) → l ≠ .mark .poll := by
    rintro l ⟨a, rfl⟩ h
    cases h
  unfold stream tryStatement
  rw [tryBlock_eq]
  constructor
  · refine PollsWithin.before (PollsWithin.polls_of_logs hsend hemit) fun _ => ?_
    refine PollsWithin.handled ?_ fun e =>
      PollsWithin.polls_of_logs (catchBlock_logs w e) catch_noPoll
    refine PollsWithin.before
      (PollsWithin.polls_of_logs (arrive_logs w url prompt) (arrive_noPoll w url prompt)) fun _ => ?_
    exact PollsWithin.after h1 fun _ =>
      PollsWithin.polls_of_logs (conclude_logs w) (conclude_noPoll w)
  · intro hf
    refine Ends.ends_bind (Ends.ends_of_logs hsend) fun _ => ?_
    refine Ends.ends_try ?_ fun e => Ends.ends_of_logs (catchBlock_logs w e)
    refine Ends.ends_bind (Ends.ends_of_logs (arrive_logs w url prompt)) fun _ => ?_
    exact Ends.ends_bind (h2 hf) fun _ => Ends.ends_of_logs (conclude_logs w)

/-- A run enters at most 700 polls when every end-of-poll wait takes its time, and the
handler returns when there is fuel for 701 evaluations of the loop condition. -/
theorem cloneStream_bound (w : World) (fuel : Nat) (req : Request) (hw : WaitAdvances w) :
    (cloneStream w fuel req).st.polls ≤ 700 ∧
      (700 < fuel → (cloneStream w fuel req).returned = true) := by
  rcases cloneStream_cases w fuel req with ⟨msg, e⟩ | ⟨u, hu, hp⟩
  · rw [e]
    exact ⟨by simp [St.polls, St.init], fun _ => rfl⟩
  · obtain ⟨h1, h2⟩ := stream_bound w fuel u (req.prompt.getD "") hw
    have hne : u ≠ "" := fun h => by rw [h, w.parse_empty] at hp; cases hp
    have hb := h1 (St.init w)
    have h0 : (St.init w).polls = 0 := rfl
    unfold cloneStream
    rw [hu]
    simp only [hne, hp, if_false, Bool.not_true]
    rcases hr : stream w fuel u (req.prompt.getD "") (St.init w) with ⟨o, s1⟩
    rw [hr] at hb
    cases o with
    | ret a => exact ⟨by simpa [h0] using hb, fun _ => rfl⟩
    | thrown e => exact ⟨by simpa [h0] using hb, fun _ => rfl⟩
    | pending =>
      refine ⟨by simpa [h0] using hb, fun hf => ?_⟩
      have := h2 hf (St.init w)
      rw [hr] at this
      cases this

/-- The body of a poll returns whichever of its calls reject: the evaluation of the
progress extractor and the intermediate screenshot are guarded. -/
theorem pollBody_returns (w : World) (startTime : Nat) (s : St) :
    (pollBody w startTime s).1.isThrown = false ∧
      (pollBody w startTime s).1.isPending = false := by
  obtain ⟨-, ht, hp⟩ := (pollBody_logs w startTime).run s
  constructor
  · cases hv : (pollBody w startTime s).1.isThrown with
    | false => rfl
    | true => exact Bool.noConfusion (ht hv)
  · cases hv : (pollBody w startTime s).1.isPending with
    | false => rfl
    | true => exact Bool.noConfusion (hp hv)

theorem waitAdvances_drift : WaitAdvances driftWorld := fun _ => Nat.le_refl _

theorem waitAdvances_rejecting : WaitAdvances rejectingWorld := fun _ => Nat.le_refl _

/-! ## Containment of a failure of the compose sub-sequence -/

/-- In a session with instructions that are not blank where only calls that nothing but
the compose sub-sequence makes reject (its clicks, fills and typed text, its waits of
300 ms and of one second), any number of them, no `error` event is sent, the compose
sub-sequence is started, the submit button is clicked, and every compose call of the
trace, before or after the login, has a click on the submit button after it. -/
theorem composeOnly_contained (w : World) (fuel : Nat) (req : Request) (url : String)
    (hu : req.url = some url) (hp : w.urlParses url = true)
    (hprompt : hasPrompt (req.prompt.getD "") = true)
    (hw : ∀ t a, w.fails t a ≠ none → a.isComposeOnly = true) :
    (∀ s, ∃ s1, tryCatchM (composePrompt w url (req.prompt.getD "")) (fun _ => pure ()) s =
      (.ret (), s1)) ∧
    (∀ e ∈ (cloneStream w fuel req).events, e.isError = false) ∧
    Step.act (.click .paragraphNth1) ∈ (cloneStream w fuel req).trace ∧
    Step.act (.click .submitButton) ∈ (cloneStream w fuel req).trace ∧
    SubmitFollows (cloneStream w fuel req).trace := by
  have hst := (cloneStream_st w fuel req url hu hp).1
  refine ⟨guarded_returns w url _, ?_, ?_⟩
  · show ∀ e ∈ (cloneStream w fuel req).st.events, _
    rw [hst]
    have h1 : stream w fuel url (req.prompt.getD "") (St.init w) =
        tryCatchM (tryBlock w fuel url (req.prompt.getD "")) (catchBlock w)
          ((St.init w).apply w (.emit (.status "Starting clone process..." 1 none))) := rfl
    rw [h1, tryCatchM_calm _ _ _ ((tryBlock_calm w fuel url _).run hw _)]
    refine (tryBlock_logs w fuel url (req.prompt.getD "")).all_events _
      (fun l e hl he => try_noError w url _ l e (Or.inr hl) he) _ ?_
    intro e he
    simp [St.apply, St.init] at he
    subst he
    rfl
  · obtain ⟨s2, h2⟩ := arrive_returns w url (req.prompt.getD "") hw
      ((St.init w).apply w (.emit (.status "Starting clone process..." 1 none)))
    have hs2 : Settled s2 := by
      have := (arrive_settled w url (req.prompt.getD "")).run
        ((St.init w).apply w (.emit (.status "Starting clone process..." 1 none)))
        (by intro pre x post h; simp [St.apply, St.init] at h)
      rw [h2] at this
      exact this
    have hstart : Step.act (.click .paragraphNth1) ∈ s2.trace := by
      have := (arrive_starts w url (req.prompt.getD "") hprompt).run
        ((St.init w).apply w (.emit (.status "Starting clone process..." 1 none))) trivial
      rw [h2] at this
      exact this
    obtain ⟨xs, hxs, -⟩ := (rest_logs w fuel (req.prompt.getD "")).trace_grows s2
    have hfin := (settled_logs (rest_logs w fuel (req.prompt.getD ""))
      (rest_noCompose w _)).run s2 hs2
    have hrun := stream_arrived w fuel url (req.prompt.getD "") (St.init w) s2 h2
    have hfinal : Settled (cloneStream w fuel req).st := by
      rw [hst, hrun]
      rcases hr : tryCatchM (watch w fuel (req.prompt.getD "") >>= fun _ => conclude w)
        (catchBlock w) s2 with ⟨o, s3⟩
      rw [hr] at hfin
      cases o <;> exact hfin
    refine ⟨?_, hfinal⟩
    show _ ∈ (cloneStream w fuel req).st.trace
    rw [hst, hrun, hxs]
    exact List.mem_append_left _ hstart

/-! ## Programs that do not throw once the failure is behind -/

theorem apply_tick (w : World) (s : St) (l : Label) : s.tick ≤ (s.apply w l).tick := by
  cases l <;> simp [St.apply, St.after]
  split <;> simp

theorem Logs.tick_grows {α : Type} {w : World} {L : Label → Prop} {t p : Bool} {m : M α}
    (h : Logs w L t p m) (T : Nat) (s : St) (hs : T ≤ s.tick) : T ≤ (m s).2.tick :=
  h.inv (fun s1 => T ≤ s1.tick) (fun l s1 _ h1 => le_trans h1 (apply_tick w s1 l)) s hs

theorem Past.past_pure {α : Type} {w : World} (a : α) : Past w (pure a : M α) :=
  ⟨fun _ _ _ hs => ⟨rfl, hs⟩⟩

theorem Past.past_bind {α β : Type} {w : World} {m : M α} {f : α → M β}
    (hm : Past w m) (hf : ∀ a, Past w (f a)) : Past w (m >>= f) := by
  constructor
  intro T s hT hs
  have h1 := hm.run T s hT hs
  rw [bind_run]
  rcases hms : m s with ⟨o, s1⟩
  rw [hms] at h1
  cases o with
  | ret a => exact (hf a).run T s1 hT h1.2
  | thrown e => exact h1
  | pending => exact ⟨rfl, h1.2⟩

theorem Past.past_try {α : Type} {w : World} {m : M α} {h : JsError → M α}
    (hm : Past w m) : Past w (tryCatchM m h) := by
  constructor
  intro T s hT hs
  have h1 := hm.run T s hT hs
  rw [tryCatchM_run]
  rcases hms : m s with ⟨o, s1⟩
  rw [hms] at h1
  cases o with
  | ret a => exact h1
  | thrown e => exact absurd h1.1 (by simp [Out.isThrown])
  | pending => exact ⟨rfl, h1.2⟩

theorem Past.past_ite {α : Type} {w : World} {c : Prop} [Decidable c] {a b : M α}
    (ha : c → Past w a) (hb : ¬c → Past w b) : Past w (if c then a else b) := by
  split
  · exact ha ‹_›
  · exact hb ‹_›

theorem Past.past_of_logs {α : Type} {w : World} {L : Label → Prop} {p : Bool} {m : M α}
    (h : Logs w L false p m) : Past w m := by
  constructor
  intro T s _ hs
  refine ⟨?_, h.tick_grows T s hs⟩
  cases ht : (m s).1.isThrown with
  | false => rfl
  | true => exact Bool.noConfusion ((h.run s).2.1 ht)

theorem Past.past_perform {w : World} {a : Action} : Past w (perform w a) :=
  ⟨fun T s hT hs => by
    simp only [CloneFlow.perform, hT s.tick a hs]
    exact ⟨rfl, Nat.le_succ_of_le hs⟩⟩

theorem Past.past_await {w : World} {a : Action} : Past w (await w a) :=
  ⟨fun T s hT hs => by
    simp only [CloneFlow.await, hT s.tick a hs]
    exact ⟨rfl, Nat.le_succ_of_le hs⟩⟩

theorem Past.past_sendProgress {w : World} (e : Event) : Past w (sendProgress e) :=
  ⟨fun _ _ _ hs => ⟨rfl, hs⟩⟩

theorem Past.past_setSt {w : World} (f : St → St) (hf : ∀ s, (f s).tick = s.tick) :
    Past w (setSt f) :=
  ⟨fun T s _ hs => ⟨rfl, by show T ≤ (f s).tick; rw [hf]; exact hs⟩⟩

theorem Past.past_getSt {w : World} : Past w getSt :=
  ⟨fun _ _ _ hs => ⟨rfl, hs⟩⟩

theorem Past.past_mark {w : World} (x : Step) : Past w (mark x) :=
  ⟨fun _ _ _ hs => ⟨rfl, hs⟩⟩

theorem Past.past_dateNow {w : World} : Past w (dateNow w) :=
  ⟨fun _ _ _ hs => ⟨rfl, Nat.le_succ_of_le hs⟩⟩

theorem Past.past_pageUrl {w : World} : Past w (pageUrl w) :=
  ⟨fun _ _ _ hs => ⟨rfl, Nat.le_succ_of_le hs⟩⟩

theorem Past.past_outOfFuel {α : Type} {w : World} : Past w (outOfFuel : M α) :=
  ⟨fun _ _ _ hs => ⟨rfl, hs⟩⟩

theorem guarded_past (w : World) (url prompt : String) :
    Past w (tryCatchM (composePrompt w url prompt) (fun _ => pure ())) :=
  Past.past_of_logs (Logs.tryCatchM (composePrompt_logs w url prompt) fun _ => Logs.pure ())

set_option maxRecDepth 4000 in
theorem loginBranch_past (w : World) (url prompt : String) :
    Past w (loginBranch w url prompt) := by
  unfold loginBranch isVisible
  repeat (first
    | exact guarded_past w url prompt
    | with_reducible (first
        | apply Past.past_try
        | apply Past.past_ite
        | apply Past.past_perform
        | apply Past.past_await
        | apply Past.past_sendProgress
        | apply Past.past_pure
        | apply Past.past_bind)
    | intro _
    | dsimp only)

theorem monitor_past (w : World) (startTime fuel : Nat) :
    Past w (monitor w startTime fuel) := by
  induction fuel with
  | zero => exact Past.past_outOfFuel
  | succ n ih =>
    unfold monitor
    repeat (first
      | exact ih
      | exact Past.past_of_logs (pollBody_logs w startTime)
      | with_reducible (first
          | apply Past.past_try
          | apply Past.past_ite
          | apply Past.past_perform
          | apply Past.past_dateNow
          | apply Past.past_mark
          | apply Past.past_pure
          | apply Past.past_bind)
      | intro _
      | dsimp only)

theorem watch_past (w : World) (fuel : Nat) (prompt : String) :
    Past w (watch w fuel prompt) := by
  unfold watch
  repeat (first
    | exact monitor_past w _ fuel
    | with_reducible (first
        | apply Past.past_perform
        | apply Past.past_sendProgress
        | apply Past.past_dateNow
        | apply Past.past_pageUrl
        | apply Past.past_bind)
    | intro _)

set_option maxRecDepth 4000 in
theorem conclude_past (w : World) : Past w (conclude w) := by
  unfold conclude finalScreenshot finish linger
  repeat (first
    | exact Past.past_of_logs (publishPhase_logs w)
    | exact Past.past_setSt _ (fun _ => rfl)
    | with_reducible (first
        | apply Past.past_ite
        | apply Past.past_perform
        | apply Past.past_sendProgress
        | apply Past.past_getSt
        | apply Past.past_dateNow
        | apply Past.past_pageUrl
        | apply Past.past_pure
        | apply Past.past_bind)
    | intro _
    | split
    | dsimp only)

theorem rest_past (w : World) (fuel : Nat) (prompt : String) :
    Past w (watch w fuel prompt >>= fun _ => conclude w) :=
  Past.past_bind (watch_past w fuel prompt) fun _ => conclude_past w

theorem quietFrom_of_only {w : World} {t0 : Nat} (h : FailsOnlyAt w t0) :
    QuietFrom w (t0 + 1) := by
  intro t a ht
  by_contra hf
  have := h t a hf
  omega

/-! ## A failure at one step of the compose sub-sequence -/

theorem Spec.of_past {α : Type} {w : World} {L : Label → Prop} {t : Bool} {m : M α}
    {t0 : Nat} (hq : Past w m) (hl : Logs w L t false m) (h : FailsOnlyAt w t0) :
    Spec (fun s => t0 < s.tick) m (fun _ s => t0 < s.tick) (fun _ => False) := by
  constructor
  intro s hs
  have h1 := hq.run (t0 + 1) s (quietFrom_of_only h) hs
  have h2 := (hl.run s).2.2
  rcases hms : m s with ⟨o, s1⟩
  rw [hms] at h1 h2
  cases o with
  | ret a => exact h1.2
  | thrown e => exact absurd h1.1 (by simp [Out.isThrown])
  | pending => exact Bool.noConfusion (h2 rfl)

/-- A call made at a tick other than `t0` returns. -/
theorem Spec.step_before {w : World} {a : Action} {t0 k : Nat} (h : FailsOnlyAt w t0)
    (hk : k ≠ t0) :
    Spec (fun s => s.tick = k) (perform w a) (fun _ s => s.tick = k + 1) (fun _ => False) :=
  Spec.perform_fail (fun s hs => by simp [St.after, hs])
    (fun s hs hf => hk (by rw [← hs]; exact h _ _ hf))

/-- A call made at tick `k` returns, or it throws and `k` is `t0`. -/
theorem Spec.step_around {w : World} {a : Action} {t0 k c : Nat} (h : FailsOnlyAt w t0)
    (hk : k < c) :
    Spec (fun s => s.tick = k) (perform w a) (fun _ s => s.tick = k + 1)
      (fun s => t0 < s.tick ∧ s.tick ≤ c) :=
  Spec.perform_fail (fun s hs => by simp [St.after, hs])
    (fun s hs hf => by
      have := h _ _ hf
      simp only [St.after]
      omega)

theorem Spec.keep_setSt {f : St → St} {k : Nat} {X : St → Prop}
    (hf : ∀ s, (f s).tick = s.tick) :
    Spec (fun s => s.tick = k) (setSt f) (fun _ s => s.tick = k) X :=
  Spec.of_run () f (fun _ => rfl) fun s hs => by rw [hf]; exact hs

theorem Spec.keep_send {e : Event} {k : Nat} {X : St → Prop} :
    Spec (fun s => s.tick = k) (sendProgress e) (fun _ s => s.tick = k) X :=
  Spec.of_run () _ (fun _ => rfl) fun _ hs => hs

/-- The compose sub-sequence started at tick `c`: it ends at tick `c + 11`, or it throws
at tick `t0`. -/
theorem compose_ticks (w : World) (url prompt : String) {t0 : Nat} (c : Nat)
    (h : FailsOnlyAt w t0) :
    Spec (fun s => s.tick = c) (composePrompt w url prompt) (fun _ s => s.tick = c + 11)
      (fun s => t0 < s.tick ∧ s.tick ≤ c + 11) := by
  unfold composePrompt
  iterate 10
    refine Spec.seq (Spec.step_around h (by omega)) fun _ => ?_
  exact Spec.step_around h (by omega)

theorem guarded_logs (w : World) (url prompt : String) :
    Logs w (composeLog url prompt) false false
      (tryCatchM (composePrompt w url prompt) (fun _ => pure ())) :=
  Logs.tryCatchM (composePrompt_logs w url prompt) fun _ => Logs.pure ()

/-- The guarded compose sub-sequence started at a tick from which `t0` is one of its
eleven steps: it returns, past `t0`. -/
theorem guarded_at (w : World) (url prompt : String) {t0 : Nat} (c : Nat)
    (h : FailsOnlyAt w t0) (h1 : t0 ≤ c + 10) :
    Spec (fun s => s.tick = c) (tryCatchM (composePrompt w url prompt) (fun _ => pure ()))
      (fun _ s => t0 < s.tick) (fun _ => False) := by
  refine Spec.total (X := fun s => t0 < s.tick) ?_ (guarded_logs w url prompt)
  refine Spec.handle (Y := fun s => t0 < s.tick ∧ s.tick ≤ c + 11)
    ((compose_ticks w url prompt c h).conseq (fun _ hs => hs)
      (fun _ s hs => by show t0 < s.tick; omega) (fun _ hs => hs))
    (fun _ => Spec.of_pure fun s hs => hs.1) (fun _ hs => hs.1)

/-- The guarded compose sub-sequence when all its steps are before `t0`: it ends eleven
ticks later. -/
theorem guarded_before (w : World) (url prompt : String) {t0 : Nat} (c : Nat)
    (h : FailsOnlyAt w t0) (h1 : c + 10 < t0) :
    Spec (fun s => s.tick = c) (tryCatchM (composePrompt w url prompt) (fun _ => pure ()))
      (fun _ s => s.tick = c + 11) (fun _ => False) := by
  refine Spec.handle (Y := fun _ => False)
    ((compose_ticks w url prompt c h).conseq (fun _ hs => hs) (fun _ _ hs => hs)
      (fun s hs => by omega))
    (fun _ => Spec.vacuous fun _ hs => hs) (fun _ hs => hs)

theorem perform_past (w : World) (a : Action) {t0 : Nat} (h : FailsOnlyAt w t0) :
    Spec (fun s => t0 < s.tick) (perform w a) (fun _ s => t0 < s.tick) (fun _ => False) :=
  Spec.of_past Past.past_perform (Logs.perform (L := fun _ => True) trivial) h

theorem send_past (w : World) (e : Event) {t0 : Nat} (h : FailsOnlyAt w t0) :
    Spec (fun s => t0 < s.tick) (sendProgress e) (fun _ s => t0 < s.tick) (fun _ => False) :=
  Spec.of_past (Past.past_sendProgress e) (Logs.sendProgress (L := fun _ => True) (t := false) trivial) h

/-- With a failure only at a step of the compose sub-sequence before the login, the
handler gets through `arrive`, past the failure. -/
theorem arrive_first (w : World) (url prompt : String) {t0 : Nat}
    (hprompt : hasPrompt prompt = true) (h : FailsOnlyAt w t0) (h1 : 5 ≤ t0) (h2 : t0 ≤ 15) :
    Spec (fun s => s.tick = 0) (arrive w url prompt) (fun _ s => t0 < s.tick)
      (fun _ => False) := by
  unfold arrive
  refine Spec.seq (Spec.step_before h (by omega)) fun _ => ?_
  refine Spec.seq (Spec.keep_setSt fun _ => rfl) fun _ => ?_
  iterate 4
    refine Spec.seq (Spec.step_before h (by omega)) fun _ => ?_
  refine Spec.seq (R := fun _ s => t0 < s.tick) ?_ fun _ =>
    Spec.of_past (loginBranch_past w url prompt) (loginBranch_logs w url prompt) h
  unfold submitFirst
  dsimp only
  rw [if_pos hprompt]
  refine Spec.seq Spec.keep_send fun _ => ?_
  refine Spec.seq (guarded_at w url prompt _ h (by omega)) fun _ => ?_
  refine Spec.seq (perform_past w _ h) fun _ => ?_
  exact perform_past w _ h

/-- The check of the `Log in` button made at tick 18, which is not `t0`. -/
theorem loginCheck_shown (w : World) {t0 : Nat} (h : FailsOnlyAt w t0) (h1 : 18 ≠ t0)
    (hvis : w.visible 18 .loginButton = true) :
    Spec (fun s => s.tick = 18) (tryCatchM (isVisible w .loginButton) (fun _ => pure false))
      (fun b s => b = true ∧ s.tick = 19) (fun _ => False) := by
  constructor
  intro s hs
  have hf : w.fails s.tick (.isVisible .loginButton) = none := by
    by_contra hne
    exact h1 (by rw [← hs]; exact h _ _ hne)
  rw [hs] at hf
  simp only [tryCatchM_run, isVisible, bind_run, await, hf, pure_run, Out.post, St.after, hs,
    hvis, and_self]

/-- With a failure only at a step of the compose sub-sequence after the login, the
handler gets through `arrive`, past the failure. -/
theorem arrive_second (w : World) (url prompt : String) {t0 : Nat}
    (hprompt : hasPrompt prompt = true) (h : FailsOnlyAt w t0) (h1 : 29 ≤ t0) (h2 : t0 ≤ 39)
    (hvis : w.visible 18 .loginButton = true) :
    Spec (fun s => s.tick = 0) (arrive w url prompt) (fun _ s => t0 < s.tick)
      (fun _ => False) := by
  unfold arrive
  refine Spec.seq (Spec.step_before h (by omega)) fun _ => ?_
  refine Spec.seq (Spec.keep_setSt fun _ => rfl) fun _ => ?_
  iterate 4
    refine Spec.seq (Spec.step_before h (by omega)) fun _ => ?_
  refine Spec.seq (R := fun _ s => s.tick = 18) ?_ fun _ => ?_
  · unfold submitFirst
    dsimp only
    rw [if_pos hprompt]
    refine Spec.seq Spec.keep_send fun _ => ?_
    refine Spec.seq (guarded_before w url prompt _ h (by omega)) fun _ => ?_
    refine Spec.seq (Spec.step_before h (by omega)) fun _ => ?_
    exact Spec.step_before h (by omega)
  · unfold loginBranch
    refine Spec.seq (loginCheck_shown w h (by omega) hvis) fun b => ?_
    cases b with
    | false => exact Spec.vacuous fun _ hs => Bool.noConfusion hs.1
    | true =>
      simp only [if_true]
      refine Spec.seq ((Spec.step_before h (by omega)).conseq (fun _ hs => hs.2)
        (fun _ _ hs => hs) (fun _ hs => hs)) fun _ => ?_
      iterate 9
        refine Spec.seq (Spec.step_before h (by omega)) fun _ => ?_
      dsimp only
      rw [if_pos hprompt]
      refine Spec.seq (guarded_at w url prompt _ h (by omega)) fun _ => ?_
      refine Spec.seq (send_past w _ h) fun _ => ?_
      refine Spec.seq (perform_past w _ h) fun _ => ?_
      exact perform_past w _ h

/-- With a failure only at one step of the compose sub-sequence, the handler gets through
`arrive`, and nothing throws after it. -/
theorem contained_run (w : World) (fuel : Nat) (url prompt : String) (t0 : Nat)
    (hprompt : hasPrompt prompt = true) (hfail : FailsOnlyAt w t0)
    (hstep : (5 ≤ t0 ∧ t0 ≤ 15) ∨
      (29 ≤ t0 ∧ t0 ≤ 39 ∧ w.visible 18 .loginButton = true)) :
    ∃ s2, arrive w url prompt
        ((St.init w).apply w (.emit (.status "Starting clone process..." 1 none))) =
          (.ret (), s2) ∧
      (tryBlock w fuel url prompt
        ((St.init w).apply w (.emit (.status "Starting clone process..." 1 none)))).1.isThrown =
          false := by
  have harr : Spec (fun s => s.tick = 0) (arrive w url prompt) (fun _ s => t0 < s.tick)
      (fun _ => False) := by
    rcases hstep with ⟨h1, h2⟩ | ⟨h1, h2, hvis⟩
    · exact arrive_first w url prompt hprompt hfail h1 h2
    · exact arrive_second w url prompt hprompt hfail h1 h2 hvis
  have hrun := harr.run
    ((St.init w).apply w (.emit (.status "Starting clone process..." 1 none))) rfl
  rcases harrive : arrive w url prompt
    ((St.init w).apply w (.emit (.status "Starting clone process..." 1 none))) with ⟨o, s2⟩
  rw [harrive] at hrun
  cases o with
  | thrown e => exact hrun.elim
  | pending => exact hrun.elim
  | ret a =>
    refine ⟨s2, rfl, ?_⟩
    have hrest := ((rest_past w fuel prompt).run (t0 + 1) s2 (quietFrom_of_only hfail) hrun).1
    rw [tryBlock_eq, bind_run, harrive]
    exact hrest

/-! ## The claims -/

/-- C1, at a failing input.  The claim: every run emits exactly one terminal event
(`complete` or `error`) and it is the last event, also when the idle wait or the close
after `complete` fails.  The code: in a run where everything succeeds and
`browser.close()` rejects, the `complete` event is followed by an `error` event. -/
theorem C1_error_after_complete :
    (cloneStream closeFailsWorld 1 plainRequest).events.filter Event.isTerminal =
      [.complete true "/screenshots/clone-final-1014.png" (some "/screenshots/preview-1021.png")
          "https://dev.animaapp.com/chat/1" (some "https://site.dev.animaapp.io")
          "Landing page generated and published successfully!",
        .error "Failed to clone website: Target closed" "at close"] := by
  decide!

/-- C2, at a failing input.  The claim: the target URL is filled into the link field
before the first click on submit, with or without instructions.  The code: without
instructions the submit button is clicked and the link field is never filled. -/
theorem C2_submit_without_url :
    Step.act (.click .submitButton) ∈ (cloneStream happyWorld 1 plainRequest).trace ∧
      (cloneStream happyWorld 1 plainRequest).trace.filter Step.isLinkFill = [] := by
  decide!

/-- C3.  A request whose `url` is missing or does not parse is answered with status 400
and the handler returns with no event written and no call made (no browser is
launched); a request whose `url` parses gets an event stream whose first event is the
initial status. -/
theorem C3_validation (w : World) (fuel : Nat) (req : Request) :
    ((req.url = none ∨ ∃ u, req.url = some u ∧ w.urlParses u = false) →
      (∃ msg, (cloneStream w fuel req).reply = .json 400 msg) ∧
        (cloneStream w fuel req).returned = true ∧
        (cloneStream w fuel req).events = [] ∧ (cloneStream w fuel req).trace = []) ∧
    (∀ u, req.url = some u → w.urlParses u = true →
      (cloneStream w fuel req).reply = .eventStream ∧
        ∃ rest, (cloneStream w fuel req).events =
          .status "Starting clone process..." 1 none :: rest) := by
  constructor
  · intro h
    obtain ⟨msg, e⟩ := cloneStream_rejected w fuel req h
    rw [e]
    exact ⟨⟨msg, rfl⟩, rfl, rfl, rfl⟩
  · intro u hu hp
    obtain ⟨e1, e2⟩ := cloneStream_st w fuel req u hu hp
    refine ⟨e2, ?_⟩
    have hs : (stream w fuel u (req.prompt.getD "") (St.init w)).2 =
        (tryStatement w fuel u (req.prompt.getD "")
          ((St.init w).apply w (.emit (.status "Starting clone process..." 1 none)))).2 := rfl
    obtain ⟨es, hes⟩ := (tryStatement_logs w fuel u (req.prompt.getD "")).events_grow
      ((St.init w).apply w (.emit (.status "Starting clone process..." 1 none)))
    refine ⟨es, ?_⟩
    show (cloneStream w fuel req).st.events = _
    rw [e1, hs, hes]
    rfl

/-- C3 at two requests: one without `url`, one for `https://example.com`. -/
theorem C3_validation_witness :
    ((∃ msg, (cloneStream happyWorld 1 ⟨none, none⟩).reply = .json 400 msg) ∧
        (cloneStream happyWorld 1 ⟨none, none⟩).returned = true ∧
        (cloneStream happyWorld 1 ⟨none, none⟩).events = [] ∧
        (cloneStream happyWorld 1 ⟨none, none⟩).trace = []) ∧
      ((cloneStream happyWorld 1 plainRequest).reply = .eventStream ∧
        ∃ rest, (cloneStream happyWorld 1 plainRequest).events =
          .status "Starting clone process..." 1 none :: rest) :=
  ⟨(C3_validation happyWorld 1 ⟨none, none⟩).1 (Or.inl rfl),
    (C3_validation happyWorld 1 plainRequest).2 "https://example.com" rfl (by decide)⟩

/-- C4.  In every run the body of the publish loop is entered at most 2 times, and
once an address has been extracted (from the styled span or by the full-document scan)
the body is not entered again and no publish button is clicked. -/
theorem C4_publish_loop_bounded (w : World) (fuel : Nat) (req : Request) :
    (cloneStream w fuel req).trace.countP Step.isAttemptMark ≤ 2 ∧
      ∀ pre t post, (cloneStream w fuel req).trace = pre ++ .extracted t :: post →
        ∀ x ∈ post, x.isAttemptMark = false ∧ x.isPublishClick = false :=
  (cloneStream_finished w fuel req).1

/-- C4 at a run that publishes at the first attempt: the extraction is entry 35 of the
trace. -/
theorem C4_publish_loop_bounded_witness :
    ∀ x ∈ (cloneStream happyWorld 1 plainRequest).trace.drop 36,
      x.isAttemptMark = false ∧ x.isPublishClick = false :=
  (C4_publish_loop_bounded happyWorld 1 plainRequest).2
    ((cloneStream happyWorld 1 plainRequest).trace.take 35) " site.dev.animaapp.io "
    ((cloneStream happyWorld 1 plainRequest).trace.drop 36) (by decide!)

/-- C5.  Among the `progress` events of a run, no two neighbours carry the same
`(message, progress)` pair; and a report whose message equals `lastProgress`, the
message of the last `progress` event sent, writes no event. -/
theorem C5_no_duplicate_progress (w : World) (fuel : Nat) (req : Request) :
    List.Chain' (fun a b => a ≠ b) (progressPairs (cloneStream w fuel req).events) ∧
      ∀ (p : ProgressText) (s : St), progressMessage p = s.lastProgress →
        (reportProgress p s).2.events = s.events := by
  constructor
  · show List.Chain' _ (progressPairs (cloneStream w fuel req).st.events)
    rcases cloneStream_cases w fuel req with ⟨msg, e⟩ | ⟨u, hu, hp⟩
    · rw [e]
      exact List.chain'_nil
    · rw [(cloneStream_st w fuel req u hu hp).1]
      have h0 : Deduped (St.init w) :=
        ⟨List.chain'_nil, by simp [St.init, progressPairs]⟩
      exact ((stream_logs w fuel u (req.prompt.getD "")).inv Deduped
        (fun l s hl hs => deduped_apply w u _ l s hl hs) _ h0).1
  · intro p s h
    simp [reportProgress, getSt, bind_run, h]
    rfl

/-- C5 at a repeated report: the page shows `42%` at two polls in a row and one
`progress` event is sent. -/
theorem C5_no_duplicate_progress_witness :
    (reportProgress ⟨some (.finite 42), utf16 "42%"⟩
        (reportProgress ⟨some (.finite 42), utf16 "42%"⟩ (St.init happyWorld)).2).2.events =
      (reportProgress ⟨some (.finite 42), utf16 "42%"⟩ (St.init happyWorld)).2.events :=
  (C5_no_duplicate_progress happyWorld 1 plainRequest).2 ⟨some (.finite 42), utf16 "42%"⟩
    (reportProgress ⟨some (.finite 42), utf16 "42%"⟩ (St.init happyWorld)).2 (by decide!)

/-- C6.  When the instructions are absent, empty or blank, no call of the
compose-instructions sub-sequence is made, neither before the first submission nor
after a login, and no status `Adding custom instructions...` is emitted. -/
theorem C6_no_compose_without_instructions (w : World) (fuel : Nat) (req : Request)
    (h : req.prompt = none ∨ ∃ p, req.prompt = some p ∧ jsTrim p = "") :
    (∀ x ∈ (cloneStream w fuel req).trace, x.isCompose = false) ∧
      ∀ step progress,
        Event.status "Adding custom instructions..." step progress ∉
          (cloneStream w fuel req).events := by
  have hprompt : hasPrompt (req.prompt.getD "") = false := by
    rcases h with h | ⟨p, h, hp⟩
    · rw [h]
      rfl
    · rw [h]
      simp [hasPrompt, hp]
  have key : (∀ x ∈ (cloneStream w fuel req).st.trace, x.isCompose = false) ∧
      ∀ e ∈ (cloneStream w fuel req).st.events, ∀ m step progress,
        e = Event.status m step progress → m ≠ "Adding custom instructions..." := by
    rcases cloneStream_cases w fuel req with ⟨msg, e⟩ | ⟨u, hu, hp⟩
    · rw [e]
      simp [St.init]
    · rw [(cloneStream_st w fuel req u hu hp).1]
      have hlogs := stream_logs w fuel u (req.prompt.getD "")
      constructor
      · refine hlogs.all_trace _ (fun l hl x hx => ?_) _ (by simp [St.init])
        have hn := stream_noCompose w u _ hprompt l hl
        cases l <;> simp [Label.steps] at hx <;> subst hx <;> exact hn
      · refine hlogs.all_events _ (fun l e hl he m step progress hm => ?_) _
          (by simp [St.init])
        have hn := stream_noCompose w u _ hprompt l hl
        cases l <;> simp [Label.emits] at he <;> subst he
        · subst hm
          exact hn
        · cases hm
  exact ⟨key.1, fun step progress hx => key.2 _ hx _ step progress rfl rfl⟩

/-- C6 at a request without instructions. -/
theorem C6_no_compose_without_instructions_witness :
    (∀ x ∈ (cloneStream happyWorld 1 plainRequest).trace, x.isCompose = false) ∧
      ∀ step progress,
        Event.status "Adding custom instructions..." step progress ∉
          (cloneStream happyWorld 1 plainRequest).events :=
  C6_no_compose_without_instructions happyWorld 1 plainRequest (Or.inl rfl)

/-- C7.  Every `complete` event has `success` true and a `screenshot` of the form
`/screenshots/clone-final-<epoch-millis>.png`, whatever happened to publishing. -/
theorem C7_complete_screenshot (w : World) (fuel : Nat) (req : Request) (e : Event)
    (he : e ∈ (cloneStream w fuel req).events) (hc : e.isComplete = true) :
    ∃ (n : Nat) (preview : Option String) (editUrl : String) (published : Option String)
      (message : String),
      e = .complete true ("/screenshots/clone-final-" ++ num n ++ ".png") preview editUrl
        published message := by
  have key : ∀ x ∈ (cloneStream w fuel req).st.events, x.goodComplete := by
    rcases cloneStream_cases w fuel req with ⟨msg, e⟩ | ⟨u, hu, hp⟩
    · rw [e]
      simp [St.init]
    · rw [(cloneStream_st w fuel req u hu hp).1]
      refine (stream_logs w fuel u (req.prompt.getD "")).all_events _
        (fun l e hl he => ?_) _ (by simp [St.init])
      cases l <;> simp [Label.emits] at he <;> subst he
      · exact stream_goodComplete w u _ _ hl
      · trivial
  have hg := key e he
  cases e with
  | complete success screenshot preview editUrl published message =>
    obtain ⟨h1, n, h2⟩ := hg
    exact ⟨n, preview, editUrl, published, message, by rw [h1, h2]⟩
  | _ => cases hc

/-- C7 at a run that publishes. -/
theorem C7_complete_screenshot_witness :
    ∃ (n : Nat) (preview : Option String) (editUrl : String) (published : Option String)
      (message : String),
      Event.complete true "/screenshots/clone-final-1014.png"
          (some "/screenshots/preview-1021.png") "https://dev.animaapp.com/chat/1"
          (some "https://site.dev.animaapp.io")
          "Landing page generated and published successfully!" =
        .complete true ("/screenshots/clone-final-" ++ num n ++ ".png") preview editUrl
          published message :=
  C7_complete_screenshot happyWorld 1 plainRequest _ (by decide!) rfl

/-- C8, at a failing input.  The claim: a failure of the final screenshot is swallowed
and the session still emits `complete`.  The code: when the capture of
`clone-final-*.png` (line 348) rejects, the only terminal event is an `error`. -/
theorem C8_final_screenshot_failure_is_fatal :
    (cloneStream finalShotFailsWorld 1 plainRequest).events.filter Event.isTerminal =
      [.error "Failed to clone website: screenshot failed" "at screenshot"] := by
  decide!

/-- C9.  When a publish attempt extracts the address text `t` (which happens only after
the result page was reached and the preview captured), the run has one `complete`
event, with `success` true, `publishedUrl` equal to `https://` followed by the trimmed
`t`, a `previewScreenshot` that is not null, and the message of a published page. -/
theorem C9_published_complete (w : World) (fuel : Nat) (req : Request) (t : String)
    (h : Step.extracted t ∈ (cloneStream w fuel req).trace) :
    ∃ screenshot preview editUrl,
      Event.complete true screenshot (some preview) editUrl (some ("https://" ++ jsTrim t))
          "Landing page generated and published successfully!" ∈
        (cloneStream w fuel req).events ∧
      ∀ e ∈ (cloneStream w fuel req).events, e.isComplete = true →
        e = .complete true screenshot (some preview) editUrl (some ("https://" ++ jsTrim t))
          "Landing page generated and published successfully!" :=
  (cloneStream_finished w fuel req).2 t h

/-- C9 at a run whose span shows ` site.dev.animaapp.io `. -/
theorem C9_published_complete_witness :
    ∃ screenshot preview editUrl,
      Event.complete true screenshot (some preview) editUrl
          (some ("https://" ++ jsTrim " site.dev.animaapp.io "))
          "Landing page generated and published successfully!" ∈
        (cloneStream happyWorld 1 plainRequest).events ∧
      ∀ e ∈ (cloneStream happyWorld 1 plainRequest).events, e.isComplete = true →
        e = .complete true screenshot (some preview) editUrl
          (some ("https://" ++ jsTrim " site.dev.animaapp.io "))
          "Landing page generated and published successfully!" :=
  C9_published_complete happyWorld 1 plainRequest " site.dev.animaapp.io " (by decide!)

/-- C10, at a failing input.  The claim: when the preview is captured and both publish
attempts fail, the session emits the status `Publish could not be completed. Showing
preview.`, then `complete`, and no `error` event.  The code: it does emit that status
and that `complete` event, but when `browser.close()` then rejects an `error` event
follows. -/
theorem C10_error_after_preview_only :
    Event.status "Publish could not be completed. Showing preview." 27 none ∈
        (cloneStream noAddressWorld 1 plainRequest).events ∧
      (cloneStream noAddressWorld 1 plainRequest).events.filter Event.isTerminal =
        [.complete true "/screenshots/clone-final-1014.png"
            (some "/screenshots/preview-1021.png") "https://dev.animaapp.com/chat/1" none
            "Landing page generated! Publish could not be completed — preview shown below.",
          .error "Failed to clone website: Target closed" "at close"] := by
  decide!
/-- C17 fails as stated: on the text `9007199254740993%` the extractor returns the
percentage 9007199254740992, the double nearest to the value of the digit run, and not
that value. -/
theorem C17_long_run_is_rounded :
    matchPercent "9007199254740993%".data = some "9007199254740993".data ∧
    mathInt "9007199254740993".data = 9007199254740993 ∧
    progressText ["9007199254740993%"] =
      some ⟨some (.finite 9007199254740992), utf16 "9007199254740993%"⟩ := by
  decide!

/-- C17, as the code has it.  When some element text contains a run of digits
immediately followed by `%`, the extractor returns the trimmed text of the first such
element (the elements before it contain none, whatever else they contain, milestone
phrases included) with the Number value of a run `ds` of that text which is a maximal
run of digits (the character before it is not a digit), is immediately followed by `%`,
and is the leftmost such run (no digit before it is followed by `%`).  The Number value
is the decimal value of the run rounded to the nearest double: the decimal value itself
when that is below 2^53. -/
theorem C17_percent_extraction (els : List String)
    (h : ∃ t ∈ els, hasDigitPercent t.data = true) :
    ∃ before text after pre ds post,
      els = before ++ text :: after ∧
      (∀ t ∈ before, hasDigitPercent t.data = false) ∧
      text.data = pre ++ ds ++ '%' :: post ∧
      ds ≠ [] ∧ (∀ c ∈ ds, c.isDigit = true) ∧
      (∀ c, pre.getLast? = some c → c.isDigit = false) ∧
      hasDigitPercent pre = false ∧
      progressText els = some ⟨some (toDouble (decimalValue ds)), utf16 (jsTrim text)⟩ ∧
      (decimalValue ds < 2 ^ 53 → toDouble (decimalValue ds) = .finite (decimalValue ds)) := by
  obtain ⟨before, text, after, ds, hels, hbefore, hds, hres⟩ := progressText_percent els h
  obtain ⟨pre, post, htext, hne, hdig, hlast, hleft⟩ := matchPercent_some hds
  exact ⟨before, text, after, pre, ds, post, hels, hbefore, htext, hne, hdig, hlast, hleft,
    by rw [hres, parseInt_eq_toDouble], toDouble_exact⟩

/-- C17, on the texts "Let's build the page" (a milestone phrase) and
" Generating 12a 45% of 100% ". -/
theorem C17_percent_extraction_witness :
    (∃ t ∈ ["Let's build the page", " Generating 12a 45% of 100% "],
      hasDigitPercent t.data = true) ∧
    ∃ before text after pre ds post,
      ["Let's build the page", " Generating 12a 45% of 100% "] = before ++ text :: after ∧
      (∀ t ∈ before, hasDigitPercent t.data = false) ∧
      text.data = pre ++ ds ++ '%' :: post ∧
      ds ≠ [] ∧ (∀ c ∈ ds, c.isDigit = true) ∧
      (∀ c, pre.getLast? = some c → c.isDigit = false) ∧
      hasDigitPercent pre = false ∧
      progressText ["Let's build the page", " Generating 12a 45% of 100% "] =
        some ⟨some (toDouble (decimalValue ds)), utf16 (jsTrim text)⟩ ∧
      (decimalValue ds < 2 ^ 53 → toDouble (decimalValue ds) = .finite (decimalValue ds)) :=
  ⟨⟨" Generating 12a 45% of 100% ", by simp, by decide⟩,
   C17_percent_extraction _ ⟨" Generating 12a 45% of 100% ", by simp, by decide⟩⟩

/-- C19, as the code has it.  The fallback scan accepts a text only if it contains the
suffix `.dev.animaapp.io` and no space character (U+0020); what it returns is that text,
trimmed. -/
theorem C19_fallback_accepts (els : List String) (r : String) (h : allText els = some r) :
    ∃ text ∈ els, r = jsTrim text ∧ includes text ".dev.animaapp.io" = true ∧
      ' ' ∉ text.data := by
  obtain ⟨text, hmem, hr, hs, hsp⟩ := allText_some h
  refine ⟨text, hmem, hr, hs, fun hin => ?_⟩
  have h2 : includes text " " = true := (includesChars_single ' ' text.data).2 hin
  rw [hsp] at h2
  cases h2

/-- C19 on the one text "site.dev.animaapp.io". -/
theorem C19_fallback_accepts_witness :
    allText ["site.dev.animaapp.io"] = some "site.dev.animaapp.io" ∧
    ∃ text ∈ ["site.dev.animaapp.io"], "site.dev.animaapp.io" = jsTrim text ∧
      includes text ".dev.animaapp.io" = true ∧ ' ' ∉ text.data :=
  ⟨by decide, C19_fallback_accepts _ _ (by decide)⟩

/-- C19 fails as stated: a text with a tab inside it is accepted by the fallback scan. -/
theorem C19_tab_is_accepted :
    allText ["site.dev.animaapp.io\tLIVE"] = some "site.dev.animaapp.io\tLIVE" ∧
    hasWhitespace "site.dev.animaapp.io\tLIVE" = true ∧
    '\t' ∈ "site.dev.animaapp.io\tLIVE".data := by
  decide
/-- C15 fails as stated: when the page shows "Generating 250%", the run sends a
`progress` event whose `progress` field is 250. -/
theorem C15_percent_above_100 :
    progressText (overshootWorld.texts 13) =
      some ⟨some (.finite 250), utf16 "Generating 250%"⟩ ∧
    Event.progress (utf16 "Generating 250% (250%)") (.finite 250) 16 ∈
      (cloneStream overshootWorld 1 plainRequest).events := by
  decide!

/-- C15, as the code has it.  The `progress` field of a `progress` event is what the
extractor returned on the texts of the page at some call: 0 when it returned no
percentage, and otherwise the Number value of the digits matched before `%` in one of
the texts, with no upper bound: their decimal value when it is below 2^53, that value
rounded to the nearest double from there on, `Infinity` in the end. -/
theorem C15_progress_value (w : World) (fuel : Nat) (req : Request) (m : JsString)
    (n : JsNumber) (k : Nat)
    (h : Event.progress m n k ∈ (cloneStream w fuel req).events) :
    ∃ t p, progressText (w.texts t) = some p ∧ m = progressMessage p ∧
      ((p.percent = none ∧ n = .finite 0) ∨
        ∃ text ∈ w.texts t, ∃ ds, matchPercent text.data = some ds ∧
          p.percent = some (toDouble (decimalValue ds)) ∧ n = toDouble (decimalValue ds) ∧
          (decimalValue ds < 2 ^ 53 → n = .finite (decimalValue ds))) := by
  obtain ⟨t, p, hp, hm, hn, -⟩ := cloneStream_readProgress w fuel req _ h
  refine ⟨t, p, hp, hm, ?_⟩
  cases hv : p.percent with
  | none => exact Or.inl ⟨rfl, by rw [hn, hv]; rfl⟩
  | some v =>
    obtain ⟨text, hmem, ds, hds, hvd, -⟩ := progressText_source hp hv
    have hnv : n = toDouble (decimalValue ds) := by rw [hn, hv, ← hvd]; rfl
    exact Or.inr ⟨text, hmem, ds, hds, by rw [hvd], hnv,
      fun hlt => by rw [hnv, toDouble_exact hlt]⟩

/-- C15 at a run whose page shows "Generating 250%" at the first poll. -/
theorem C15_progress_value_witness :
    ∃ t p, progressText (overshootWorld.texts t) = some p ∧
      utf16 "Generating 250% (250%)" = progressMessage p ∧
      ((p.percent = none ∧ JsNumber.finite 250 = .finite 0) ∨
        ∃ text ∈ overshootWorld.texts t, ∃ ds, matchPercent text.data = some ds ∧
          p.percent = some (toDouble (decimalValue ds)) ∧
          JsNumber.finite 250 = toDouble (decimalValue ds) ∧
          (decimalValue ds < 2 ^ 53 → JsNumber.finite 250 = .finite (decimalValue ds))) :=
  C15_progress_value overshootWorld 1 plainRequest (utf16 "Generating 250% (250%)")
    (.finite 250) 16 (by decide!)

/-- C18.  A `publishedUrl` that is not null in a `complete` event is `https://` followed
by the trimmed text `d`, where `d` was read from the page (the `textContent` of the
styled span, or the text of an element of the document) and contains the suffix
`.dev.animaapp.io`, and so does what follows `https://`. -/
theorem C18_published_address (w : World) (fuel : Nat) (req : Request) (success : Bool)
    (screenshot editUrl u message : String) (preview : Option String)
    (h : Event.complete success screenshot preview editUrl (some u) message ∈
      (cloneStream w fuel req).events) :
    ∃ d, u = "https://" ++ jsTrim d ∧
      ((∃ t, w.content t = some d) ∨ ∃ t, d ∈ w.texts t) ∧
      includes d ".dev.animaapp.io" = true ∧
      includes (jsTrim d) ".dev.animaapp.io" = true := by
  obtain ⟨d, hu, hs, hread⟩ := (cloneStream_addressed w fuel req).2 _ h
  exact ⟨d, hu, hread, hs, includes_trim d hs⟩

/-- C18 at a run that publishes. -/
theorem C18_published_address_witness :
    ∃ d, "https://site.dev.animaapp.io" = "https://" ++ jsTrim d ∧
      ((∃ t, happyWorld.content t = some d) ∨ ∃ t, d ∈ happyWorld.texts t) ∧
      includes d ".dev.animaapp.io" = true ∧
      includes (jsTrim d) ".dev.animaapp.io" = true :=
  C18_published_address happyWorld 1 plainRequest true "/screenshots/clone-final-1014.png"
    "https://dev.animaapp.com/chat/1" "https://site.dev.animaapp.io"
    "Landing page generated and published successfully!"
    (some "/screenshots/preview-1021.png") (by decide!)

/-- C20 fails: the result page is reached, the two attempts at the preview screenshot
reject, and the `complete` event says that the preview is shown below while its
`previewScreenshot` is null. -/
theorem C20_preview_message_without_path :
    Event.status "Preview is ready!" 21 (some 100) ∈
      (cloneStream previewShotFailsWorld 1 plainRequest).events ∧
    (cloneStream previewShotFailsWorld 1 plainRequest).events.filter Event.isComplete =
      [.complete true "/screenshots/clone-final-1014.png" none
        "https://dev.animaapp.com/chat/1" none
        "Landing page generated! Publish could not be completed — preview shown below."] := by
  decide!
/-- C11.  When every call succeeds, the navigations, the clicks on submit, the fills of
the credentials and the compose calls of the trace are, in this order: one navigation
to the platform, the compose calls when the instructions are not blank, one click on
submit; and, when the `Log in` button is visible at its check, the fill of the e-mail and
of the password, a second navigation to the platform, the compose calls again when the
instructions are not blank, and a second click on submit.  So with the login there are
exactly two navigations and two clicks on submit with each credential filled once in
between, and without it one navigation, one click on submit and no credential. -/
theorem C11_login_branch (w : World) (fuel : Nat) (req : Request) (url : String)
    (hu : req.url = some url) (hp : w.urlParses url = true)
    (hok : ∀ t a, w.fails t a = none) :
    (cloneStream w fuel req).trace.filter Step.isMilestone =
        milestones w url (req.prompt.getD "")
          (w.visible (loginCheckTick (req.prompt.getD "")) .loginButton) ∧
      (cloneStream w fuel req).trace.count (.act (.goto platform)) =
        (if w.visible (loginCheckTick (req.prompt.getD "")) .loginButton then 2 else 1) ∧
      (cloneStream w fuel req).trace.count (.act (.click .submitButton)) =
        (if w.visible (loginCheckTick (req.prompt.getD "")) .loginButton then 2 else 1) ∧
      (cloneStream w fuel req).trace.count (.act (.fill .emailField w.email)) =
        (if w.visible (loginCheckTick (req.prompt.getD "")) .loginButton then 1 else 0) ∧
      (cloneStream w fuel req).trace.count (.act (.fill .passwordField w.password)) =
        (if w.visible (loginCheckTick (req.prompt.getD "")) .loginButton then 1 else 0) ∧
      (cloneStream w fuel req).trace.count (.act (.click .paragraphNth1)) =
        (if hasPrompt (req.prompt.getD "") then
          (if w.visible (loginCheckTick (req.prompt.getD "")) .loginButton then 2 else 1)
        else 0) := by
  have key : (cloneStream w fuel req).trace.filter Step.isMilestone =
      milestones w url (req.prompt.getD "")
        (w.visible (loginCheckTick (req.prompt.getD "")) .loginButton) := by
    obtain ⟨s2, h2, htr⟩ := arrive_ok w url (req.prompt.getD "") hok
      ((St.init w).apply w (.emit (.status "Starting clone process..." 1 none)))
    have hrun := stream_arrived w fuel url (req.prompt.getD "") (St.init w) s2 h2
    obtain ⟨xs, hxs, hall⟩ := (rest_logs w fuel (req.prompt.getD "")).trace_grows s2
    have hfil : xs.filter Step.isMilestone = [] := by
      rw [List.filter_eq_nil_iff]
      intro x hx
      obtain ⟨l, hl, hxl⟩ := hall x hx
      simp [rest_noMilestone w _ l hl x hxl]
    show (cloneStream w fuel req).st.trace.filter Step.isMilestone = _
    rw [(cloneStream_st w fuel req url hu hp).1, hrun, hxs, List.filter_append, hfil, htr]
    simp [St.apply, St.init]
  have hcount : ∀ x : Step, x.isMilestone = true →
      (cloneStream w fuel req).trace.count x =
        (milestones w url (req.prompt.getD "")
          (w.visible (loginCheckTick (req.prompt.getD "")) .loginButton)).count x := by
    intro x hx
    rw [← key, List.count_filter hx]
  refine ⟨key, ?_, ?_, ?_, ?_, ?_⟩
  · rw [hcount (.act (.goto platform)) rfl]
    rcases hprompt : hasPrompt (req.prompt.getD "") with _ | _ <;>
      rcases hvis : w.visible (loginCheckTick (req.prompt.getD "")) .loginButton with _ | _ <;>
      simp [milestones, composeCalls, hprompt, hvis]
  · rw [hcount (.act (.click .submitButton)) rfl]
    rcases hprompt : hasPrompt (req.prompt.getD "") with _ | _ <;>
      rcases hvis : w.visible (loginCheckTick (req.prompt.getD "")) .loginButton with _ | _ <;>
      simp [milestones, composeCalls, hprompt, hvis]
  · rw [hcount (.act (.fill .emailField w.email)) rfl]
    rcases hprompt : hasPrompt (req.prompt.getD "") with _ | _ <;>
      rcases hvis : w.visible (loginCheckTick (req.prompt.getD "")) .loginButton with _ | _ <;>
      simp [milestones, composeCalls, hprompt, hvis]
  · rw [hcount (.act (.fill .passwordField w.password)) rfl]
    rcases hprompt : hasPrompt (req.prompt.getD "") with _ | _ <;>
      rcases hvis : w.visible (loginCheckTick (req.prompt.getD "")) .loginButton with _ | _ <;>
      simp [milestones, composeCalls, hprompt, hvis]
  · rw [hcount (.act (.click .paragraphNth1)) rfl]
    rcases hprompt : hasPrompt (req.prompt.getD "") with _ | _ <;>
      rcases hvis : w.visible (loginCheckTick (req.prompt.getD "")) .loginButton with _ | _ <;>
      simp [milestones, composeCalls, hprompt, hvis]

/-- C11 at a run with instructions in which the login is asked and every call succeeds:
the milestones of its trace, and the counts of two of them. -/
theorem C11_login_branch_witness :
    (promptRequest.url = some "https://example.com" ∧
      loginWorld.urlParses "https://example.com" = true ∧
      ∀ t a, loginWorld.fails t a = none) ∧
    (cloneStream loginWorld 1 promptRequest).trace.filter Step.isMilestone =
      milestones loginWorld "https://example.com" "Make it blue" true ∧
    (cloneStream loginWorld 1 promptRequest).trace.count (.act (.goto platform)) = 2 ∧
    (cloneStream loginWorld 1 promptRequest).trace.count (.act (.click .submitButton)) = 2 :=
  ⟨⟨rfl, by decide, fun _ _ => rfl⟩,
    (C11_login_branch loginWorld 1 promptRequest "https://example.com" rfl (by decide)
      (fun _ _ => rfl)).1,
    (C11_login_branch loginWorld 1 promptRequest "https://example.com" rfl (by decide)
      (fun _ _ => rfl)).2.1,
    (C11_login_branch loginWorld 1 promptRequest "https://example.com" rfl (by decide)
      (fun _ _ => rfl)).2.2.1⟩


/-- C13.  When the launch, the new context and the new page succeed and the first
navigation to the platform rejects with message `r`, the events are exactly the initial
status and one `error` event with `error` "Failed to clone website: " followed by `r`
(so there is no `complete` event); the calls are exactly the launch, the context, the
page, the navigation and, after the `error` event, the close of the browser (so there is
no click on submit); and the response is ended. -/
theorem C13_navigation_failure (w : World) (fuel : Nat) (req : Request) (url r stack : String)
    (hu : req.url = some url) (hp : w.urlParses url = true)
    (h0 : w.fails 0 .launch = none) (h1 : w.fails 1 .newContext = none)
    (h2 : w.fails 2 .newPage = none) (h3 : w.fails 3 (.goto platform) = some ⟨r, stack⟩) :
    (cloneStream w fuel req).events =
        [.status "Starting clone process..." 1 none,
         .error ("Failed to clone website: " ++ r) stack] ∧
      (cloneStream w fuel req).history =
        [.sent (.status "Starting clone process..." 1 none), .did (.act .launch),
         .did (.act .newContext), .did (.act .newPage), .did (.act (.goto platform)),
         .sent (.error ("Failed to clone website: " ++ r) stack), .did (.act .close)] ∧
      (cloneStream w fuel req).trace =
        [.act .launch, .act .newContext, .act .newPage, .act (.goto platform), .act .close] ∧
      (cloneStream w fuel req).st.ended = true ∧ (cloneStream w fuel req).returned = true := by
  have hne : url ≠ "" := by
    rintro rfl
    rw [w.parse_empty] at hp
    cases hp
  rcases hc : w.fails 4 .close with _ | e <;>
    simp [cloneStream, hu, hne, hp, Run.events, Run.history, Run.trace, stream, tryStatement,
      tryBlock, generate, catchBlock, bind_run, tryCatchM_run, sendProgress, perform, setSt,
      getSt, St.init, St.after, h0, h1, h2, h3, hc, pure_run]

/-- C13 at a run whose navigation times out. -/
theorem C13_navigation_failure_witness :
    (gotoFailsWorld.fails 0 .launch = none ∧ gotoFailsWorld.fails 1 .newContext = none ∧
      gotoFailsWorld.fails 2 .newPage = none ∧
      gotoFailsWorld.fails 3 (.goto platform) =
        some ⟨"page.goto: Timeout 60000ms exceeded.", "at goto"⟩) ∧
    (cloneStream gotoFailsWorld 1 plainRequest).events =
      [.status "Starting clone process..." 1 none,
       .error ("Failed to clone website: " ++ "page.goto: Timeout 60000ms exceeded.")
         "at goto"] ∧
    (cloneStream gotoFailsWorld 1 plainRequest).trace =
      [.act .launch, .act .newContext, .act .newPage, .act (.goto platform), .act .close] :=
  ⟨⟨rfl, rfl, rfl, rfl⟩,
    (C13_navigation_failure gotoFailsWorld 1 plainRequest "https://example.com"
      "page.goto: Timeout 60000ms exceeded." "at goto" rfl (by decide) rfl rfl rfl rfl).1,
    (C13_navigation_failure gotoFailsWorld 1 plainRequest "https://example.com"
      "page.goto: Timeout 60000ms exceeded." "at goto" rfl (by decide) rfl rfl rfl rfl).2.2.1⟩

/-- C14.  The `try` around the compose sub-sequence always returns, whichever of its
calls rejects.  And in a session with instructions that are not blank in which the one
call that rejects, if any, is a step of the compose sub-sequence (the call at tick `t0`,
with `t0` from 5 to 15 for the eleven steps before the login, or from 29 to 39 for the
eleven steps after a login asked at tick 18; the last step is the wait of three seconds),
no `error` event is sent, the compose sub-sequence is started, the submit button is
clicked, and every compose call of the trace, before or after the login, has a click on
the submit button after it. -/
theorem C14_compose_failure_contained (w : World) (fuel : Nat) (req : Request) (url : String)
    (t0 : Nat) (hu : req.url = some url) (hp : w.urlParses url = true)
    (hprompt : hasPrompt (req.prompt.getD "") = true)
    (hfail : FailsOnlyAt w t0)
    (hstep : (5 ≤ t0 ∧ t0 ≤ 15) ∨
      (29 ≤ t0 ∧ t0 ≤ 39 ∧ w.visible 18 .loginButton = true)) :
    (∀ s, ∃ s1, tryCatchM (composePrompt w url (req.prompt.getD "")) (fun _ => pure ()) s =
      (.ret (), s1)) ∧
    (∀ e ∈ (cloneStream w fuel req).events, e.isError = false) ∧
    Step.act (.click .paragraphNth1) ∈ (cloneStream w fuel req).trace ∧
    Step.act (.click .submitButton) ∈ (cloneStream w fuel req).trace ∧
    SubmitFollows (cloneStream w fuel req).trace := by
  have hst := (cloneStream_st w fuel req url hu hp).1
  obtain ⟨s2, h2, hquiet⟩ := contained_run w fuel url (req.prompt.getD "") t0 hprompt hfail hstep
  refine ⟨guarded_returns w url _, ?_, ?_⟩
  · show ∀ e ∈ (cloneStream w fuel req).st.events, _
    rw [hst]
    have h1 : stream w fuel url (req.prompt.getD "") (St.init w) =
        tryCatchM (tryBlock w fuel url (req.prompt.getD "")) (catchBlock w)
          ((St.init w).apply w (.emit (.status "Starting clone process..." 1 none))) := rfl
    rw [h1, tryCatchM_calm _ _ _ hquiet]
    refine (tryBlock_logs w fuel url (req.prompt.getD "")).all_events _
      (fun l e hl he => try_noError w url _ l e (Or.inr hl) he) _ ?_
    intro e he
    simp [St.apply, St.init] at he
    subst he
    rfl
  · have hs2 : Settled s2 := by
      have := (arrive_settled w url (req.prompt.getD "")).run
        ((St.init w).apply w (.emit (.status "Starting clone process..." 1 none)))
        (by intro pre x post h; simp [St.apply, St.init] at h)
      rw [h2] at this
      exact this
    have hstart : Step.act (.click .paragraphNth1) ∈ s2.trace := by
      have := (arrive_starts w url (req.prompt.getD "") hprompt).run
        ((St.init w).apply w (.emit (.status "Starting clone process..." 1 none))) trivial
      rw [h2] at this
      exact this
    obtain ⟨xs, hxs, -⟩ := (rest_logs w fuel (req.prompt.getD "")).trace_grows s2
    have hfin := (settled_logs (rest_logs w fuel (req.prompt.getD ""))
      (rest_noCompose w _)).run s2 hs2
    have hrun := stream_arrived w fuel url (req.prompt.getD "") (St.init w) s2 h2
    have hfinal : Settled (cloneStream w fuel req).st := by
      rw [hst, hrun]
      rcases hr : tryCatchM (watch w fuel (req.prompt.getD "") >>= fun _ => conclude w)
        (catchBlock w) s2 with ⟨o, s3⟩
      rw [hr] at hfin
      cases o <;> exact hfin
    refine ⟨?_, hfinal⟩
    show _ ∈ (cloneStream w fuel req).st.trace
    rw [hst, hrun, hxs]
    exact List.mem_append_left _ hstart

/-- C14 at two runs with instructions in which the login is asked and the last step of
the compose sub-sequence, its wait of three seconds, rejects: before the login
(`lastWaitFailsWorld`, tick 15) and after it (`secondWaitFailsWorld`, tick 39).  The
calls at ticks 5 to 15, and 29 to 39, are the eleven steps, the next call is the click
on the submit button, and the run sends no `error` event. -/
theorem C14_compose_failure_contained_witness :
    ((hasPrompt (promptRequest.prompt.getD "") = true ∧ FailsOnlyAt lastWaitFailsWorld 15 ∧
        lastWaitFailsWorld.fails 15 (.waitForTimeout 3000) ≠ none) ∧
      (((cloneStream lastWaitFailsWorld 1 promptRequest).trace.take 17).drop 5 =
        [.act (.click .paragraphNth1), .act (.waitForTimeout 300),
        .act (.click .paragraphFirst), .act (.waitForTimeout 300),
        .act (.fill .textbox "Make it blue\n\n\n"), .act (.type .textbox "/"),
        .act (.waitForTimeout 1000), .act (.click .cloneWebsite), .act (.click .linkField),
        .act (.fill .linkField "https://example.com"), .act (.waitForTimeout 3000),
        .act (.click .submitButton)]) ∧
      (∀ e ∈ (cloneStream lastWaitFailsWorld 1 promptRequest).events, e.isError = false) ∧
      Step.act (.click .paragraphNth1) ∈
        (cloneStream lastWaitFailsWorld 1 promptRequest).trace ∧
      Step.act (.click .submitButton) ∈
        (cloneStream lastWaitFailsWorld 1 promptRequest).trace ∧
      SubmitFollows (cloneStream lastWaitFailsWorld 1 promptRequest).trace) ∧
    ((FailsOnlyAt secondWaitFailsWorld 39 ∧
        secondWaitFailsWorld.visible 18 .loginButton = true ∧
        secondWaitFailsWorld.fails 39 (.waitForTimeout 3000) ≠ none) ∧
      (((cloneStream secondWaitFailsWorld 1 promptRequest).trace.take 41).drop 29 =
        [.act (.click .paragraphNth1), .act (.waitForTimeout 300),
        .act (.click .paragraphFirst), .act (.waitForTimeout 300),
        .act (.fill .textbox "Make it blue\n\n\n"), .act (.type .textbox "/"),
        .act (.waitForTimeout 1000), .act (.click .cloneWebsite), .act (.click .linkField),
        .act (.fill .linkField "https://example.com"), .act (.waitForTimeout 3000),
        .act (.click .submitButton)]) ∧
      (∀ e ∈ (cloneStream secondWaitFailsWorld 1 promptRequest).events, e.isError = false) ∧
      Step.act (.click .paragraphNth1) ∈
        (cloneStream secondWaitFailsWorld 1 promptRequest).trace ∧
      Step.act (.click .submitButton) ∈
        (cloneStream secondWaitFailsWorld 1 promptRequest).trace ∧
      SubmitFollows (cloneStream secondWaitFailsWorld 1 promptRequest).trace) :=
  have hw : FailsOnlyAt lastWaitFailsWorld 15 := by
    intro t a h
    by_contra hne
    simp [lastWaitFailsWorld, hne] at h
  have hw2 : FailsOnlyAt secondWaitFailsWorld 39 := by
    intro t a h
    by_contra hne
    simp [secondWaitFailsWorld, hne] at h
  ⟨⟨⟨by decide, hw, by decide⟩, by decide!,
      (C14_compose_failure_contained lastWaitFailsWorld 1 promptRequest "https://example.com"
        15 rfl (by decide) (by decide) hw (Or.inl ⟨by decide, by decide⟩)).2⟩,
    ⟨⟨hw2, by decide, by decide⟩, by decide!,
      (C14_compose_failure_contained secondWaitFailsWorld 1 promptRequest
        "https://example.com" 39 rfl (by decide) (by decide) hw2
        (Or.inr ⟨by decide, by decide, by decide⟩)).2⟩⟩

/-- C16.  In every run the history interleaves the events and the trace, and:
there is at most one `preview_ready` event; every click on a publish button and every
status `Publishing website...` has a `preview_ready` event before it in the history; and
the `previewScreenshot` of a `complete` event is the one of the `preview_ready` event. -/
theorem C16_preview_ready_once (w : World) (fuel : Nat) (req : Request) :
    ((cloneStream w fuel req).history.filterMap Entry.event? = (cloneStream w fuel req).events ∧
      (cloneStream w fuel req).history.filterMap Entry.step? =
        (cloneStream w fuel req).trace) ∧
    (cloneStream w fuel req).events.countP Event.isPreviewReady ≤ 1 ∧
    (∀ pre x post, (cloneStream w fuel req).history = pre ++ x :: post →
      x.isPublishing = true → ∃ y ∈ pre, y.isPreviewReady = true) ∧
    ∀ v m success screenshot pv editUrl pu msg,
      Event.preview_ready v m ∈ (cloneStream w fuel req).events →
      Event.complete success screenshot pv editUrl pu msg ∈ (cloneStream w fuel req).events →
      pv = some v :=
  ⟨cloneStream_coherent w fuel req, (cloneStream_previewOnce w fuel req).1,
    (cloneStream_previewOnce w fuel req).2.1, (cloneStream_previewOnce w fuel req).2.2⟩

/-- C12 fails as stated: the page is on its result address at no look before the ceiling
passes (the first 19 calls, the last of which is the `Date.now()` that ends the loop), and
is on it at the last look after the loop.  No status `Preview is ready!` is sent, the
publish phase runs, and the `complete` event carries a preview path and a published
address. -/
theorem C12_late_result_page :
    (∀ t, t < 19 → includes (lateWorld.location t) "/chat/" = false) ∧
    (cloneStream lateWorld 2 plainRequest).trace.take 21 =
      [.act .launch, .act .newContext, .act .newPage, .act (.goto platform),
       .act (.waitForTimeout 3000), .act (.click .submitButton), .act (.waitForTimeout 2000),
       .act (.isVisible .loginButton), .act (.waitForTimeout 5000), .act .url, .act .now,
       .act .now, .poll, .act .url, .act .evaluateProgress, .act .now, .act .now,
       .act (.screenshot "progress-19201000.png" false), .act (.waitForTimeout 3000),
       .act .now, .act .url] ∧
    Event.status "Preview is ready!" 21 (some 100) ∉
      (cloneStream lateWorld 2 plainRequest).events ∧
    Step.act (.click .publishButton) ∈ (cloneStream lateWorld 2 plainRequest).trace ∧
    (cloneStream lateWorld 2 plainRequest).events.filter Event.isTerminal =
      [.complete true "/screenshots/clone-final-25201000.png"
        (some "/screenshots/preview-33601000.png") "https://dev.animaapp.com/chat/1"
        (some "https://site.dev.animaapp.io")
        "Landing page generated and published successfully!"] := by
  decide!

/-- C12, with the last look included.  When the page is on its result address at no
look (no poll, and not the last look after the loop), the final screenshot does not
reject, and the run takes the final screenshot, the run sends a `complete` event with
`success` true, `previewScreenshot` null, `publishedUrl` null and the message of a run
without result; no `complete` or `error` event comes before it, no `complete` event
after it, and no event at all after it when the idle wait and the close of the browser
do not reject; and the trace holds no click on a publish button and no entry into the
publish loop. -/
theorem C12_ceiling_completes (w : World) (fuel : Nat) (req : Request)
    (hurl : ∀ t, includes (w.location t) "/chat/" = false)
    (hshot : ∀ t file, IsShot "clone-final-" file → w.fails t (.screenshot file false) = none)
    (hreach : ∃ file, IsShot "clone-final-" file ∧
      Step.act (.screenshot file false) ∈ (cloneStream w fuel req).trace) :
    (∃ pre screenshot editUrl post,
      (cloneStream w fuel req).events =
        pre ++ .complete true screenshot none editUrl none
          "Generation process completed (check platform for results)" :: post ∧
      (∀ e ∈ pre, e.isTerminal = false) ∧ (∀ e ∈ post, e.isComplete = false) ∧
      ((∀ t, w.fails t (.waitForTimeout 120000) = none ∧ w.fails t .close = none) →
        post = [])) ∧
    ∀ x ∈ (cloneStream w fuel req).trace, x.isPublishClick = false ∧ x.isAttemptMark = false := by
  obtain ⟨h1, h2⟩ := cloneStream_ceiling w fuel req hurl hshot
  obtain ⟨file, hfile, hmem⟩ := hreach
  obtain ⟨pre, e, post, he, hc, hpre, hpost, hlinger⟩ := h2 ⟨_, hmem, hfile⟩
  refine ⟨?_, fun x hx => ?_⟩
  · cases e with
    | complete success screenshot preview editUrl published message =>
      obtain ⟨rfl, rfl, rfl, rfl⟩ := hc
      exact ⟨pre, screenshot, editUrl, post, he, hpre, hpost, hlinger⟩
    | _ => exact hc.elim
  · have := h1 x hx
    simpa [Step.isPublish] using this

/-- C12 at a run whose page stays on the platform's address and whose calls take twenty
minutes each. -/
theorem C12_ceiling_completes_witness :
    ((∀ t, includes (stuckWorld.location t) "/chat/" = false) ∧
      ∃ file, IsShot "clone-final-" file ∧
        Step.act (.screenshot file false) ∈ (cloneStream stuckWorld 2 plainRequest).trace) ∧
    (∃ pre screenshot editUrl post,
      (cloneStream stuckWorld 2 plainRequest).events =
        pre ++ .complete true screenshot none editUrl none
          "Generation process completed (check platform for results)" :: post ∧
      (∀ e ∈ pre, e.isTerminal = false) ∧ (∀ e ∈ post, e.isComplete = false) ∧
      ((∀ t, stuckWorld.fails t (.waitForTimeout 120000) = none ∧
          stuckWorld.fails t .close = none) → post = [])) ∧
    ∀ x ∈ (cloneStream stuckWorld 2 plainRequest).trace,
      x.isPublishClick = false ∧ x.isAttemptMark = false :=
  have hreach : ∃ file, IsShot "clone-final-" file ∧
      Step.act (.screenshot file false) ∈ (cloneStream stuckWorld 2 plainRequest).trace :=
    ⟨"clone-final-25201000.png", ⟨25201000, by decide!⟩, by decide!⟩
  have hurl : ∀ t, includes (stuckWorld.location t) "/chat/" = false :=
    fun _ => show includes platform "/chat/" = false by decide
  ⟨⟨hurl, hreach⟩,
    C12_ceiling_completes stuckWorld 2 plainRequest hurl (fun _ _ _ => rfl) hreach⟩
/-! ## Claims C21 to C23 -/

/-- C23.  Two results of the progress extractor with the same message are the same
result, and the message of a result is never empty.  Along every run `lastProgress` is
empty until a `progress` event is written and is from then on the message of the last
one, which carries a result of the extractor.  So the report of a result writes its
`progress` event when it is the first one or differs from the result last reported.
Texts are compared as JavaScript strings, percentages as Numbers rendered as a template
literal renders them. -/
theorem C23_message_determines_snapshot (w : World) (fuel : Nat) (req : Request)
    (els1 els2 : List String) (p q : ProgressText)
    (hp : progressText els1 = some p) (hq : progressText els2 = some q) :
    (progressMessage p = progressMessage q → p = q) ∧
      progressMessage p ≠ [] ∧
      Remembered w (cloneStream w fuel req).st ∧
      ∀ s : St, s.lastProgress = [] ∨ (s.lastProgress = progressMessage q ∧ p ≠ q) →
        (reportProgress p s).2.events =
          s.events ++ [.progress (progressMessage p) (p.percent.getD (.finite 0)) 16] := by
  refine ⟨message_injective hp hq, message_not_empty hp, cloneStream_remembered w fuel req,
    fun s hs => ?_⟩
  have hne : progressMessage p ≠ s.lastProgress := by
    rcases hs with hs | ⟨hs, hne⟩
    · rw [hs]
      exact message_not_empty hp
    · rw [hs]
      exact fun h => hne (message_injective hp hq h)
  rw [reportProgress_fresh p s hne]

/-- C23 at a page that shows `Scanning page elements` and then
`Scanning page elements: 31%`: the second snapshot is reported. -/
theorem C23_message_determines_snapshot_witness :
    progressText ["Scanning page elements: 31%"] =
        some ⟨some (.finite 31), utf16 "Scanning page elements: 31%"⟩ ∧
      progressText ["Scanning page elements"] =
        some ⟨none, utf16 "Scanning page elements"⟩ ∧
      (reportProgress ⟨some (.finite 31), utf16 "Scanning page elements: 31%"⟩
          { St.init happyWorld with lastProgress := utf16 "Scanning page elements" }).2.events =
        [.progress (utf16 "Scanning page elements: 31% (31%)") (.finite 31) 16] :=
  ⟨by decide!, by decide!,
    (C23_message_determines_snapshot happyWorld 1 plainRequest
      ["Scanning page elements: 31%"] ["Scanning page elements"]
      ⟨some (.finite 31), utf16 "Scanning page elements: 31%"⟩
      ⟨none, utf16 "Scanning page elements"⟩
      (by decide!) (by decide!)).2.2.2
      { St.init happyWorld with lastProgress := utf16 "Scanning page elements" }
      (Or.inr ⟨rfl, by decide⟩)⟩

/-- C21.  The intermediate screenshot is taken only at a poll at which the whole seconds
elapsed since `startTime` are a multiple of 30 (line 319).  In `driftWorld` the polls are
four seconds apart and reach that test at 1, 5, 9, ... seconds: after 20 polls 80 seconds
have passed, after 100 polls 400 seconds, and no intermediate screenshot was taken,
whereas `stuckWorld` has one at its first poll.  The other half holds: the body of a poll
returns whichever of its calls reject, and in `rejectingWorld`, where every intermediate
screenshot rejects, 25 polls are made with three captures attempted and no `error`
event. -/
theorem C21_capture_only_at_multiples_of_30 :
    WaitAdvances driftWorld ∧
      ((cloneStream driftWorld 20 plainRequest).returned = false ∧
        (cloneStream driftWorld 20 plainRequest).st.polls = 20 ∧
        (cloneStream driftWorld 20 plainRequest).st.clock =
          (cloneStream driftWorld 0 plainRequest).st.clock + 80000 ∧
        (cloneStream driftWorld 20 plainRequest).trace.any Step.isCapture = false) ∧
      ((cloneStream driftWorld 100 plainRequest).st.polls = 100 ∧
        (cloneStream driftWorld 100 plainRequest).st.clock =
          (cloneStream driftWorld 0 plainRequest).st.clock + 400000 ∧
        (cloneStream driftWorld 100 plainRequest).trace.any Step.isCapture = false) ∧
      (cloneStream stuckWorld 1 plainRequest).trace.any Step.isCapture = true ∧
      ((cloneStream rejectingWorld 25 plainRequest).returned = false ∧
        (cloneStream rejectingWorld 25 plainRequest).st.polls = 25 ∧
        (cloneStream rejectingWorld 25 plainRequest).trace.countP Step.isCapture = 3 ∧
        (cloneStream rejectingWorld 25 plainRequest).events.any Event.isError = false) ∧
      ∀ (w : World) (startTime : Nat) (s : St),
        (pollBody w startTime s).1.isThrown = false ∧
          (pollBody w startTime s).1.isPending = false :=
  ⟨waitAdvances_drift, by decide!, by decide!, by decide!, by decide!, pollBody_returns⟩

/-- C22.  When every end-of-poll wait that returns takes at least 3000 ms on the clock,
a run enters the body of the monitoring loop at most 700 times, whichever calls reject,
and the handler returns when the loop has fuel for 701 evaluations of its condition.
The same holds of the loop with its reading of `startTime`, from any state. -/
theorem C22_monitoring_terminates (w : World) (fuel : Nat) (req : Request)
    (hw : WaitAdvances w) :
    (cloneStream w fuel req).st.polls ≤ 700 ∧
      (700 < fuel → (cloneStream w fuel req).returned = true) ∧
      ∀ s : St,
        ((dateNow w >>= fun startTime => monitor w startTime fuel) s).2.polls ≤ s.polls + 700 ∧
          (700 < fuel →
            ((dateNow w >>= fun startTime => monitor w startTime fuel) s).1.isPending = false) :=
  ⟨(cloneStream_bound w fuel req hw).1, (cloneStream_bound w fuel req hw).2,
    fun s => ⟨(timed_bound w fuel hw).1 s, fun hf => (timed_bound w fuel hw).2 hf s⟩⟩

/-- C22 in `rejectingWorld`, where the evaluation of the progress extractor and the
intermediate screenshots reject at every poll, with fuel for 701 evaluations of the
condition of the loop. -/
theorem C22_monitoring_terminates_witness :
    WaitAdvances rejectingWorld ∧
      (cloneStream rejectingWorld 701 plainRequest).st.polls ≤ 700 ∧
      (cloneStream rejectingWorld 701 plainRequest).returned = true :=
  ⟨waitAdvances_rejecting,
    (C22_monitoring_terminates rejectingWorld 701 plainRequest waitAdvances_rejecting).1,
    (C22_monitoring_terminates rejectingWorld 701 plainRequest waitAdvances_rejecting).2.1
      (by decide)⟩

end CloneFlow
